import Mathlib

/-!
Verification development for two subsystems of a blockchain node client:
the `NonCanonicalOverlay` canonicalization window
(`substrate/client/state-db/src/noncanonical.rs`) and the `SyncingEngine`
actor (`substrate/client/network/sync/src/engine.rs`).

The Rust code is shallowly embedded: hashes, keys and byte buffers are
instantiated at `Nat` / `List Nat` (the code only requires equality and
hashing of these types); `HashMap` becomes an association list with
overwrite-in-place insertion and first-occurrence erasure; `VecDeque` of
levels becomes a `List` whose head is the front; metadata keys and encoded
values (produced by the injective `to_meta_key` / SCALE `encode`) are
represented symbolically by inductive types.  Fallible operations return an
explicit result type in which Rust panics (`expect`, out-of-bounds) are a
distinguished `panic` outcome; unbounded loops take a fuel argument whose
exhaustion is also mapped to `panic`.
-/

namespace StateDbVerify

/-- Block hashes: the code requires only equality/hash/clone, so we
instantiate at `Nat`. -/
abbrev BlockHash := Nat

/-- State-trie keys, instantiated at `Nat`. -/
abbrev Key := Nat

/-- `DBValue = Vec<u8>`: opaque byte buffer. -/
abbrev DBValue := List Nat

/-- Association-list map mirroring `std::collections::HashMap`.
Key occurrence is unique by construction of the operations below;
`HashMap` equality (which is order-insensitive) is expressed through the
extensional `MapEq` predicate. -/
abbrev Assoc (K V : Type) := List (K × V)

namespace Assoc

variable {K V : Type} [DecidableEq K]

/-- `HashMap::get`. -/
def lookup : Assoc K V → K → Option V
  | [], _ => none
  | (k2, v) :: rest, k => if k2 = k then some v else lookup rest k

/-- `HashMap::contains_key`. -/
def containsKey (m : Assoc K V) (k : K) : Bool :=
  (lookup m k).isSome

/-- `HashMap::insert` (overwrite in place if the key is present, append
  otherwise). -/
def insertU : Assoc K V → K → V → Assoc K V
  | [], k, v => [(k, v)]
  | (k2, v2) :: rest, k, v =>
      if k2 = k then (k, v) :: rest else (k2, v2) :: insertU rest k v

/-- `HashMap::remove` (removes the first occurrence of the key). -/
def eraseKey : Assoc K V → K → Assoc K V
  | [], _ => []
  | (k2, v) :: rest, k => if k2 = k then rest else (k2, v) :: eraseKey rest k

/-- The list of keys of the map. -/
def keysOf (m : Assoc K V) : List K :=
  m.map Prod.fst

/-- Extensional equality of maps: same lookup at every key.  This is the
  meaning of `HashMap` equality in the Rust code. -/
def MapEq (m1 m2 : Assoc K V) : Prop :=
  ∀ k, lookup m1 k = lookup m2 k

end Assoc

open Assoc

/-! ## Data model of `noncanonical.rs` -/

/-- Symbolic form of the metadata keys produced by the injective
`to_meta_key` encoding: `LAST_CANONICAL`, the journal key
`to_journal_key(block, index)` and the per-level span key
`to_meta_key(OVERLAY_LEVEL_SPAN, &block)`. -/
inductive MetaKey where
  | lastCanonical : MetaKey
  | journal (block : Nat) (index : Nat) : MetaKey
  | levelSpan (block : Nat) : MetaKey
deriving DecidableEq, Repr

/-- `JournalRecord { hash, parent_hash, inserted, deleted }`. -/
structure JournalRecord where
  hash : BlockHash
  parentHash : BlockHash
  inserted : List (Key × DBValue)
  deleted : List Key
deriving DecidableEq, Repr

/-- Symbolic form of the SCALE-encoded metadata values (the encoding is
injective, so we keep the structured data). -/
inductive MetaValue where
  | lastCanon (h : BlockHash) (n : Nat) : MetaValue
  | record (r : JournalRecord) : MetaValue
  | span (n : Nat) : MetaValue
deriving DecidableEq, Repr

/-- `ChangeSet { inserted: Vec<(Key, DBValue)>, deleted: Vec<Key> }`
(Modelled from the spec: declared in the crate root, outside the
provided sources; spec section 3.3). -/
structure ChangeSet where
  inserted : List (Key × DBValue)
  deleted : List Key
deriving DecidableEq, Repr

/-- The metadata half of a `CommitSet`, with symbolic keys/values. -/
structure MetaChangeSet where
  inserted : List (MetaKey × MetaValue)
  deleted : List MetaKey
deriving DecidableEq, Repr

/-- `CommitSet { data, meta }` (Modelled from the spec: declared in the
crate root, outside the provided sources; spec section 3.3). -/
structure CommitSet where
  data : ChangeSet
  meta : MetaChangeSet
deriving DecidableEq, Repr

def CommitSet.default : CommitSet :=
  { data := { inserted := [], deleted := [] }
    meta := { inserted := [], deleted := [] } }

/-- `BlockOverlay`: the `inserted` list holds only keys, the values live
in the ref-counted `values` table. -/
structure BlockOverlay where
  hash : BlockHash
  journalIndex : Nat
  journalKey : MetaKey
  inserted : List Key
  deleted : List Key
deriving DecidableEq, Repr

/-- `OVERLAY_LEVEL_STORE_SPANS_LONGER_THAN = 32`. -/
def OVERLAY_LEVEL_STORE_SPANS_LONGER_THAN : Nat := 32

/-- `OverlayLevel { blocks, used_indicies, span }`; `used_indicies` is a
u64 bitmask (kept as a `Nat`; the code never uses indices ≥ 64 on sane
states, the spec notes that exceeding a width of 64 is an implementer
bug). -/
structure OverlayLevel where
  blocks : List BlockOverlay
  usedIndicies : Nat
  span : Nat
deriving DecidableEq, Repr

/-- `u64::trailing_ones` for values below `2^64`. -/
def u64TrailingOnes (n : Nat) : Nat :=
  ((List.range 64).takeWhile (fun i => n.testBit i)).length

/-- 64-bit all-ones mask, used to model `!x` on `u64`. -/
def u64Mask : Nat := 2 ^ 64 - 1

namespace OverlayLevel

/-- `OverlayLevel::push`. -/
def push (lvl : OverlayLevel) (b : BlockOverlay) : OverlayLevel :=
  { blocks := lvl.blocks ++ [b]
    usedIndicies := lvl.usedIndicies ||| (1 <<< b.journalIndex)
    span := max lvl.span (b.journalIndex + 1) }

/-- `OverlayLevel::available_index`. -/
def availableIndex (lvl : OverlayLevel) : Nat :=
  u64TrailingOnes lvl.usedIndicies

/-- `OverlayLevel::remove(index)`; out-of-bounds access is a Rust panic,
returned as `none`. -/
def removeAt (lvl : OverlayLevel) (i : Nat) : Option (BlockOverlay × OverlayLevel) :=
  match lvl.blocks.get? i with
  | none => none
  | some b =>
      some (b,
        { blocks := lvl.blocks.eraseIdx i
          usedIndicies := lvl.usedIndicies &&& (u64Mask ^^^ (1 <<< b.journalIndex))
          span := lvl.span })

/-- `OverlayLevel::new_with_span`. -/
def newWithSpan (span : Nat) : OverlayLevel :=
  { blocks := [], usedIndicies := 0, span := span }

/-- `OverlayLevel::new`. -/
def new : OverlayLevel := newWithSpan 0

end OverlayLevel

/-- `StateDbError` variants relevant to the overlay. -/
inductive StateDbError where
  | invalidBlockNumber
  | invalidParent
  | blockAlreadyExists
  | invalidBlock
deriving DecidableEq, Repr

/-- `NonCanonicalOverlay`.  `levels` is the `VecDeque` with the front at
the head of the list. -/
structure Overlay where
  lastCanonicalized : Option (BlockHash × Nat)
  levels : List OverlayLevel
  parents : Assoc BlockHash BlockHash
  values : Assoc Key (Nat × DBValue)
  pinned : Assoc BlockHash Nat
  pinnedInsertions : Assoc BlockHash (List Key × Nat)
  pinnedCanonicalized : List BlockHash
deriving DecidableEq, Repr

/-- The overlay produced by `NonCanonicalOverlay::new` on an empty DB. -/
def Overlay.empty : Overlay :=
  { lastCanonicalized := none
    levels := []
    parents := []
    values := []
    pinned := []
    pinnedInsertions := []
    pinnedCanonicalized := [] }

/-- `front_block_number`. -/
def Overlay.frontBlockNumber (s : Overlay) : Nat :=
  match s.lastCanonicalized with
  | some (_, n) => n + 1
  | none => 0

/-- `insert_values`: bump the refcount of every inserted pair (the u32
counter is kept as a `Nat`; overflow past `2^32` would be a debug-build
panic and is unreachable in sane use). -/
def insertValues (values : Assoc Key (Nat × DBValue)) (inserted : List (Key × DBValue)) :
    Assoc Key (Nat × DBValue) :=
  inserted.foldl
    (fun acc kv =>
      match Assoc.lookup acc kv.1 with
      | some (c, v0) => Assoc.insertU acc kv.1 (c + 1, v0)
      | none => Assoc.insertU acc kv.1 (1, kv.2))
    values

/-- `discard_values`: decrement refcounts, dropping entries that reach
zero.  A missing entry is a release-build no-op (`debug_assert!`), and a
stored count of zero never occurs on reachable states. -/
def discardValues (values : Assoc Key (Nat × DBValue)) (inserted : List Key) :
    Assoc Key (Nat × DBValue) :=
  inserted.foldl
    (fun acc k =>
      match Assoc.lookup acc k with
      | some (c, v0) =>
          if c - 1 = 0 then Assoc.eraseKey acc k else Assoc.insertU acc k (c - 1, v0)
      | none => acc)
    values

/-! ## Operations of `NonCanonicalOverlay` -/

/-- `get`: value lookup in the ref-counted table. -/
def Overlay.getVal (s : Overlay) (k : Key) : Option DBValue :=
  (Assoc.lookup s.values k).map (·.2)

/-- `have_block`. -/
def Overlay.haveBlock (s : Overlay) (h : BlockHash) : Bool :=
  Assoc.containsKey s.parents h

/-- `pin`. -/
def Overlay.pinOp (s : Overlay) (hash : BlockHash) : Overlay :=
  match Assoc.lookup s.pinned hash with
  | some c => { s with pinned := Assoc.insertU s.pinned hash (c + 1) }
  | none => { s with pinned := Assoc.insertU s.pinned hash 1 }

/-- The ancestor walk of `unpin` once the pin count reached zero.  The
loop is fueled; exhaustion (`none`) models non-termination on a cyclic
`parents` map, impossible on reachable states.  The u32 refcount
decrement assumes a nonzero stored count (zero counts never occur on
reachable states). -/
def unpinWalk (fuel : Nat) (s : Overlay) (cur : Option BlockHash) : Option Overlay :=
  match fuel with
  | 0 => none
  | fuel + 1 =>
    match cur with
    | none => some s
    | some h =>
      let parent := Assoc.lookup s.parents h
      match Assoc.lookup s.pinnedInsertions h with
      | some (inserted, c) =>
          if c - 1 = 0 then
            unpinWalk fuel
              { s with
                pinnedInsertions := Assoc.eraseKey s.pinnedInsertions h
                values := discardValues s.values inserted
                parents := Assoc.eraseKey s.parents h }
              parent
          else
            unpinWalk fuel
              { s with pinnedInsertions := Assoc.insertU s.pinnedInsertions h (inserted, c - 1) }
              parent
      | none => some s

/-- `unpin`, with an explicit fuel for the ancestor walk. -/
def Overlay.unpinOp (fuel : Nat) (s : Overlay) (hash : BlockHash) : Option Overlay :=
  match Assoc.lookup s.pinned hash with
  | some c =>
      if c - 1 = 0 then
        unpinWalk fuel { s with pinned := Assoc.eraseKey s.pinned hash } (some hash)
      else
        some { s with pinned := Assoc.insertU s.pinned hash (c - 1) }
  | none => some s

/-- `unpin` with sufficient fuel for every terminating walk: the walk
visits each `parents` edge at most once. -/
def Overlay.unpin (s : Overlay) (hash : BlockHash) : Option Overlay :=
  Overlay.unpinOp (s.parents.length + 1) s hash

/-- `sync`: release the auto-pins recorded by `canonicalize`
(`pinned_canonincalized` is taken out before the unpin loop runs). -/
def Overlay.syncOp (s : Overlay) : Option Overlay :=
  let pinnedList := s.pinnedCanonicalized
  let s1 := { s with pinnedCanonicalized := [] }
  pinnedList.foldl
    (fun acc h =>
      match acc with
      | none => none
      | some st => st.unpin h)
    (some s1)

/-- Result of `insert`: the error paths of the source perform no
mutation, so `err` needs no state; `panic` is the
`levels.get_mut(..).expect(..)` out-of-range access. -/
inductive InsertResult where
  | ok (commit : CommitSet) (s2 : Overlay)
  | err (e : StateDbError)
  | panic
deriving DecidableEq, Repr

/-- `insert(hash, number, parent_hash, changeset)`. -/
def Overlay.insertOp (s : Overlay) (hash : BlockHash) (number : Nat)
    (parentHash : BlockHash) (changeset : ChangeSet) : InsertResult :=
  let front := s.frontBlockNumber
  let step1 : Except StateDbError (Overlay × List (MetaKey × MetaValue)) :=
    if s.levels = [] ∧ s.lastCanonicalized = none ∧ 0 < number then
      -- assume that parent was canonicalized
      Except.ok
        ({ s with lastCanonicalized := some (parentHash, number - 1) },
          [(MetaKey.lastCanonical, MetaValue.lastCanon parentHash (number - 1))])
    else if s.lastCanonicalized.isSome then
      if number < front ∨ front + s.levels.length < number then
        Except.error StateDbError.invalidBlockNumber
      else if number = front then
        if (match s.lastCanonicalized with
            | some (h, n) => (h == parentHash) && (n == number - 1)
            | none => false) then
          Except.ok (s, [])
        else
          Except.error StateDbError.invalidParent
      else if (Assoc.lookup s.parents parentHash).isSome then
        Except.ok (s, [])
      else
        Except.error StateDbError.invalidParent
    else
      Except.ok (s, [])
  match step1 with
  | Except.error e => InsertResult.err e
  | Except.ok (s1, meta1) =>
    let pick : Option (List OverlayLevel × Nat) :=
      if s1.levels = [] ∨ number = front + s1.levels.length then
        some (s1.levels ++ [OverlayLevel.new], s1.levels.length)
      else
        match s1.levels.get? (number - front) with
        | some _ => some (s1.levels, number - front)
        | none => none
    match pick with
    | none => InsertResult.panic
    | some (levels2, levelIdx) =>
      match levels2.get? levelIdx with
      | none => InsertResult.panic
      | some level =>
        if level.blocks.any (fun b => b.hash == hash) then
          InsertResult.err StateDbError.blockAlreadyExists
        else
          let index := level.availableIndex
          let spanMeta : List (MetaKey × MetaValue) :=
            if OVERLAY_LEVEL_STORE_SPANS_LONGER_THAN ≤ index ∧ index = level.span then
              [(MetaKey.levelSpan number, MetaValue.span (index + 1))]
            else
              []
          let journalKey := MetaKey.journal number index
          let overlay : BlockOverlay :=
            { hash := hash
              journalIndex := index
              journalKey := journalKey
              inserted := changeset.inserted.map (·.1)
              deleted := changeset.deleted }
          let record : JournalRecord :=
            { hash := hash
              parentHash := parentHash
              inserted := changeset.inserted
              deleted := changeset.deleted }
          let commit : CommitSet :=
            { data := { inserted := [], deleted := [] }
              meta :=
                { inserted := meta1 ++ spanMeta ++ [(journalKey, MetaValue.record record)]
                  deleted := [] } }
          InsertResult.ok commit
            { s1 with
              levels := levels2.set levelIdx (level.push overlay)
              parents := Assoc.insertU s1.parents hash parentHash
              values := insertValues s1.values changeset.inserted }

/-- The continuation of `insert` after the error checks (level selection,
journal-index allocation and commit construction); used by the proofs to
factor the case analysis of `insertOp`.  `s1` and `meta1` are the state
and metadata produced by the checks, `front` the front block number read
before them. -/
def insertTail (s1 : Overlay) (meta1 : List (MetaKey × MetaValue)) (hash : BlockHash)
    (number : Nat) (parentHash : BlockHash) (changeset : ChangeSet) (front : Nat) :
    InsertResult :=
  let pick : Option (List OverlayLevel × Nat) :=
    if s1.levels = [] ∨ number = front + s1.levels.length then
      some (s1.levels ++ [OverlayLevel.new], s1.levels.length)
    else
      match s1.levels.get? (number - front) with
      | some _ => some (s1.levels, number - front)
      | none => none
  match pick with
  | none => InsertResult.panic
  | some (levels2, levelIdx) =>
    match levels2.get? levelIdx with
    | none => InsertResult.panic
    | some level =>
      if level.blocks.any (fun b => b.hash == hash) then
        InsertResult.err StateDbError.blockAlreadyExists
      else
        let index := level.availableIndex
        let spanMeta : List (MetaKey × MetaValue) :=
          if OVERLAY_LEVEL_STORE_SPANS_LONGER_THAN ≤ index ∧ index = level.span then
            [(MetaKey.levelSpan number, MetaValue.span (index + 1))]
          else
            []
        let journalKey := MetaKey.journal number index
        let overlay : BlockOverlay :=
          { hash := hash
            journalIndex := index
            journalKey := journalKey
            inserted := changeset.inserted.map (·.1)
            deleted := changeset.deleted }
        let record : JournalRecord :=
          { hash := hash
            parentHash := parentHash
            inserted := changeset.inserted
            deleted := changeset.deleted }
        let commit : CommitSet :=
          { data := { inserted := [], deleted := [] }
            meta :=
              { inserted := meta1 ++ spanMeta ++ [(journalKey, MetaValue.record record)]
                deleted := [] } }
        InsertResult.ok commit
          { s1 with
            levels := levels2.set levelIdx (level.push overlay)
            parents := Assoc.insertU s1.parents hash parentHash
            values := insertValues s1.values changeset.inserted }

/-- `discard_journals`: depth-first collection of the journal keys of the
subtree rooted at `hash`, reading the remaining `levels` front to back.
Fueled; a missing `parents` entry is the `expect` panic (`none`). -/
def discardJournals (fuel : Nat) (levels : List OverlayLevel)
    (parents : Assoc BlockHash BlockHash) (h : BlockHash) : Option (List MetaKey) :=
  match fuel with
  | 0 => none
  | fuel + 1 =>
    match levels with
    | [] => some []
    | lvl :: rest => discardJournalsBlocks fuel lvl.blocks rest parents h
where
  discardJournalsBlocks (fuel : Nat) (bs : List BlockOverlay) (rest : List OverlayLevel)
      (parents : Assoc BlockHash BlockHash) (h : BlockHash) : Option (List MetaKey) :=
    match fuel with
    | 0 => none
    | fuel + 1 =>
      match bs with
      | [] => some []
      | b :: bs =>
        match Assoc.lookup parents b.hash with
        | none => none
        | some p =>
          if p = h then
            match discardJournals fuel rest parents b.hash with
            | none => none
            | some sub =>
              match discardJournalsBlocks fuel bs rest parents h with
              | none => none
              | some more => some (b.journalKey :: (sub ++ more))
          else
            discardJournalsBlocks fuel bs rest parents h

/-- The mutable-state triple threaded through `discard_descendants`. -/
structure DiscardSt where
  values : Assoc Key (Nat × DBValue)
  parents : Assoc BlockHash BlockHash
  pinnedInsertions : Assoc BlockHash (List Key × Nat)
deriving DecidableEq, Repr

/-- The `position(..)` scan of `discard_descendants`: first block of the
level whose parent edge equals `h`; a missing parent entry is the
`expect` panic. -/
def findChildIdx (blocks : List BlockOverlay) (parents : Assoc BlockHash BlockHash)
    (h : BlockHash) (i : Nat) : Option (Option Nat) :=
  match blocks with
  | [] => some none
  | b :: bs =>
    match Assoc.lookup parents b.hash with
    | none => none
    | some p => if p = h then some (some i) else findChildIdx bs parents h (i + 1)

/-- `discard_descendants`, fueled.  Returns the updated remaining levels,
the updated `(values, parents, pinned_insertions)` and the number of
pinned children found (the Rust return value). -/
def discardDescendants (fuel : Nat) (levels : List OverlayLevel) (st : DiscardSt)
    (pinned : Assoc BlockHash Nat) (h : BlockHash) :
    Option (List OverlayLevel × DiscardSt × Nat) :=
  match fuel with
  | 0 => none
  | fuel + 1 =>
    match levels with
    | [] => some ([], st, 0)
    | lvl :: rest => discardLoop fuel lvl rest st pinned h
where
  discardLoop (fuel : Nat) (lvl : OverlayLevel) (rest : List OverlayLevel) (st : DiscardSt)
      (pinned : Assoc BlockHash Nat) (h : BlockHash) :
      Option (List OverlayLevel × DiscardSt × Nat) :=
    match fuel with
    | 0 => none
    | fuel + 1 =>
      match findChildIdx lvl.blocks st.parents h 0 with
      | none => none
      | some none => some (lvl :: rest, st, 0)
      | some (some i) =>
        match lvl.removeAt i with
        | none => none
        | some (overlay, lvl2) =>
          match discardDescendants fuel rest st pinned overlay.hash with
          | none => none
          | some (rest2, st2, numPinnedRec) =>
            let numPinned :=
              numPinnedRec + (if Assoc.containsKey pinned overlay.hash then 1 else 0)
            let st3 :=
              if numPinned ≠ 0 then
                -- save to be discarded later.
                { st2 with
                  pinnedInsertions :=
                    Assoc.insertU st2.pinnedInsertions overlay.hash (overlay.inserted, numPinned) }
              else
                -- discard immediately.
                { st2 with
                  parents := Assoc.eraseKey st2.parents overlay.hash
                  values := discardValues st2.values overlay.inserted }
            match discardLoop fuel lvl2 rest2 st3 pinned h with
            | none => none
            | some (levels3, st4, acc) => some (levels3, st4, acc + numPinned)

/-- Result of `canonicalize`: the source mutates `self` before both error
returns (popping the front level in the second case), so `err` carries
the resulting state. -/
inductive CanonResult where
  | ok (commit : CommitSet) (number : Nat) (s2 : Overlay)
  | err (e : StateDbError) (s2 : Overlay)
  | panic
deriving DecidableEq, Repr

/-- The sequential value lookups of the canonicalized block
(`values.get(k).expect(..)`); `none` is the panic. -/
def lookupValuesFor (values : Assoc Key (Nat × DBValue)) (ks : List Key) :
    Option (List (Key × DBValue)) :=
  match ks with
  | [] => some []
  | k :: rest =>
    match Assoc.lookup values k with
    | none => none
    | some (_, v) =>
      match lookupValuesFor values rest with
      | none => none
      | some tail => some ((k, v) :: tail)

/-- The per-block loop body of `canonicalize`, threading the overlay
state, the data changeset being built and the discarded-journal list. -/
def canonBlocks (fuel : Nat) (blocks : List BlockOverlay) (i : Nat) (index : Nat)
    (s : Overlay) (dataIns : List (Key × DBValue)) (dataDel : List Key)
    (dj : List MetaKey) :
    Option (Overlay × List (Key × DBValue) × List Key × List MetaKey) :=
  match blocks with
  | [] => some (s, dataIns, dataDel, dj)
  | overlay :: rest =>
    let afterBranch : Option (Overlay × List (Key × DBValue) × List Key × List MetaKey × Nat) :=
      if i = index then
        -- that's the one we need to canonicalize
        match lookupValuesFor s.values overlay.inserted with
        | none => none
        | some pairs => some (s, dataIns ++ pairs, dataDel ++ overlay.deleted, dj, 0)
      else
        -- discard this overlay
        match discardJournals fuel s.levels s.parents overlay.hash with
        | none => none
        | some djSub =>
          match discardDescendants fuel s.levels
              ⟨s.values, s.parents, s.pinnedInsertions⟩ s.pinned overlay.hash with
          | none => none
          | some (levels2, st2, pinnedChildren) =>
            some
              ({ s with
                  levels := levels2
                  values := st2.values
                  parents := st2.parents
                  pinnedInsertions := st2.pinnedInsertions },
                dataIns, dataDel, dj ++ djSub, pinnedChildren)
    match afterBranch with
    | none => none
    | some (s1, dataIns1, dataDel1, dj1, pinnedChildren0) =>
      let pinnedChildren :=
        pinnedChildren0 + (if Assoc.containsKey s1.pinned overlay.hash then 1 else 0)
      let s2 :=
        if pinnedChildren ≠ 0 then
          { s1 with
            pinnedInsertions :=
              Assoc.insertU s1.pinnedInsertions overlay.hash (overlay.inserted, pinnedChildren) }
        else
          { s1 with
            parents := Assoc.eraseKey s1.parents overlay.hash
            values := discardValues s1.values overlay.inserted }
      canonBlocks fuel rest (i + 1) index s2 dataIns1 dataDel1 (dj1 ++ [overlay.journalKey])

/-- Total number of blocks currently stored in `levels`. -/
def Overlay.totalBlocks (s : Overlay) : Nat :=
  (s.levels.map (fun lvl => lvl.blocks.length)).sum

/-- `canonicalize(hash, &mut commit)`.  No failure is possible past the
first two checks; the internal fuel is generous enough for every
reachable state. -/
def Overlay.canonicalizeOp (s : Overlay) (hash : BlockHash) (commit : CommitSet) : CanonResult :=
  match s.levels with
  | [] => CanonResult.err StateDbError.invalidBlock s
  | level :: rest =>
    match level.blocks.findIdx? (fun b => b.hash == hash) with
    | none => CanonResult.err StateDbError.invalidBlock { s with levels := rest }
    | some index =>
      -- no failures are possible beyond this point.
      let s1 := Overlay.pinOp { s with levels := rest } hash
      let s2 := { s1 with pinnedCanonicalized := s1.pinnedCanonicalized ++ [hash] }
      let span := level.span
      let fuel := s.totalBlocks + s.levels.length + 2
      match canonBlocks fuel level.blocks 0 index s2
          commit.data.inserted commit.data.deleted [] with
      | none => CanonResult.panic
      | some (s3, dataIns, dataDel, dj) =>
        let metaDel1 := commit.meta.deleted ++ dj
        let metaDel2 :=
          if OVERLAY_LEVEL_STORE_SPANS_LONGER_THAN < span then
            metaDel1 ++ [MetaKey.levelSpan s3.frontBlockNumber]
          else
            metaDel1
        let number := s3.frontBlockNumber
        let commit2 : CommitSet :=
          { data := { inserted := dataIns, deleted := dataDel }
            meta :=
              { inserted :=
                  commit.meta.inserted ++ [(MetaKey.lastCanonical, MetaValue.lastCanon hash number)]
                deleted := metaDel2 } }
        CanonResult.ok commit2 number { s3 with lastCanonicalized := some (hash, number) }

/-- `revert_one`.  `last_block_number` is computed with u64 (wrapping in
release builds) arithmetic before the pop; it is only used when a level
was actually popped, where no underflow occurs, so `Nat` subtraction is
faithful. -/
def Overlay.revertOne (s : Overlay) : Option (CommitSet × Overlay) :=
  let lastBlockNumber := s.frontBlockNumber + s.levels.length - 1
  match s.levels.getLast? with
  | none => none
  | some level =>
    let rest := s.levels.dropLast
    let step :=
      level.blocks.foldl
        (fun (acc : List MetaKey × Assoc BlockHash BlockHash × Assoc Key (Nat × DBValue)) b =>
          (acc.1 ++ [b.journalKey], Assoc.eraseKey acc.2.1 b.hash, discardValues acc.2.2 b.inserted))
        ([], s.parents, s.values)
    let metaDel :=
      if OVERLAY_LEVEL_STORE_SPANS_LONGER_THAN < level.span then
        step.1 ++ [MetaKey.levelSpan lastBlockNumber]
      else
        step.1
    some
      ({ data := { inserted := [], deleted := [] }
         meta := { inserted := [], deleted := metaDel } },
        { s with levels := rest, parents := step.2.1, values := step.2.2 })

/-- The highest-numbered level containing `hash`, searched from the back
(`enumerate().rev()`), with the block position inside it. -/
def findFromBack (levels : List OverlayLevel) (hash : BlockHash) : Option (Nat × Nat) :=
  match levels with
  | [] => none
  | lvl :: rest =>
    match findFromBack rest hash with
    | some (j, i) => some (j + 1, i)
    | none =>
      match lvl.blocks.findIdx? (fun b => b.hash == hash) with
      | some i => some (0, i)
      | none => none

/-- `remove(hash)`.  Returns the optional commit set and the resulting
state (the source can mutate `self` even when it returns `None`, e.g.
when it only pops an empty back level). -/
def Overlay.removeOp (s : Overlay) (hash : BlockHash) : Option CommitSet × Overlay :=
  let levelCount := s.levels.length
  let afterSearch : Option (List MetaKey × Overlay) :=
    match findFromBack s.levels hash with
    | none => some ([], s)
    | some (levelIdx, blockIdx) =>
      if levelIdx ≠ levelCount - 1 ∧ s.parents.any (fun kv => kv.2 == hash) then
        none
      else
        match s.levels.get? levelIdx with
        | none => some ([], s)
        | some lvl =>
          match lvl.removeAt blockIdx with
          | none => some ([], s)
          | some (overlay, lvl2) =>
            some ([overlay.journalKey],
              { s with
                levels := s.levels.set levelIdx lvl2
                parents := Assoc.eraseKey s.parents overlay.hash
                values := discardValues s.values overlay.inserted })
  match afterSearch with
  | none => (none, s)
  | some (metaDel1, s1) =>
    let popEmpty : List MetaKey × Overlay :=
      match s1.levels.getLast? with
      | some backLvl =>
        if backLvl.blocks = [] then
          let lastBlockNumber := s1.frontBlockNumber + levelCount - 1
          let metaDel2 :=
            if OVERLAY_LEVEL_STORE_SPANS_LONGER_THAN < backLvl.span then
              metaDel1 ++ [MetaKey.levelSpan lastBlockNumber]
            else
              metaDel1
          (metaDel2, { s1 with levels := s1.levels.dropLast })
        else
          (metaDel1, s1)
      | none => (metaDel1, s1)
    match popEmpty with
    | (metaDel, s2) =>
      if metaDel = [] then
        (none, s2)
      else
        (some
          { data := { inserted := [], deleted := [] }
            meta := { inserted := [], deleted := metaDel } },
          s2)

/-! ## The model metadata DB and `NonCanonicalOverlay::new` -/

/-- The model metadata DB consumed by `new` (`get_meta`) and produced as
`CommitSet.meta` by the operations (spec sections 3.3 and 6.3). -/
abbrev DB := Assoc MetaKey MetaValue

/-- Apply the metadata half of a `CommitSet` to the model DB (the `data`
half goes to a different column and is never read back by `new`).  The
inserted and deleted key sets of every produced commit are disjoint, so
the application order is immaterial. -/
def applyCommitMeta (db : DB) (c : CommitSet) : DB :=
  let db1 := c.meta.inserted.foldl (fun acc kv => Assoc.insertU acc kv.1 kv.2) db
  c.meta.deleted.foldl (fun acc k => Assoc.eraseKey acc k) db1

/-- The inner `for index in 0..bound` loop of `new`: read the journal
records of one level.  `none` is a decode error (a value stored under a
journal key that is not a `JournalRecord`). -/
def readIndices (db : DB) (block : Nat) (indices : List Nat)
    (level : OverlayLevel) (parents : Assoc BlockHash BlockHash)
    (values : Assoc Key (Nat × DBValue)) :
    Option (OverlayLevel × Assoc BlockHash BlockHash × Assoc Key (Nat × DBValue)) :=
  match indices with
  | [] => some (level, parents, values)
  | index :: rest =>
    match Assoc.lookup db (MetaKey.journal block index) with
    | none => readIndices db block rest level parents values
    | some (MetaValue.record r) =>
        let overlay : BlockOverlay :=
          { hash := r.hash
            journalIndex := index
            journalKey := MetaKey.journal block index
            inserted := r.inserted.map (·.1)
            deleted := r.deleted }
        readIndices db block rest (level.push overlay)
          (Assoc.insertU parents r.hash r.parentHash) (insertValues values r.inserted)
    | some _ => none

/-- The outer journal-reading loop of `new`, fueled (the Rust loop runs
until the first empty level). -/
def readLevels (fuel : Nat) (db : DB) (block : Nat) (levels : List OverlayLevel)
    (parents : Assoc BlockHash BlockHash) (values : Assoc Key (Nat × DBValue)) :
    Option (List OverlayLevel × Assoc BlockHash BlockHash × Assoc Key (Nat × DBValue)) :=
  match fuel with
  | 0 => none
  | fuel + 1 =>
    let spanRead : Option (Option Nat) :=
      match Assoc.lookup db (MetaKey.levelSpan block) with
      | none => some none
      | some (MetaValue.span n) => some (some n)
      | some _ => none
    match spanRead with
    | none => none
    | some levelSpan =>
      let level0 := OverlayLevel.newWithSpan (levelSpan.getD 0)
      match readIndices db block
          (List.range (levelSpan.getD OVERLAY_LEVEL_STORE_SPANS_LONGER_THAN))
          level0 parents values with
      | none => none
      | some (level, parents2, values2) =>
        if level.blocks = [] then
          some (levels, parents2, values2)
        else
          readLevels fuel db (block + 1) (levels ++ [level]) parents2 values2

/-- `NonCanonicalOverlay::new(db)`, fueled.  `none` covers decode errors
and fuel exhaustion, neither of which occurs on DBs produced by the
operations (with sufficient fuel). -/
def newOverlay (fuel : Nat) (db : DB) : Option Overlay :=
  match Assoc.lookup db MetaKey.lastCanonical with
  | some (MetaValue.lastCanon h n) =>
      match readLevels fuel db (n + 1) [] [] [] with
      | none => none
      | some (levels, parents, values) =>
          some
            { lastCanonicalized := some (h, n)
              levels := levels
              parents := parents
              values := values
              pinned := []
              pinnedInsertions := []
              pinnedCanonicalized := [] }
  | some _ => none
  | none => some Overlay.empty

/-! ## Operation sequences -/

/-- The public mutating operations of the overlay, as used by the
property claims. -/
inductive OvOp where
  | insertB (hash : BlockHash) (number : Nat) (parentHash : BlockHash) (cs : ChangeSet)
  | canonicalizeB (hash : BlockHash)
  | revertOneB
  | removeB (hash : BlockHash)
  | pinB (hash : BlockHash)
  | unpinB (hash : BlockHash)
  | syncB
deriving DecidableEq, Repr

/-- Apply one operation, collecting the commit sets it returns.  `none`
means the operation failed (insert error/panic, canonicalize
error/panic, or a fuel-modelled divergence). -/
def applyOvOp (s : Overlay) : OvOp → Option (Overlay × List CommitSet)
  | OvOp.insertB h n p cs =>
      match s.insertOp h n p cs with
      | InsertResult.ok c s2 => some (s2, [c])
      | _ => none
  | OvOp.canonicalizeB h =>
      match s.canonicalizeOp h CommitSet.default with
      | CanonResult.ok c _ s2 => some (s2, [c])
      | _ => none
  | OvOp.revertOneB =>
      match s.revertOne with
      | some (c, s2) => some (s2, [c])
      | none => some (s, [])
  | OvOp.removeB h =>
      match s.removeOp h with
      | (some c, s2) => some (s2, [c])
      | (none, s2) => some (s2, [])
  | OvOp.pinB h => some (s.pinOp h, [])
  | OvOp.unpinB h =>
      match s.unpin h with
      | some s2 => some (s2, [])
      | none => none
  | OvOp.syncB =>
      match s.syncOp with
      | some s2 => some (s2, [])
      | none => none

/-- Run a sequence of operations from a state, applying every returned
commit set to the model DB as the spec prescribes. -/
def runOpsDb (sd : Overlay × DB) : List OvOp → Option (Overlay × DB)
  | [] => some sd
  | op :: rest =>
    match applyOvOp sd.1 op with
    | none => none
    | some (s2, cs) => runOpsDb (s2, cs.foldl applyCommitMeta sd.2) rest

/-! ## Refcount bookkeeping (claim C4) -/

/-- Occurrences of `k` in the `inserted` lists of a block list. -/
def cntBlocks (bs : List BlockOverlay) (k : Key) : Nat :=
  (bs.map (fun b => b.inserted.count k)).sum

/-- Occurrences of `k` in the `inserted` lists of all blocks of `levels`. -/
def cntLevels (ls : List OverlayLevel) (k : Key) : Nat :=
  (ls.map (fun lvl => cntBlocks lvl.blocks k)).sum

/-- Occurrences of `k` in the key lists stored in `pinned_insertions`. -/
def cntPinnedIns (pi : Assoc BlockHash (List Key × Nat)) (k : Key) : Nat :=
  (pi.map (fun e => e.2.1.count k)).sum

/-- Occurrences of `k` across all live `inserted` lists: the levels plus
`pinned_insertions`. -/
def insCount (s : Overlay) (k : Key) : Nat :=
  cntLevels s.levels k + cntPinnedIns s.pinnedInsertions k

/-- The stored refcount of `k` in a `values` table (0 when absent). -/
def refOf (v : Assoc Key (Nat × DBValue)) (k : Key) : Nat :=
  match Assoc.lookup v k with
  | some (c, _) => c
  | none => 0

/-- Every stored refcount is positive. -/
def NoZero (v : Assoc Key (Nat × DBValue)) : Prop :=
  ∀ k c dv, Assoc.lookup v k = some (c, dv) → 0 < c

/-- The block hashes of all blocks stored in `levels`. -/
def levelHashes (ls : List OverlayLevel) : List BlockHash :=
  (ls.map (fun lvl => lvl.blocks.map (fun b => b.hash))).flatten

/-- Multiplicity of the hash `x` among the blocks of a block list. -/
def hashCntBlocks (bs : List BlockOverlay) (x : BlockHash) : Nat :=
  (bs.map (fun b => b.hash)).count x

/-- Multiplicity of the hash `x` among all blocks of `levels`. -/
def hashCntLevels (ls : List OverlayLevel) (x : BlockHash) : Nat :=
  (ls.map (fun lvl => hashCntBlocks lvl.blocks x)).sum

/-- Multiplicity of the hash `x` among the keys of `pinned_insertions`. -/
def hashCntPI (pi : Assoc BlockHash (List Key × Nat)) (x : BlockHash) : Nat :=
  (Assoc.keysOf pi).count x

/-- The bookkeeping invariant of the ref-counted `values` table: the
stored refcounts match the live occurrence counts, no refcount is zero,
the table's keys are duplicate-free, and every block hash is live at
most once (in `levels` or as a retained `pinned_insertions` key). -/
def CntInv (s : Overlay) : Prop :=
  (∀ k, refOf s.values k = insCount s k) ∧
  NoZero s.values ∧
  (Assoc.keysOf s.values).Nodup ∧
  (∀ x, hashCntLevels s.levels x + hashCntPI s.pinnedInsertions x ≤ 1)

/-- One successful overlay operation (the step relation of the overlay
transition system).  `insert` additionally requires the inserted hash to
be globally fresh — block hashes identify blocks (spec section 3.3). -/
inductive OvStep : Overlay → Overlay → Prop where
  | insertS (s : Overlay) (h p : BlockHash) (n : Nat) (cs : ChangeSet) (c : CommitSet)
      (s2 : Overlay) :
      s.insertOp h n p cs = InsertResult.ok c s2 →
      h ∉ levelHashes s.levels →
      Assoc.lookup s.pinnedInsertions h = none →
      OvStep s s2
  | canonS (s : Overlay) (h : BlockHash) (c : CommitSet) (n : Nat) (s2 : Overlay) :
      s.canonicalizeOp h CommitSet.default = CanonResult.ok c n s2 →
      OvStep s s2
  | revertS (s : Overlay) (c : CommitSet) (s2 : Overlay) :
      s.revertOne = some (c, s2) →
      OvStep s s2
  | removeS (s : Overlay) (h : BlockHash) (r : Option CommitSet) (s2 : Overlay) :
      s.removeOp h = (r, s2) →
      OvStep s s2
  | pinS (s : Overlay) (h : BlockHash) :
      OvStep s (s.pinOp h)
  | unpinS (s : Overlay) (h : BlockHash) (s2 : Overlay) :
      s.unpin h = some s2 →
      OvStep s s2
  | syncS (s : Overlay) (s2 : Overlay) :
      s.syncOp = some s2 →
      OvStep s s2

/-- Overlay states reachable from a fresh overlay by successful
operations. -/
inductive OvReachable : Overlay → Prop where
  | base : OvReachable Overlay.empty
  | step {s s2 : Overlay} : OvReachable s → OvStep s s2 → OvReachable s2

/-- Joint reachability of an overlay and the model DB under the
operations of the amended claim C3 (`insert`, `revert_one`, `pin` and
`unpin`), each returned commit set applied to the DB.  `insert` requires
a fresh hash, a positive first block number (the parent-match
precondition of the spec cannot hold before anything was canonicalized)
and level widths below the 64-slot journal-index capacity noted by the
spec's design notes. -/
inductive ReachableJ : Overlay → DB → Prop where
  | base : ReachableJ Overlay.empty []
  | insertJ {s : Overlay} {db : DB} (h p : BlockHash) (n : Nat) (cs : ChangeSet)
      (c : CommitSet) (s2 : Overlay) :
      ReachableJ s db →
      s.insertOp h n p cs = InsertResult.ok c s2 →
      Assoc.lookup s.parents h = none →
      (s.lastCanonicalized = none → 0 < n) →
      (∀ lvl ∈ s.levels, lvl.blocks.length < 64) →
      ReachableJ s2 (applyCommitMeta db c)
  | revertSomeJ {s : Overlay} {db : DB} (c : CommitSet) (s2 : Overlay) :
      ReachableJ s db →
      s.revertOne = some (c, s2) →
      ReachableJ s2 (applyCommitMeta db c)
  | revertNoneJ {s : Overlay} {db : DB} :
      ReachableJ s db →
      s.revertOne = none →
      ReachableJ s db
  | pinJ {s : Overlay} {db : DB} (h : BlockHash) :
      ReachableJ s db →
      ReachableJ (s.pinOp h) db
  | unpinJ {s : Overlay} {db : DB} (h : BlockHash) (s2 : Overlay) :
      ReachableJ s db →
      s.unpin h = some s2 →
      ReachableJ s2 db

/-- Sample changeset of overlay scenario 1 (spec section 8). -/
def exChangeset : ChangeSet :=
  { inserted := [(3, [3]), (4, [4])], deleted := [2] }

/-- The overlay after `insert(h1 = 101, 1, parent = 100, exChangeset)`
on a fresh instance (used by concrete witnesses). -/
def exOverlay1 : Overlay :=
  match Overlay.insertOp Overlay.empty 101 1 100 exChangeset with
  | InsertResult.ok _ s => s
  | _ => Overlay.empty

/-- The commit set returned by the insert that built `exOverlay1`. -/
def exCommit1 : CommitSet :=
  match Overlay.insertOp Overlay.empty 101 1 100 exChangeset with
  | InsertResult.ok c _ => c
  | _ => CommitSet.default

/-- The model DB after applying `exCommit1`. -/
def exDb1 : DB := applyCommitMeta [] exCommit1

/-! ## Internal invariants used by the inductions -/

/-- The combined list of live block hashes: blocks in `levels` plus the
retained entries of `pinned_insertions`. -/
def liveHashes (s : Overlay) : List BlockHash :=
  levelHashes s.levels ++ Assoc.keysOf s.pinnedInsertions

/-- The structural invariant maintained by every successful operation:
(i) every stored refcount equals the occurrence count of its key across
live `inserted` lists, (ii) stored refcounts are positive, (iii) live
block hashes are pairwise distinct and (iv) every live block hash has a
`parents` entry. -/
def OverlayWF (s : Overlay) : Prop :=
  (∀ k, refOf s.values k = insCount s k) ∧
  NoZero s.values ∧
  (liveHashes s).Nodup ∧
  (∀ h, h ∈ liveHashes s → Assoc.containsKey s.parents h = true)

/-- Per-block correspondence between an in-memory `BlockOverlay` at
position `i` of the level for block number `bn` and its journal record
in the DB. -/
def BlockRep (db : DB) (parents : Assoc BlockHash BlockHash) (bn : Nat) (i : Nat)
    (b : BlockOverlay) : Prop :=
  b.journalIndex = i ∧
  b.journalKey = MetaKey.journal bn i ∧
  ∃ p pairs,
    Assoc.lookup parents b.hash = some p ∧
    List.map Prod.fst pairs = b.inserted ∧
    Assoc.lookup db (MetaKey.journal bn i) =
      some (MetaValue.record { hash := b.hash, parentHash := p, inserted := pairs, deleted := b.deleted })

/-- Per-level correspondence for block number `bn`: the level is
nonempty and compact (journal indices `0..len-1` in order, bitmask and
span equal to the block count), journal records exist exactly for its
blocks, and the span metadata is stored iff the span exceeds 32. -/
def LevelRep (db : DB) (parents : Assoc BlockHash BlockHash) (bn : Nat)
    (lvl : OverlayLevel) : Prop :=
  lvl.blocks ≠ [] ∧
  lvl.blocks.length ≤ 64 ∧
  (∀ i b, lvl.blocks.get? i = some b → BlockRep db parents bn i b) ∧
  (∀ i, lvl.blocks.length ≤ i → Assoc.lookup db (MetaKey.journal bn i) = none) ∧
  lvl.usedIndicies = 2 ^ lvl.blocks.length - 1 ∧
  lvl.span = lvl.blocks.length ∧
  Assoc.lookup db (MetaKey.levelSpan bn) =
    (if OVERLAY_LEVEL_STORE_SPANS_LONGER_THAN < lvl.blocks.length then
      some (MetaValue.span lvl.blocks.length)
    else
      none)

/-- Joint invariant of the overlay and the model DB along the
journal-only operations (claim C3): every level is represented in the
journal, nothing else is journalled, `parents` covers exactly the level
hashes (pairwise distinct), nothing is retained in
`pinned_insertions`, and both association lists carry pairwise-distinct
keys. -/
def JointInv (s : Overlay) (db : DB) : Prop :=
  Assoc.lookup db MetaKey.lastCanonical =
    (match s.lastCanonicalized with
     | some (h, n) => some (MetaValue.lastCanon h n)
     | none => none) ∧
  (s.lastCanonicalized = none → s.levels = [] ∧ db = []) ∧
  (∀ j lvl, s.levels.get? j = some lvl → LevelRep db s.parents (s.frontBlockNumber + j) lvl) ∧
  (∀ bn i, (bn < s.frontBlockNumber ∨ s.frontBlockNumber + s.levels.length ≤ bn) →
    Assoc.lookup db (MetaKey.journal bn i) = none) ∧
  (∀ bn, (bn < s.frontBlockNumber ∨ s.frontBlockNumber + s.levels.length ≤ bn) →
    Assoc.lookup db (MetaKey.levelSpan bn) = none) ∧
  (∀ h, Assoc.containsKey s.parents h = true ↔ h ∈ levelHashes s.levels) ∧
  (levelHashes s.levels).Nodup ∧
  s.pinnedInsertions = [] ∧
  (Assoc.keysOf db).Nodup ∧
  (Assoc.keysOf s.parents).Nodup

end StateDbVerify

namespace SyncEngineVerify

open StateDbVerify (Assoc)
open StateDbVerify.Assoc

/-! ## Data model of `engine.rs` (SyncingEngine peer handling) -/

/-- Peer identity (opaque 32-byte id, instantiated at `Nat`). -/
abbrev PeerId := Nat

/-- Peer roles.  Modelled from the spec: `Roles` lives in
`sc_network_common`, outside the provided sources; the engine only asks
`is_full()` / `is_light()`, which the spec treats as the two peer
classes. -/
inductive Role where
  | full
  | light
deriving DecidableEq, Repr

/-- `BlockAnnouncesHandshake` as consumed by `on_sync_peer_connected`. -/
structure Handshake where
  genesisHash : Nat
  role : Role
  bestHash : Nat
  bestNumber : Nat
deriving DecidableEq, Repr

/-- `Peer` (`info`, known-blocks set, sink, inbound flag). -/
structure EnginePeer where
  role : Role
  bestHash : Nat
  bestNumber : Nat
  knownBlocks : List Nat
  sink : Nat
  inbound : Bool
deriving DecidableEq, Repr

/-- The peer-table state of `SyncingEngine` (the fields touched by peer
admission and disconnection). -/
structure EngineState where
  peers : Assoc PeerId EnginePeer
  importantPeers : List PeerId
  bootNodeIds : List PeerId
  noSlotPeers : List PeerId
  noSlotConnectedPeers : List PeerId
  numInPeers : Nat
  maxInPeers : Nat
  defaultPeersSetNumFull : Nat
  defaultPeersSetNumLight : Nat
  genesisHash : Nat
deriving DecidableEq, Repr

/-- Answers of the inner `ChainSync` consulted during admission.
Modelled from the spec: `ChainSync` is an external collaborator (spec
section 6.1); `newPeerResult` is the `new_peer` outcome (`Err(BadPeer)`
or `Ok(optional block request)`). -/
structure ChainSyncOracle where
  numPeers : Nat
  newPeerResult : Except Unit (Option Nat)

/-- The distinct rejection sites of `on_sync_peer_connected` (the Rust
function returns `Err(())` from each of them). -/
inductive ConnectRejection where
  | alreadyConnected
  | genesisMismatch
  | noInboundSlots
  | tooManyFull
  | tooManyLight
  | chainSyncBadPeer
deriving DecidableEq, Repr

/-- Result of `on_sync_peer_connected`; every rejection site returns
before any state mutation, so the carried state equals the input
state. -/
inductive ConnectResult where
  | accepted (s2 : EngineState)
  | rejected (why : ConnectRejection) (s2 : EngineState)
deriving DecidableEq, Repr

/-- `HashSet::insert`. -/
def insertSet (l : List PeerId) (x : PeerId) : List PeerId :=
  if x ∈ l then l else x :: l

/-- `on_sync_peer_connected(peer_id, status, sink, inbound)`. -/
def onSyncPeerConnected (s : EngineState) (peerId : PeerId) (status : Handshake)
    (sink : Nat) (inbound : Bool) (cs : ChainSyncOracle) : ConnectResult :=
  if Assoc.containsKey s.peers peerId then
    ConnectResult.rejected ConnectRejection.alreadyConnected s
  else if status.genesisHash ≠ s.genesisHash then
    ConnectResult.rejected ConnectRejection.genesisMismatch s
  else
    let noSlotPeer := peerId ∈ s.noSlotPeers
    let thisPeerReservedSlot : Nat := if noSlotPeer then 1 else 0
    -- make sure to accept no more than `--in-peers` many full nodes
    if ¬noSlotPeer ∧ status.role = Role.full ∧ inbound = true ∧
        s.numInPeers = s.maxInPeers then
      ConnectResult.rejected ConnectRejection.noInboundSlots s
    else if status.role = Role.full ∧
        s.defaultPeersSetNumFull + s.noSlotConnectedPeers.length + thisPeerReservedSlot ≤
          cs.numPeers then
      ConnectResult.rejected ConnectRejection.tooManyFull s
    else if status.role = Role.light ∧
        s.defaultPeersSetNumLight ≤ List.length s.peers - cs.numPeers then
      ConnectResult.rejected ConnectRejection.tooManyLight s
    else
      let peer : EnginePeer :=
        { role := status.role
          bestHash := status.bestHash
          bestNumber := status.bestNumber
          knownBlocks := []
          sink := sink
          inbound := inbound }
      let req : Except Unit (Option Nat) :=
        if status.role = Role.full then cs.newPeerResult else Except.ok none
      match req with
      | Except.error _ => ConnectResult.rejected ConnectRejection.chainSyncBadPeer s
      | Except.ok _ =>
        let s1 := { s with peers := Assoc.insertU s.peers peerId peer }
        let s2 :=
          if noSlotPeer then
            { s1 with noSlotConnectedPeers := insertSet s1.noSlotConnectedPeers peerId }
          else if inbound = true ∧ status.role = Role.full then
            { s1 with numInPeers := s1.numInPeers + 1 }
          else
            s1
        ConnectResult.accepted s2

/-- `on_sync_peer_disconnected(peer_id)`; `error` is the soft
missing-peer outcome, in which no state is mutated.  The
`checked_sub` `None` branch keeps the counter (release behaviour of the
`debug_assert!`). -/
def onSyncPeerDisconnected (s : EngineState) (peerId : PeerId) : Except Unit EngineState :=
  match Assoc.lookup s.peers peerId with
  | none => Except.error ()
  | some info =>
    let s1 := { s with peers := Assoc.eraseKey s.peers peerId }
    let wasNoSlotConnected := peerId ∈ s1.noSlotConnectedPeers
    let s2 := { s1 with noSlotConnectedPeers := s1.noSlotConnectedPeers.erase peerId }
    let s3 :=
      if ¬wasNoSlotConnected ∧ info.inbound = true ∧ info.role = Role.full then
        match s2.numInPeers with
        | n + 1 => { s2 with numInPeers := n }
        | 0 => s2
      else
        s2
    Except.ok s3

/-- Peer-table events delivered to the engine. -/
inductive EngineEvent where
  | connect (peerId : PeerId) (status : Handshake) (sink : Nat) (inbound : Bool)
      (cs : ChainSyncOracle)
  | disconnect (peerId : PeerId)

/-- A fresh engine state (`SyncingEngine::new`): empty peer table, zero
inbound count, configuration as given. -/
def engineInit (maxIn nFull nLight genesis : Nat)
    (important boot noSlot : List PeerId) : EngineState :=
  { peers := []
    importantPeers := important
    bootNodeIds := boot
    noSlotPeers := noSlot
    noSlotConnectedPeers := []
    numInPeers := 0
    maxInPeers := maxIn
    defaultPeersSetNumFull := nFull
    defaultPeersSetNumLight := nLight
    genesisHash := genesis }

/-- Apply one event (rejected connections and missing-peer disconnects
leave the state as the engine leaves it). -/
def applyEngineEvent (s : EngineState) : EngineEvent → EngineState
  | EngineEvent.connect peerId status sink inbound cs =>
      match onSyncPeerConnected s peerId status sink inbound cs with
      | ConnectResult.accepted s2 => s2
      | ConnectResult.rejected _ s2 => s2
  | EngineEvent.disconnect peerId =>
      match onSyncPeerDisconnected s peerId with
      | Except.ok s2 => s2
      | Except.error _ => s

/-- Run a sequence of events from a state. -/
def runEngine (s : EngineState) (evs : List EngineEvent) : EngineState :=
  evs.foldl applyEngineEvent s

/-- The number of peers counted by the inbound-slot accounting: inbound,
full-role and not no-slot (spec section 3.1). -/
def countedInboundPeers (s : EngineState) : Nat :=
  s.peers.countP
    (fun kv => kv.2.inbound && (kv.2.role == Role.full) && decide (kv.1 ∉ s.noSlotPeers))

/-! ## The `run` entry point (claim C1) -/

/-- The straight-line statements of `SyncingEngine::run` in source
order: the "HALTING SYNC ENGINE" log, the `futures::future::pending()`
await, the "HOW DID YOU GET HERE??" log, the `syncing_started =
Some(Instant::now())` assignment and the `poll` loop. -/
inductive RunStmt where
  | logHaltingSyncEngine
  | awaitPendingForever
  | logHowDidYouGetHere
  | setSyncingStartedNow
  | pollLoopForever
deriving DecidableEq, Repr

/-- The body of `run` as written in `engine.rs` lines 620-639. -/
def runBodyStmts : List RunStmt :=
  [RunStmt.logHaltingSyncEngine, RunStmt.awaitPendingForever,
    RunStmt.logHowDidYouGetHere, RunStmt.setSyncingStartedNow, RunStmt.pollLoopForever]

/-- Whether a statement ever completes: awaiting
`futures::future::pending()` never resolves, and the `loop` never
exits. -/
def stmtCompletes : RunStmt → Bool
  | RunStmt.awaitPendingForever => false
  | RunStmt.pollLoopForever => false
  | _ => true

/-- The statements reached by executing a straight-line body: a
statement is reached iff every earlier statement completes. -/
def reachedStmts : List RunStmt → List RunStmt
  | [] => []
  | stmt :: rest => stmt :: (if stmtCompletes stmt then reachedStmts rest else [])

/-- The slot-accounting invariant (claim C9 and spec section 3.1):
`num_in_peers` counts exactly the inbound full-role non-no-slot peers,
`no_slot_connected_peers` is exactly the connected subset of
`no_slot_peers`, and both collections are duplicate-free. -/
def EngineWF (s : EngineState) : Prop :=
  s.numInPeers = countedInboundPeers s ∧
  (∀ id, id ∈ s.noSlotConnectedPeers ↔
    (StateDbVerify.Assoc.containsKey s.peers id = true ∧ id ∈ s.noSlotPeers)) ∧
  (StateDbVerify.Assoc.keysOf s.peers).Nodup ∧
  s.noSlotConnectedPeers.Nodup

/-- Sample engine configuration with zero inbound slots and peer 5
registered as a no-slot peer (used by concrete witnesses). -/
def exEngine0 : EngineState := engineInit 0 10 10 42 [] [] [5]

/-- Sample full-role handshake with the matching genesis hash. -/
def exHandshakeFull : Handshake :=
  { genesisHash := 42, role := Role.full, bestHash := 7, bestNumber := 3 }

/-- Sample `ChainSync` answers: no peers yet, `new_peer` accepts with no
request. -/
def exOracle : ChainSyncOracle := { numPeers := 0, newPeerResult := Except.ok none }

end SyncEngineVerify

/-! # Theorems -/

namespace StateDbVerify.Assoc

variable {K V : Type} [DecidableEq K]

theorem lookup_nil (k : K) : lookup ([] : Assoc K V) k = none := rfl

theorem lookup_cons (k2 : K) (v : V) (rest : Assoc K V) (k : K) :
    lookup ((k2, v) :: rest) k = if k2 = k then some v else lookup rest k := rfl

theorem lookup_insertU_self (m : Assoc K V) (k : K) (v : V) :
    lookup (insertU m k v) k = some v := by
  induction m with
  | nil => simp [insertU, lookup]
  | cons hd tl ih =>
      obtain ⟨k2, v2⟩ := hd
      by_cases h : k2 = k
      · simp [insertU, h, lookup]
      · simp [insertU, h, lookup, ih]

theorem lookup_insertU_ne (m : Assoc K V) (k k2 : K) (v : V) (h : k ≠ k2) :
    lookup (insertU m k v) k2 = lookup m k2 := by
  induction m with
  | nil => simp [insertU, lookup, h]
  | cons hd tl ih =>
      obtain ⟨k3, v3⟩ := hd
      by_cases h3 : k3 = k
      · subst h3
        simp [insertU, lookup, h]
      · simp [insertU, h3, lookup, ih]

theorem lookup_eraseKey_ne (m : Assoc K V) (k k2 : K) (h : k ≠ k2) :
    lookup (eraseKey m k) k2 = lookup m k2 := by
  induction m with
  | nil => simp [eraseKey]
  | cons hd tl ih =>
      obtain ⟨k3, v3⟩ := hd
      by_cases h3 : k3 = k
      · subst h3
        simp [eraseKey, lookup, h]
      · simp [eraseKey, h3, lookup, ih]

/-- Erasing a freshly appended key restores the original map. -/
theorem eraseKey_insertU_fresh (m : Assoc K V) (k : K) (v : V)
    (h : lookup m k = none) : eraseKey (insertU m k v) k = m := by
  induction m with
  | nil => simp [insertU, eraseKey]
  | cons hd tl ih =>
      obtain ⟨k2, v2⟩ := hd
      by_cases h2 : k2 = k
      · subst h2
        simp [lookup] at h
      · rw [lookup_cons] at h
        simp [h2] at h
        simp [insertU, h2, eraseKey, ih h]

/-- Re-inserting the value already stored at a key is the identity. -/
theorem insertU_lookup_self (m : Assoc K V) (k : K) (v : V)
    (h : lookup m k = some v) : insertU m k v = m := by
  induction m with
  | nil => simp [lookup] at h
  | cons hd tl ih =>
      obtain ⟨k2, v2⟩ := hd
      by_cases h2 : k2 = k
      · subst h2
        rw [lookup_cons] at h
        simp at h
        simp [insertU, h]
      · rw [lookup_cons] at h
        simp [h2] at h
        simp [insertU, h2, ih h]

theorem insertU_insertU (m : Assoc K V) (k : K) (v1 v2 : V) :
    insertU (insertU m k v1) k v2 = insertU m k v2 := by
  induction m with
  | nil => simp [insertU]
  | cons hd tl ih =>
      obtain ⟨k2, v3⟩ := hd
      by_cases h2 : k2 = k
      · simp [insertU, h2]
      · simp [insertU, h2, ih]

theorem lookup_isSome_iff_mem_keys (m : Assoc K V) (k : K) :
    (lookup m k).isSome = true ↔ k ∈ keysOf m := by
  induction m with
  | nil => simp [lookup, keysOf]
  | cons hd tl ih =>
      obtain ⟨k2, v2⟩ := hd
      by_cases h2 : k2 = k
      · subst h2
        simp [lookup, keysOf]
      · simp [lookup, h2, keysOf, ih]
        intro h
        exact absurd h.symm h2

theorem lookup_none_of_not_mem_keys (m : Assoc K V) (k : K) (h : k ∉ keysOf m) :
    lookup m k = none := by
  cases hl : lookup m k with
  | none => rfl
  | some v =>
      exact absurd ((lookup_isSome_iff_mem_keys m k).mp (by simp [hl])) h

theorem keysOf_insertU_fresh (m : Assoc K V) (k : K) (v : V) (h : lookup m k = none) :
    keysOf (insertU m k v) = keysOf m ++ [k] := by
  induction m with
  | nil => simp [insertU, keysOf]
  | cons hd tl ih =>
      obtain ⟨k2, v2⟩ := hd
      by_cases h2 : k2 = k
      · subst h2
        simp [lookup] at h
      · rw [lookup_cons] at h
        simp [h2] at h
        simp [insertU, h2, keysOf] at ih ⊢
        exact ih h

theorem keysOf_eraseKey (m : Assoc K V) (k : K) :
    keysOf (eraseKey m k) = (keysOf m).erase k := by
  induction m with
  | nil => simp [eraseKey, keysOf]
  | cons hd tl ih =>
      obtain ⟨k2, v2⟩ := hd
      by_cases h2 : k2 = k
      · subst h2
        simp only [eraseKey, eq_self_iff_true, if_true]
        have h4 : keysOf ((k2, v2) :: tl) = k2 :: keysOf tl := rfl
        rw [h4, List.erase_cons_head]
      · simp only [eraseKey, if_neg h2]
        have h3 : keysOf ((k2, v2) :: eraseKey tl k) = k2 :: keysOf (eraseKey tl k) := rfl
        have h4 : keysOf ((k2, v2) :: tl) = k2 :: keysOf tl := rfl
        rw [h3, h4, List.erase_cons_tail (by simp [h2]), ih]

theorem lookup_eraseKey_self (m : Assoc K V) (k : K) (hnd : (keysOf m).Nodup) :
    lookup (eraseKey m k) k = none := by
  induction m with
  | nil => simp [eraseKey, lookup]
  | cons hd tl ih =>
      obtain ⟨k2, v2⟩ := hd
      have hk : keysOf ((k2, v2) :: tl) = k2 :: keysOf tl := rfl
      rw [hk, List.nodup_cons] at hnd
      by_cases h2 : k2 = k
      · subst h2
        simp only [eraseKey, eq_self_iff_true, if_true]
        exact lookup_none_of_not_mem_keys tl k2 hnd.1
      · simp only [eraseKey, if_neg h2, lookup_cons, if_neg h2]
        exact ih hnd.2

theorem countP_insertU_fresh (m : Assoc K V) (k : K) (v : V) (P : K × V → Bool)
    (h : lookup m k = none) :
    List.countP P (insertU m k v) = List.countP P m + (if P (k, v) = true then 1 else 0) := by
  induction m with
  | nil => by_cases hp : P (k, v) = true <;> simp [insertU, List.countP_cons, hp]
  | cons hd tl ih =>
      obtain ⟨k2, v2⟩ := hd
      by_cases h2 : k2 = k
      · subst h2
        simp [lookup] at h
      · rw [lookup_cons] at h
        simp [h2] at h
        simp only [insertU, if_neg h2, List.countP_cons, ih h]
        omega

theorem countP_eraseKey_some (m : Assoc K V) (k : K) (v : V) (P : K × V → Bool)
    (h : lookup m k = some v) :
    List.countP P m = (if P (k, v) = true then 1 else 0) + List.countP P (eraseKey m k) := by
  induction m with
  | nil => simp [lookup] at h
  | cons hd tl ih =>
      obtain ⟨k2, v2⟩ := hd
      by_cases h2 : k2 = k
      · subst h2
        rw [lookup_cons] at h
        simp at h
        subst h
        have he : eraseKey ((k2, v2) :: tl) k2 = tl := by
          simp [eraseKey]
        rw [he, List.countP_cons]
        omega
      · rw [lookup_cons] at h
        simp [h2] at h
        simp only [eraseKey, if_neg h2, List.countP_cons, ih h]
        omega

end StateDbVerify.Assoc

namespace StateDbVerify

open Assoc

/-! ## Claim C5: first overlay scenario -/

/-- C5: starting from an overlay over an empty DB,
`insert(h1 = 101, 1, parent, {insert (3,v3),(4,v4); delete 2})` followed
by `canonicalize(h1)` yields a commit set whose `data.inserted` is
exactly the two inserted pairs, whose `data.deleted` is exactly the
deleted key, and whose `meta` holds exactly one insertion (the
`last_canonical` key) and one deletion (the journal key of h1). -/
theorem c5_insert_canonicalize_commit :
    (match Overlay.insertOp Overlay.empty 101 1 100 exChangeset with
      | InsertResult.ok _ s1 =>
        (match s1.canonicalizeOp 101 CommitSet.default with
          | CanonResult.ok c _ _ => some c
          | _ => none)
      | _ => none)
    = some
        { data := { inserted := [(3, [3]), (4, [4])], deleted := [2] }
          meta :=
            { inserted := [(MetaKey.lastCanonical, MetaValue.lastCanon 101 1)]
              deleted := [MetaKey.journal 1 0] } } := by
  decide

/-! ## Claim C2: the out-of-range check of `insert` -/

/-- C2 counterexample: after inserting a block at number 0 on a fresh
overlay (which leaves `last_canonicalized` unset), inserting at the
out-of-range number 2 panics on `levels.get_mut(..).expect(..)` instead
of returning `Err(InvalidBlockNumber)`: the special first-insert case
does not apply (levels are nonempty), and 2 exceeds
`front_block_number + |levels| = 1`. -/
theorem c2_counterexample :
    (match Overlay.insertOp Overlay.empty 11 0 10 { inserted := [], deleted := [] } with
      | InsertResult.ok _ s1 =>
        some (s1.levels.isEmpty, s1.lastCanonicalized.isSome,
          s1.frontBlockNumber + s1.levels.length,
          Overlay.insertOp s1 12 2 11 { inserted := [], deleted := [] })
      | _ => none)
    = some (false, false, 1, InsertResult.panic) := by
  decide

/-- C2 amended: whenever `last_canonicalized` is set, `insert` with an
out-of-range number (below `front_block_number` or above
`front_block_number + |levels|`) returns `Err(InvalidBlockNumber)`
without mutating the overlay. -/
theorem c2_amended_insert_range_check (s : Overlay) (h p : BlockHash) (n : Nat)
    (cs : ChangeSet) (lc : BlockHash × Nat)
    (hlc : s.lastCanonicalized = some lc)
    (hrange : n < s.frontBlockNumber ∨ s.frontBlockNumber + s.levels.length < n) :
    s.insertOp h n p cs = InsertResult.err StateDbError.invalidBlockNumber := by
  have hcond : (s.levels = [] ∧ s.lastCanonicalized = none ∧ 0 < n) = False := by
    apply eq_false
    rintro ⟨-, hnone, -⟩
    rw [hlc] at hnone
    exact Option.noConfusion hnone
  have hr : (n < s.frontBlockNumber ∨ s.frontBlockNumber + s.levels.length < n) = True :=
    eq_true hrange
  simp only [Overlay.insertOp, hcond, hlc, hr, Option.isSome_some, if_true, if_false]
  simp

/-- C2 witness: the amended range check at a concrete state. -/
theorem c2_amended_witness :
    exOverlay1.lastCanonicalized = some (100, 0) ∧
    (3 < exOverlay1.frontBlockNumber ∨
      exOverlay1.frontBlockNumber + exOverlay1.levels.length < 3) ∧
    Overlay.insertOp exOverlay1 102 3 101 { inserted := [], deleted := [] } =
      InsertResult.err StateDbError.invalidBlockNumber := by
  refine ⟨by decide, Or.inr (by decide), ?_⟩
  exact c2_amended_insert_range_check exOverlay1 102 101 3 { inserted := [], deleted := [] }
    (100, 0) (by decide) (Or.inr (by decide))

/-! ## Claim C6: pin/unpin as an inverse pair -/

/-- C6 counterexample: the sequence `[unpin h, pin h]` contains equal
numbers of `pin(h)` and `unpin(h)` calls, yet its final `pinned` table
differs from the one of the same sequence with those calls removed
(the `unpin` of a never-pinned hash is a no-op while the `pin`
sticks). -/
theorem c6_counterexample :
    (runOpsDb (Overlay.empty, []) [OvOp.unpinB 7, OvOp.pinB 7]).map (fun sd => sd.1.pinned)
        = some [(7, 1)] ∧
      (runOpsDb (Overlay.empty, []) []).map (fun sd => sd.1.pinned) = some [] := by
  decide

/-- C6 amended: a `pin(h)` immediately followed by `unpin(h)`, executed
in a state where `h` is already pinned (with the positive count pins
always store) or not retained in `pinned_insertions`, restores the
overlay state exactly. -/
theorem c6_amended_pin_unpin_adjacent (s : Overlay) (h : BlockHash)
    (hside : (∃ c, Assoc.lookup s.pinned h = some c ∧ 0 < c) ∨
      (Assoc.lookup s.pinned h = none ∧ Assoc.lookup s.pinnedInsertions h = none)) :
    (s.pinOp h).unpin h = some s := by
  rcases hside with ⟨c, hc, hcpos⟩ | ⟨hnone, hpi⟩
  · unfold Overlay.pinOp
    rw [hc]
    unfold Overlay.unpin Overlay.unpinOp
    simp only [Assoc.lookup_insertU_self, Nat.add_sub_cancel]
    rw [if_neg (Nat.pos_iff_ne_zero.mp hcpos)]
    rw [Assoc.insertU_insertU, Assoc.insertU_lookup_self s.pinned h c hc]
  · unfold Overlay.pinOp
    rw [hnone]
    unfold Overlay.unpin Overlay.unpinOp
    simp only [Assoc.lookup_insertU_self, Nat.sub_self, if_pos rfl]
    rw [Assoc.eraseKey_insertU_fresh s.pinned h 1 hnone]
    show unpinWalk (s.parents.length + 1) s (some h) = some s
    unfold unpinWalk
    simp only [hpi]

/-- C6 witness: the amended no-op at a concrete state. -/
theorem c6_amended_witness :
    (Assoc.lookup exOverlay1.pinned 7 = none ∧
      Assoc.lookup exOverlay1.pinnedInsertions 7 = none) ∧
    (exOverlay1.pinOp 7).unpin 7 = some exOverlay1 := by
  refine ⟨⟨by decide, by decide⟩, ?_⟩
  exact c6_amended_pin_unpin_adjacent exOverlay1 7 (Or.inr ⟨by decide, by decide⟩)

/-! ## Claim C10: canonicalize is not atomic on error -/

/-- C10: `canonicalize` with no levels returns `Err(InvalidBlock)`
leaving the state unchanged; `canonicalize` of a hash absent from the
(nonempty) front level returns `Err(InvalidBlock)` with the front level
already popped and lost. -/
theorem c10_canonicalize_error_atomicity (s : Overlay) (h : BlockHash) (c : CommitSet) :
    (s.levels = [] → s.canonicalizeOp h c = CanonResult.err StateDbError.invalidBlock s) ∧
    (∀ lvl rest, s.levels = lvl :: rest → (∀ b ∈ lvl.blocks, b.hash ≠ h) →
      s.canonicalizeOp h c = CanonResult.err StateDbError.invalidBlock { s with levels := rest }) := by
  constructor
  · intro hl
    unfold Overlay.canonicalizeOp
    rw [hl]
  · intro lvl rest hl hnone
    have hfind : lvl.blocks.findIdx? (fun b => b.hash == h) = none := by
      rw [List.findIdx?_eq_none_iff]
      intro b hb
      simp [hnone b hb]
    unfold Overlay.canonicalizeOp
    rw [hl]
    simp only [hfind]

/-- C10 witness: both error modes at concrete states.  After the failed
second canonicalization the front level (and its block 101) is gone. -/
theorem c10_witness :
    Overlay.empty.canonicalizeOp 5 CommitSet.default =
      CanonResult.err StateDbError.invalidBlock Overlay.empty ∧
    exOverlay1.canonicalizeOp 999 CommitSet.default =
      CanonResult.err StateDbError.invalidBlock { exOverlay1 with levels := [] } := by
  constructor
  · exact (c10_canonicalize_error_atomicity Overlay.empty 5 CommitSet.default).1 rfl
  · exact (c10_canonicalize_error_atomicity exOverlay1 999 CommitSet.default).2
      { blocks :=
          [{ hash := 101, journalIndex := 0, journalKey := MetaKey.journal 1 0,
             inserted := [3, 4], deleted := [2] }]
        usedIndicies := 1
        span := 1 }
      [] (by decide) (by decide)

/-! ## Claim C3: reconstruction from the journal -/

/-- C3 counterexample: after `insert(h1, 1, p, cs)` followed by
`canonicalize(h1)` (both commit sets applied to the model DB), the
in-memory overlay still maps `h1` in `parents` (the block is retained
by the canonicalization auto-pin), while the overlay reconstructed by
`new(db)` does not: the `parents` fields differ. -/
theorem c3_counterexample :
    (runOpsDb (Overlay.empty, []) [OvOp.insertB 101 1 100 exChangeset, OvOp.canonicalizeB 101]).map
        (fun sd =>
          (Assoc.lookup sd.1.parents 101,
            (newOverlay (sd.2.length + 1) sd.2).map (fun t => Assoc.lookup t.parents 101)))
      = some (some 100, some none) := by
  decide

/-! ## Claim C7: `revert_one` -/

/-- The per-block loop of `revert_one`, split into its three independent
components. -/
theorem revertFoldSpec (blocks : List BlockOverlay) (dj0 : List MetaKey)
    (p0 : Assoc BlockHash BlockHash) (v0 : Assoc Key (Nat × DBValue)) :
    blocks.foldl
      (fun (acc : List MetaKey × Assoc BlockHash BlockHash × Assoc Key (Nat × DBValue)) b =>
        (acc.1 ++ [b.journalKey], Assoc.eraseKey acc.2.1 b.hash, discardValues acc.2.2 b.inserted))
      (dj0, p0, v0)
    = (dj0 ++ blocks.map (fun b => b.journalKey),
        blocks.foldl (fun acc b => Assoc.eraseKey acc b.hash) p0,
        blocks.foldl (fun acc b => discardValues acc b.inserted) v0) := by
  induction blocks generalizing dj0 p0 v0 with
  | nil => simp
  | cons b bs ih => simp [ih]

/-- The successful `revert_one`: pop the back level, collect the journal
keys and the span key when the span exceeds 32, remove parent edges and
decrement refcounts. -/
theorem revertOne_some_spec (s : Overlay) (lvl : OverlayLevel) (rest : List OverlayLevel)
    (hl : s.levels = rest ++ [lvl]) :
    s.revertOne = some
      ({ data := { inserted := [], deleted := [] }
         meta :=
           { inserted := []
             deleted := lvl.blocks.map (fun b => b.journalKey) ++
               (if OVERLAY_LEVEL_STORE_SPANS_LONGER_THAN < lvl.span then
                 [MetaKey.levelSpan (s.frontBlockNumber + s.levels.length - 1)]
               else
                 []) } },
        { s with
          levels := rest
          parents := lvl.blocks.foldl (fun acc b => Assoc.eraseKey acc b.hash) s.parents
          values := lvl.blocks.foldl (fun acc b => discardValues acc b.inserted) s.values }) := by
  unfold Overlay.revertOne
  rw [hl]
  simp only [List.getLast?_concat, List.dropLast_concat, revertFoldSpec, List.nil_append]
  by_cases h32 : OVERLAY_LEVEL_STORE_SPANS_LONGER_THAN < lvl.span
  · simp [h32]
  · simp [h32]

theorem revertOne_none_iff (s : Overlay) : s.revertOne = none ↔ s.levels = [] := by
  constructor
  · intro hnone
    rcases List.eq_nil_or_concat s.levels with hnil | ⟨rest, lvl, hl⟩
    · exact hnil
    · rw [List.concat_eq_append] at hl
      rw [revertOne_some_spec s lvl rest hl] at hnone
      exact Option.noConfusion hnone
  · intro hnil
    unfold Overlay.revertOne
    rw [hnil]
    rfl

/-- C7: `revert_one` returns `None` iff there are no levels; otherwise
it pops the back level and returns a commit set whose `meta.deleted`
holds the journal key of every block of that level plus the level's
span-metadata key exactly when its span exceeds 32, while the in-memory
state drops the level, removes each block's parent edge and decrements
its value refcounts. -/
theorem c7_revert_one (s : Overlay) :
    (s.revertOne = none ↔ s.levels = []) ∧
    (∀ lvl rest, s.levels = rest ++ [lvl] →
      s.revertOne = some
        ({ data := { inserted := [], deleted := [] }
           meta :=
             { inserted := []
               deleted := lvl.blocks.map (fun b => b.journalKey) ++
                 (if OVERLAY_LEVEL_STORE_SPANS_LONGER_THAN < lvl.span then
                   [MetaKey.levelSpan (s.frontBlockNumber + s.levels.length - 1)]
                 else
                   []) } },
          { s with
            levels := rest
            parents := lvl.blocks.foldl (fun acc b => Assoc.eraseKey acc b.hash) s.parents
            values := lvl.blocks.foldl (fun acc b => discardValues acc b.inserted) s.values })) :=
  ⟨revertOne_none_iff s, fun lvl rest hl => revertOne_some_spec s lvl rest hl⟩

/-- C7 witness: reverting the single level of `exOverlay1`, and the
`None` outcome on the empty overlay. -/
theorem c7_witness :
    Overlay.empty.revertOne = none ∧
    exOverlay1.revertOne = some
      ({ data := { inserted := [], deleted := [] }
         meta := { inserted := [], deleted := [MetaKey.journal 1 0] } },
        { exOverlay1 with levels := [], parents := [], values := [] }) := by
  constructor
  · exact (c7_revert_one Overlay.empty).1.mpr rfl
  · have h := (c7_revert_one exOverlay1).2
      { blocks :=
          [{ hash := 101, journalIndex := 0, journalKey := MetaKey.journal 1 0,
             inserted := [3, 4], deleted := [2] }]
        usedIndicies := 1
        span := 1 }
      [] (by decide)
    rw [h]
    decide

end StateDbVerify

namespace SyncEngineVerify

/-! ## Claim C1: the `run` entry point never reaches its body -/

/-- C1 (code bug): every execution of `run()` reaches the
`futures::future::pending()` await and parks there forever, so neither
the `syncing_started = Some(Instant::now())` assignment nor the polling
loop is ever reached, contradicting the claimed behaviour. -/
theorem c1_run_never_reaches_start :
    RunStmt.awaitPendingForever ∈ reachedStmts runBodyStmts ∧
    RunStmt.setSyncingStartedNow ∉ reachedStmts runBodyStmts ∧
    RunStmt.pollLoopForever ∉ reachedStmts runBodyStmts := by
  decide

/-! ## Claim C8: the inbound-slot check -/

/-- C8: a full-role, inbound, non-no-slot peer connecting while
`num_in_peers == max_in_peers` is always rejected with the engine state
unchanged; a no-slot peer is never rejected by the inbound-slot
check. -/
theorem c8_inbound_slot_check (s : EngineState) (peerId : PeerId) (status : Handshake)
    (sink : Nat) (inbound : Bool) (cs : ChainSyncOracle) :
    (status.role = Role.full → inbound = true → peerId ∉ s.noSlotPeers →
      s.numInPeers = s.maxInPeers →
      ∃ why, onSyncPeerConnected s peerId status sink inbound cs =
        ConnectResult.rejected why s) ∧
    (peerId ∈ s.noSlotPeers →
      ∀ why s2, onSyncPeerConnected s peerId status sink inbound cs =
        ConnectResult.rejected why s2 → why ≠ ConnectRejection.noInboundSlots) := by
  constructor
  · intro hfull hin hno hnum
    by_cases h1 : StateDbVerify.Assoc.containsKey s.peers peerId = true
    · exact ⟨ConnectRejection.alreadyConnected, by simp [onSyncPeerConnected, h1]⟩
    · by_cases h2 : status.genesisHash = s.genesisHash
      · refine ⟨ConnectRejection.noInboundSlots, ?_⟩
        simp [onSyncPeerConnected, h1, h2, hno, hfull, hin, hnum]
      · exact ⟨ConnectRejection.genesisMismatch, by simp [onSyncPeerConnected, h1, h2]⟩
  · intro hmem why s2 heq hwhy
    subst hwhy
    unfold onSyncPeerConnected at heq
    by_cases h1 : StateDbVerify.Assoc.containsKey s.peers peerId = true
    · rw [if_pos h1] at heq
      exact ConnectRejection.noConfusion (ConnectResult.rejected.inj heq).1
    · rw [if_neg h1] at heq
      by_cases h2 : status.genesisHash ≠ s.genesisHash
      · rw [if_pos h2] at heq
        exact ConnectRejection.noConfusion (ConnectResult.rejected.inj heq).1
      · rw [if_neg h2] at heq
        rw [if_neg (by intro hc; exact hc.1 hmem)] at heq
        by_cases h4 : status.role = Role.full ∧
            s.defaultPeersSetNumFull + s.noSlotConnectedPeers.length +
              (if peerId ∈ s.noSlotPeers then 1 else 0) ≤ cs.numPeers
        · rw [if_pos h4] at heq
          exact ConnectRejection.noConfusion (ConnectResult.rejected.inj heq).1
        · rw [if_neg h4] at heq
          by_cases h5 : status.role = Role.light ∧
              s.defaultPeersSetNumLight ≤ List.length s.peers - cs.numPeers
          · rw [if_pos h5] at heq
            exact ConnectRejection.noConfusion (ConnectResult.rejected.inj heq).1
          · rw [if_neg h5] at heq
            revert heq
            cases hr : (if status.role = Role.full then cs.newPeerResult
                else Except.ok none) with
            | error e =>
                intro heq
                exact ConnectRejection.noConfusion (ConnectResult.rejected.inj heq).1
            | ok r =>
                intro heq
                exact ConnectResult.noConfusion heq

/-! ## Claim C9: the slot-accounting invariant -/

theorem mem_insertSet (l : List PeerId) (x y : PeerId) :
    y ∈ insertSet l x ↔ y = x ∨ y ∈ l := by
  unfold insertSet
  by_cases h : x ∈ l
  · simp only [if_pos h]
    constructor
    · intro hy
      exact Or.inr hy
    · rintro (rfl | hy)
      · exact h
      · exact hy
  · simp [if_neg h, List.mem_cons]

theorem insertSet_nodup (l : List PeerId) (x : PeerId) (h : l.Nodup) :
    (insertSet l x).Nodup := by
  unfold insertSet
  by_cases hx : x ∈ l
  · simpa [if_pos hx]
  · simp [if_neg hx, List.nodup_cons, hx, h]

/-- The counted-peer predicate is insensitive to everything but `peers`
and `noSlotPeers`. -/
theorem countedInboundPeers_def (s : EngineState) :
    countedInboundPeers s =
      List.countP
        (fun kv => kv.2.inbound && (kv.2.role == Role.full) && decide (kv.1 ∉ s.noSlotPeers))
        s.peers := rfl

/-- `EngineWF` is preserved by an accepted no-slot connection. -/
theorem engineWF_connect_noslot (s : EngineState) (peerId : PeerId) (peer : EnginePeer)
    (hwf : EngineWF s) (hfresh : StateDbVerify.Assoc.lookup s.peers peerId = none)
    (hns : peerId ∈ s.noSlotPeers) :
    EngineWF
      { s with
        peers := StateDbVerify.Assoc.insertU s.peers peerId peer
        noSlotConnectedPeers := insertSet s.noSlotConnectedPeers peerId } := by
  obtain ⟨hnum, hchar, hndk, hndc⟩ := hwf
  refine ⟨?_, ?_, ?_, ?_⟩
  · rw [countedInboundPeers_def]
    show s.numInPeers = List.countP _ (StateDbVerify.Assoc.insertU s.peers peerId peer)
    rw [StateDbVerify.Assoc.countP_insertU_fresh s.peers peerId peer _ hfresh]
    rw [hnum, countedInboundPeers_def]
    simp [hns]
  · intro id
    show id ∈ insertSet s.noSlotConnectedPeers peerId ↔ _
    rw [mem_insertSet]
    by_cases hid : id = peerId
    · subst hid
      simp only [StateDbVerify.Assoc.containsKey, StateDbVerify.Assoc.lookup_insertU_self]
      simp [hns]
    · simp only [hid, false_or]
      rw [hchar id]
      show _ ↔ (StateDbVerify.Assoc.lookup (StateDbVerify.Assoc.insertU s.peers peerId peer) id).isSome = true ∧ _
      rw [StateDbVerify.Assoc.lookup_insertU_ne s.peers peerId id peer (fun he => hid he.symm)]
      exact Iff.rfl
  · show (StateDbVerify.Assoc.keysOf (StateDbVerify.Assoc.insertU s.peers peerId peer)).Nodup
    rw [StateDbVerify.Assoc.keysOf_insertU_fresh s.peers peerId peer hfresh]
    have hpm : peerId ∉ StateDbVerify.Assoc.keysOf s.peers := by
      intro hm
      rw [← StateDbVerify.Assoc.lookup_isSome_iff_mem_keys] at hm
      rw [hfresh] at hm
      simp at hm
    simp [List.nodup_append, hndk, hpm]
  · exact insertSet_nodup _ _ hndc

/-- `EngineWF` is preserved by an accepted inbound full-role slot
connection (the counter is incremented). -/
theorem engineWF_connect_inbound (s : EngineState) (peerId : PeerId) (peer : EnginePeer)
    (hwf : EngineWF s) (hfresh : StateDbVerify.Assoc.lookup s.peers peerId = none)
    (hns : peerId ∉ s.noSlotPeers) (hin : peer.inbound = true)
    (hrole : peer.role = Role.full) :
    EngineWF
      { s with
        peers := StateDbVerify.Assoc.insertU s.peers peerId peer
        numInPeers := s.numInPeers + 1 } := by
  obtain ⟨hnum, hchar, hndk, hndc⟩ := hwf
  refine ⟨?_, ?_, ?_, hndc⟩
  · rw [countedInboundPeers_def]
    show s.numInPeers + 1 = List.countP _ (StateDbVerify.Assoc.insertU s.peers peerId peer)
    rw [StateDbVerify.Assoc.countP_insertU_fresh s.peers peerId peer _ hfresh]
    rw [hnum, countedInboundPeers_def]
    simp [hin, hrole, hns]
  · intro id
    show id ∈ s.noSlotConnectedPeers ↔ _
    by_cases hid : id = peerId
    · subst hid
      rw [hchar id]
      simp only [StateDbVerify.Assoc.containsKey, StateDbVerify.Assoc.lookup_insertU_self,
        hfresh]
      simp [hns]
    · rw [hchar id]
      show _ ↔ (StateDbVerify.Assoc.lookup (StateDbVerify.Assoc.insertU s.peers peerId peer) id).isSome = true ∧ _
      rw [StateDbVerify.Assoc.lookup_insertU_ne s.peers peerId id peer (fun he => hid he.symm)]
      exact Iff.rfl
  · show (StateDbVerify.Assoc.keysOf (StateDbVerify.Assoc.insertU s.peers peerId peer)).Nodup
    rw [StateDbVerify.Assoc.keysOf_insertU_fresh s.peers peerId peer hfresh]
    have hpm : peerId ∉ StateDbVerify.Assoc.keysOf s.peers := by
      intro hm
      rw [← StateDbVerify.Assoc.lookup_isSome_iff_mem_keys] at hm
      rw [hfresh] at hm
      simp at hm
    simp [List.nodup_append, hndk, hpm]

/-- `EngineWF` is preserved by an accepted connection that occupies no
inbound slot (outbound, or light-role, while not no-slot). -/
theorem engineWF_connect_other (s : EngineState) (peerId : PeerId) (peer : EnginePeer)
    (hwf : EngineWF s) (hfresh : StateDbVerify.Assoc.lookup s.peers peerId = none)
    (hns : peerId ∉ s.noSlotPeers)
    (hnotc : ¬(peer.inbound = true ∧ peer.role = Role.full)) :
    EngineWF { s with peers := StateDbVerify.Assoc.insertU s.peers peerId peer } := by
  obtain ⟨hnum, hchar, hndk, hndc⟩ := hwf
  refine ⟨?_, ?_, ?_, hndc⟩
  · rw [countedInboundPeers_def]
    show s.numInPeers = List.countP _ (StateDbVerify.Assoc.insertU s.peers peerId peer)
    rw [StateDbVerify.Assoc.countP_insertU_fresh s.peers peerId peer _ hfresh]
    have hp : (peer.inbound && (peer.role == Role.full) && decide (peerId ∉ s.noSlotPeers))
        = false := by
      cases hi : peer.inbound with
      | false => simp
      | true =>
          cases hr : peer.role with
          | full => exact absurd ⟨hi, hr⟩ hnotc
          | light => simp
    rw [hp, hnum, countedInboundPeers_def]
    simp
  · intro id
    show id ∈ s.noSlotConnectedPeers ↔ _
    by_cases hid : id = peerId
    · subst hid
      rw [hchar id]
      simp only [StateDbVerify.Assoc.containsKey, StateDbVerify.Assoc.lookup_insertU_self,
        hfresh]
      simp [hns]
    · rw [hchar id]
      show _ ↔ (StateDbVerify.Assoc.lookup (StateDbVerify.Assoc.insertU s.peers peerId peer) id).isSome = true ∧ _
      rw [StateDbVerify.Assoc.lookup_insertU_ne s.peers peerId id peer (fun he => hid he.symm)]
      exact Iff.rfl
  · show (StateDbVerify.Assoc.keysOf (StateDbVerify.Assoc.insertU s.peers peerId peer)).Nodup
    rw [StateDbVerify.Assoc.keysOf_insertU_fresh s.peers peerId peer hfresh]
    have hpm : peerId ∉ StateDbVerify.Assoc.keysOf s.peers := by
      intro hm
      rw [← StateDbVerify.Assoc.lookup_isSome_iff_mem_keys] at hm
      rw [hfresh] at hm
      simp at hm
    simp [List.nodup_append, hndk, hpm]

/-- Let-free unfolding of `onSyncPeerConnected` (definitional). -/
theorem onSyncPeerConnected_eq (s : EngineState) (peerId : PeerId) (status : Handshake)
    (sink : Nat) (inbound : Bool) (cs : ChainSyncOracle) :
    onSyncPeerConnected s peerId status sink inbound cs =
      (if StateDbVerify.Assoc.containsKey s.peers peerId then
        ConnectResult.rejected ConnectRejection.alreadyConnected s
      else if status.genesisHash ≠ s.genesisHash then
        ConnectResult.rejected ConnectRejection.genesisMismatch s
      else if ¬(peerId ∈ s.noSlotPeers) ∧ status.role = Role.full ∧ inbound = true ∧
          s.numInPeers = s.maxInPeers then
        ConnectResult.rejected ConnectRejection.noInboundSlots s
      else if status.role = Role.full ∧
          s.defaultPeersSetNumFull + s.noSlotConnectedPeers.length +
            (if peerId ∈ s.noSlotPeers then 1 else 0) ≤ cs.numPeers then
        ConnectResult.rejected ConnectRejection.tooManyFull s
      else if status.role = Role.light ∧
          s.defaultPeersSetNumLight ≤ List.length s.peers - cs.numPeers then
        ConnectResult.rejected ConnectRejection.tooManyLight s
      else
        match (if status.role = Role.full then cs.newPeerResult else Except.ok none) with
        | Except.error _ => ConnectResult.rejected ConnectRejection.chainSyncBadPeer s
        | Except.ok _ =>
          ConnectResult.accepted
            (if peerId ∈ s.noSlotPeers then
              { s with
                peers := StateDbVerify.Assoc.insertU s.peers peerId
                  ⟨status.role, status.bestHash, status.bestNumber, [], sink, inbound⟩
                noSlotConnectedPeers := insertSet s.noSlotConnectedPeers peerId }
            else if inbound = true ∧ status.role = Role.full then
              { s with
                peers := StateDbVerify.Assoc.insertU s.peers peerId
                  ⟨status.role, status.bestHash, status.bestNumber, [], sink, inbound⟩
                numInPeers := s.numInPeers + 1 }
            else
              { s with
                peers := StateDbVerify.Assoc.insertU s.peers peerId
                  ⟨status.role, status.bestHash, status.bestNumber, [], sink, inbound⟩ })) := rfl

/-- A rejected connection leaves the engine state unchanged (every
rejection site of the source returns before any mutation). -/
theorem connect_rejected_eq (s : EngineState) (peerId : PeerId) (status : Handshake)
    (sink : Nat) (inbound : Bool) (cs : ChainSyncOracle) (why : ConnectRejection)
    (s2 : EngineState)
    (heq : onSyncPeerConnected s peerId status sink inbound cs =
      ConnectResult.rejected why s2) :
    s2 = s := by
  rw [onSyncPeerConnected_eq] at heq
  repeat' split at heq
  all_goals
    first
      | (cases heq; rfl)
      | exact ConnectResult.noConfusion heq

/-- An accepted connection inserts the fresh peer built from the
handshake and adjusts exactly one of the slot structures, depending on
the no-slot/inbound/full classification. -/
theorem connect_accepted_spec (s : EngineState) (peerId : PeerId) (status : Handshake)
    (sink : Nat) (inbound : Bool) (cs : ChainSyncOracle) (s2 : EngineState)
    (heq : onSyncPeerConnected s peerId status sink inbound cs =
      ConnectResult.accepted s2) :
    StateDbVerify.Assoc.lookup s.peers peerId = none ∧
    ((peerId ∈ s.noSlotPeers ∧
        s2 = { s with
          peers := StateDbVerify.Assoc.insertU s.peers peerId
            ⟨status.role, status.bestHash, status.bestNumber, [], sink, inbound⟩
          noSlotConnectedPeers := insertSet s.noSlotConnectedPeers peerId }) ∨
      (peerId ∉ s.noSlotPeers ∧ inbound = true ∧ status.role = Role.full ∧
        s2 = { s with
          peers := StateDbVerify.Assoc.insertU s.peers peerId
            ⟨status.role, status.bestHash, status.bestNumber, [], sink, inbound⟩
          numInPeers := s.numInPeers + 1 }) ∨
      (peerId ∉ s.noSlotPeers ∧ ¬(inbound = true ∧ status.role = Role.full) ∧
        s2 = { s with
          peers := StateDbVerify.Assoc.insertU s.peers peerId
            ⟨status.role, status.bestHash, status.bestNumber, [], sink, inbound⟩ })) := by
  rw [onSyncPeerConnected_eq] at heq
  by_cases h1 : StateDbVerify.Assoc.containsKey s.peers peerId = true
  · rw [if_pos h1] at heq
    exact ConnectResult.noConfusion heq
  · rw [if_neg h1] at heq
    have hfresh : StateDbVerify.Assoc.lookup s.peers peerId = none := by
      cases hcont : StateDbVerify.Assoc.lookup s.peers peerId with
      | none => rfl
      | some p => exact absurd (by simp [StateDbVerify.Assoc.containsKey, hcont]) h1
    refine ⟨hfresh, ?_⟩
    by_cases h2 : status.genesisHash ≠ s.genesisHash
    · rw [if_pos h2] at heq
      exact ConnectResult.noConfusion heq
    · rw [if_neg h2] at heq
      by_cases h3 : ¬(peerId ∈ s.noSlotPeers) ∧ status.role = Role.full ∧ inbound = true ∧
          s.numInPeers = s.maxInPeers
      · rw [if_pos h3] at heq
        exact ConnectResult.noConfusion heq
      · rw [if_neg h3] at heq
        by_cases h4 : status.role = Role.full ∧
            s.defaultPeersSetNumFull + s.noSlotConnectedPeers.length +
              (if peerId ∈ s.noSlotPeers then 1 else 0) ≤ cs.numPeers
        · rw [if_pos h4] at heq
          exact ConnectResult.noConfusion heq
        · rw [if_neg h4] at heq
          by_cases h5 : status.role = Role.light ∧
              s.defaultPeersSetNumLight ≤ List.length s.peers - cs.numPeers
          · rw [if_pos h5] at heq
            exact ConnectResult.noConfusion heq
          · rw [if_neg h5] at heq
            cases hr : (if status.role = Role.full then cs.newPeerResult
                else Except.ok none) with
            | error e =>
                rw [hr] at heq
                exact ConnectResult.noConfusion heq
            | ok r =>
                rw [hr] at heq
                have hs2 := (ConnectResult.accepted.inj heq).symm
                by_cases hns : peerId ∈ s.noSlotPeers
                · rw [if_pos hns] at hs2
                  exact Or.inl ⟨hns, hs2⟩
                · rw [if_neg hns] at hs2
                  by_cases hif : inbound = true ∧ status.role = Role.full
                  · rw [if_pos hif] at hs2
                    exact Or.inr (Or.inl ⟨hns, hif.1, hif.2, hs2⟩)
                  · rw [if_neg hif] at hs2
                    exact Or.inr (Or.inr ⟨hns, hif, hs2⟩)

/-- Let-free unfolding of `onSyncPeerDisconnected` (definitional). -/
theorem onSyncPeerDisconnected_eq (s : EngineState) (peerId : PeerId) :
    onSyncPeerDisconnected s peerId =
      (match StateDbVerify.Assoc.lookup s.peers peerId with
      | none => Except.error ()
      | some info =>
          Except.ok
            (if ¬(peerId ∈ s.noSlotConnectedPeers) ∧ info.inbound = true ∧
                info.role = Role.full then
              match s.numInPeers with
              | n + 1 =>
                  { s with
                    peers := StateDbVerify.Assoc.eraseKey s.peers peerId
                    noSlotConnectedPeers := s.noSlotConnectedPeers.erase peerId
                    numInPeers := n }
              | 0 =>
                  { s with
                    peers := StateDbVerify.Assoc.eraseKey s.peers peerId
                    noSlotConnectedPeers := s.noSlotConnectedPeers.erase peerId }
            else
              { s with
                peers := StateDbVerify.Assoc.eraseKey s.peers peerId
                noSlotConnectedPeers := s.noSlotConnectedPeers.erase peerId })) := rfl

/-- `EngineWF` is preserved by every connection event. -/
theorem engineWF_connect (s : EngineState) (peerId : PeerId) (status : Handshake)
    (sink : Nat) (inbound : Bool) (cs : ChainSyncOracle) (hwf : EngineWF s) :
    EngineWF (applyEngineEvent s (EngineEvent.connect peerId status sink inbound cs)) := by
  have happ : applyEngineEvent s (EngineEvent.connect peerId status sink inbound cs) =
      (match onSyncPeerConnected s peerId status sink inbound cs with
        | ConnectResult.accepted s2 => s2
        | ConnectResult.rejected _ s2 => s2) := rfl
  rw [happ]
  cases hres : onSyncPeerConnected s peerId status sink inbound cs with
  | rejected why s2 =>
      simp only []
      rw [connect_rejected_eq s peerId status sink inbound cs why s2 hres]
      exact hwf
  | accepted s2 =>
      simp only []
      obtain ⟨hfresh, hcase⟩ :=
        connect_accepted_spec s peerId status sink inbound cs s2 hres
      rcases hcase with ⟨hns, rfl⟩ | ⟨hns, hin, hrole, rfl⟩ | ⟨hns, hnotc, rfl⟩
      · exact engineWF_connect_noslot s peerId _ hwf hfresh hns
      · exact engineWF_connect_inbound s peerId _ hwf hfresh hns hin hrole
      · exact engineWF_connect_other s peerId _ hwf hfresh hns hnotc

/-- `EngineWF` is preserved by every disconnection event. -/
theorem engineWF_disconnect (s : EngineState) (peerId : PeerId) (hwf : EngineWF s) :
    EngineWF (applyEngineEvent s (EngineEvent.disconnect peerId)) := by
  obtain ⟨hnum, hchar, hndk, hndc⟩ := hwf
  have happ : applyEngineEvent s (EngineEvent.disconnect peerId) =
      (match onSyncPeerDisconnected s peerId with
        | Except.ok s2 => s2
        | Except.error _ => s) := rfl
  rw [happ, onSyncPeerDisconnected_eq]
  cases hl : StateDbVerify.Assoc.lookup s.peers peerId with
  | none =>
      simp only [hl]
      exact ⟨hnum, hchar, hndk, hndc⟩
  | some info =>
    simp only [hl]
    have hcontains : StateDbVerify.Assoc.containsKey s.peers peerId = true := by
      simp [StateDbVerify.Assoc.containsKey, hl]
    have hndE : (StateDbVerify.Assoc.keysOf (StateDbVerify.Assoc.eraseKey s.peers peerId)).Nodup := by
      rw [StateDbVerify.Assoc.keysOf_eraseKey]
      exact hndk.erase peerId
    have hlE : StateDbVerify.Assoc.lookup (StateDbVerify.Assoc.eraseKey s.peers peerId) peerId = none :=
      StateDbVerify.Assoc.lookup_eraseKey_self s.peers peerId hndk
    have hcharE : ∀ id, id ∈ s.noSlotConnectedPeers.erase peerId ↔
        (StateDbVerify.Assoc.containsKey (StateDbVerify.Assoc.eraseKey s.peers peerId) id = true ∧
          id ∈ s.noSlotPeers) := by
      intro id
      by_cases hid : id = peerId
      · subst hid
        simp only [StateDbVerify.Assoc.containsKey, hlE]
        constructor
        · intro hmem
          exact absurd hmem (by
            intro hmem2
            exact ((List.Nodup.mem_erase_iff hndc).mp hmem2).1 rfl)
        · rintro ⟨hfalse, -⟩
          simp at hfalse
      · rw [List.mem_erase_of_ne hid, hchar id]
        show _ ↔ (StateDbVerify.Assoc.lookup (StateDbVerify.Assoc.eraseKey s.peers peerId) id).isSome = true ∧ _
        rw [StateDbVerify.Assoc.lookup_eraseKey_ne s.peers peerId id (fun he => hid he.symm)]
        exact Iff.rfl
    have hcount := StateDbVerify.Assoc.countP_eraseKey_some s.peers peerId info
      (fun kv => kv.2.inbound && (kv.2.role == Role.full) && decide (kv.1 ∉ s.noSlotPeers)) hl
    simp only [] at hcount
    by_cases hc : peerId ∈ s.noSlotConnectedPeers
    · have hmem : peerId ∈ s.noSlotPeers := ((hchar peerId).mp hc).2
      have hcfalse : ¬(¬peerId ∈ s.noSlotConnectedPeers ∧ info.inbound = true ∧
          info.role = Role.full) := by
        rintro ⟨hno, -, -⟩
        exact hno hc
      simp only [if_neg hcfalse]
      have hp : (info.inbound && (info.role == Role.full) && decide (peerId ∉ s.noSlotPeers))
          = false := by
        simp [hmem]
      simp only [hp] at hcount
      refine ⟨?_, hcharE, hndE, hndc.erase peerId⟩
      show s.numInPeers = List.countP
        (fun kv => kv.2.inbound && (kv.2.role == Role.full) && decide (kv.1 ∉ s.noSlotPeers))
        (StateDbVerify.Assoc.eraseKey s.peers peerId)
      rw [hnum, countedInboundPeers_def, hcount]
      simp
    · have hnotmem : peerId ∉ s.noSlotPeers := by
        intro hmem
        exact hc ((hchar peerId).mpr ⟨hcontains, hmem⟩)
      by_cases hif : info.inbound = true ∧ info.role = Role.full
      · have hctrue : (¬peerId ∈ s.noSlotConnectedPeers ∧ info.inbound = true ∧
            info.role = Role.full) := ⟨hc, hif.1, hif.2⟩
        simp only [if_pos hctrue]
        have hp : (info.inbound && (info.role == Role.full) && decide (peerId ∉ s.noSlotPeers))
            = true := by
          simp [hif.1, hif.2, hnotmem]
        simp only [hp] at hcount
        have hpos : s.numInPeers = 1 + List.countP
            (fun kv => kv.2.inbound && (kv.2.role == Role.full) && decide (kv.1 ∉ s.noSlotPeers))
            (StateDbVerify.Assoc.eraseKey s.peers peerId) := by
          rw [hnum, countedInboundPeers_def, hcount]
          simp
        cases hn : s.numInPeers with
        | zero =>
            rw [hn] at hpos
            exact absurd hpos (by omega)
        | succ n =>
            simp only []
            refine ⟨?_, hcharE, hndE, hndc.erase peerId⟩
            show n = List.countP
              (fun kv => kv.2.inbound && (kv.2.role == Role.full) && decide (kv.1 ∉ s.noSlotPeers))
              (StateDbVerify.Assoc.eraseKey s.peers peerId)
            rw [hn] at hpos
            omega
      · have hcfalse : ¬(¬peerId ∈ s.noSlotConnectedPeers ∧ info.inbound = true ∧
            info.role = Role.full) := by
          rintro ⟨-, h1, h2⟩
          exact hif ⟨h1, h2⟩
        simp only [if_neg hcfalse]
        have hp : (info.inbound && (info.role == Role.full) && decide (peerId ∉ s.noSlotPeers))
            = false := by
          cases hi : info.inbound with
          | false => simp
          | true =>
              cases hr : info.role with
              | full => exact absurd ⟨hi, hr⟩ hif
              | light => simp
        simp only [hp] at hcount
        refine ⟨?_, hcharE, hndE, hndc.erase peerId⟩
        show s.numInPeers = List.countP
          (fun kv => kv.2.inbound && (kv.2.role == Role.full) && decide (kv.1 ∉ s.noSlotPeers))
          (StateDbVerify.Assoc.eraseKey s.peers peerId)
        rw [hnum, countedInboundPeers_def, hcount]
        simp

/-- `EngineWF` is preserved by every event. -/
theorem engineWF_step (s : EngineState) (ev : EngineEvent) (hwf : EngineWF s) :
    EngineWF (applyEngineEvent s ev) := by
  cases ev with
  | connect peerId status sink inbound cs =>
      exact engineWF_connect s peerId status sink inbound cs hwf
  | disconnect peerId => exact engineWF_disconnect s peerId hwf

/-- `EngineWF` holds along every run. -/
theorem engineWF_run (s : EngineState) (evs : List EngineEvent) (hwf : EngineWF s) :
    EngineWF (runEngine s evs) := by
  induction evs generalizing s with
  | nil => exact hwf
  | cons ev rest ih => exact ih (applyEngineEvent s ev) (engineWF_step s ev hwf)

/-- A fresh engine state satisfies the invariant. -/
theorem engineWF_init (maxIn nFull nLight genesis : Nat)
    (important boot noSlot : List PeerId) :
    EngineWF (engineInit maxIn nFull nLight genesis important boot noSlot) := by
  refine ⟨rfl, ?_, List.nodup_nil, List.nodup_nil⟩
  intro id
  simp [engineInit, StateDbVerify.Assoc.containsKey, StateDbVerify.Assoc.lookup]

/-- C9: after every sequence of `on_sync_peer_connected` /
`on_sync_peer_disconnected` calls from a fresh engine, `num_in_peers`
equals the number of peer-table entries that are inbound, full-role and
not no-slot (so the connect/disconnect counter adjustments are
symmetric). -/
theorem c9_num_in_peers_counts (maxIn nFull nLight genesis : Nat)
    (important boot noSlot : List PeerId) (evs : List EngineEvent) :
    (runEngine (engineInit maxIn nFull nLight genesis important boot noSlot) evs).numInPeers
      = countedInboundPeers
          (runEngine (engineInit maxIn nFull nLight genesis important boot noSlot) evs) :=
  (engineWF_run _ evs (engineWF_init maxIn nFull nLight genesis important boot noSlot)).1

/-- C8 witness: with zero inbound slots, the 1st inbound full peer (id
9) is rejected with the state unchanged, while the no-slot peer (id 5)
is never the victim of the inbound-slot check. -/
theorem c8_witness :
    (∃ why, onSyncPeerConnected exEngine0 9 exHandshakeFull 0 true exOracle =
      ConnectResult.rejected why exEngine0) ∧
    (∀ why s2, onSyncPeerConnected exEngine0 5 exHandshakeFull 0 true exOracle =
      ConnectResult.rejected why s2 → why ≠ ConnectRejection.noInboundSlots) := by
  constructor
  · exact (c8_inbound_slot_check exEngine0 9 exHandshakeFull 0 true exOracle).1
      rfl rfl (by decide) rfl
  · exact (c8_inbound_slot_check exEngine0 5 exHandshakeFull 0 true exOracle).2
      (by decide)

end SyncEngineVerify

namespace StateDbVerify.Assoc

variable {K V : Type} [DecidableEq K]

theorem lookup_eraseKey_of_none (m : Assoc K V) (k k2 : K) (h : lookup m k = none) :
    lookup (eraseKey m k2) k = none := by
  induction m with
  | nil => exact h
  | cons hd tl ih =>
      obtain ⟨k3, v3⟩ := hd
      rw [lookup_cons] at h
      by_cases h3 : k3 = k
      · simp [h3] at h
      · simp only [if_neg h3] at h
        by_cases h4 : k3 = k2
        · simp only [eraseKey, if_pos h4]
          exact h
        · simp only [eraseKey, if_neg h4, lookup_cons, if_neg h3]
          exact ih h

theorem lookup_foldl_erase_not_mem (ks : List K) (m : Assoc K V) (k : K) (h : k ∉ ks) :
    lookup (ks.foldl eraseKey m) k = lookup m k := by
  induction ks generalizing m with
  | nil => rfl
  | cons k2 rest ih =>
      simp only [List.mem_cons, not_or] at h
      simp only [List.foldl_cons]
      rw [ih (eraseKey m k2) h.2, lookup_eraseKey_ne m k2 k (fun he => h.1 he.symm)]

theorem lookup_foldl_erase_none (ks : List K) (m : Assoc K V) (k : K)
    (h : lookup m k = none) : lookup (ks.foldl eraseKey m) k = none := by
  induction ks generalizing m with
  | nil => exact h
  | cons k2 rest ih =>
      simp only [List.foldl_cons]
      exact ih (eraseKey m k2) (lookup_eraseKey_of_none m k k2 h)

theorem nodupKeys_eraseKey (m : Assoc K V) (k : K) (h : (keysOf m).Nodup) :
    (keysOf (eraseKey m k)).Nodup := by
  rw [keysOf_eraseKey]
  exact h.erase k

theorem nodupKeys_foldl_erase (ks : List K) (m : Assoc K V) (h : (keysOf m).Nodup) :
    (keysOf (ks.foldl eraseKey m)).Nodup := by
  induction ks generalizing m with
  | nil => exact h
  | cons k2 rest ih =>
      simp only [List.foldl_cons]
      exact ih (eraseKey m k2) (nodupKeys_eraseKey m k2 h)

theorem lookup_foldl_erase_mem (ks : List K) (m : Assoc K V) (k : K)
    (hnd : (keysOf m).Nodup) (h : k ∈ ks) :
    lookup (ks.foldl eraseKey m) k = none := by
  induction ks generalizing m with
  | nil => simp at h
  | cons k2 rest ih =>
      simp only [List.foldl_cons]
      by_cases hk : k = k2
      · subst hk
        exact lookup_foldl_erase_none rest (eraseKey m k) k
          (lookup_eraseKey_self m k hnd)
      · rcases List.mem_cons.mp h with he | hm
        · exact absurd he hk
        · exact ih (eraseKey m k2) (nodupKeys_eraseKey m k2 hnd) hm

theorem nodupKeys_insertU (m : Assoc K V) (k : K) (v : V) (h : (keysOf m).Nodup) :
    (keysOf (insertU m k v)).Nodup := by
  cases hl : lookup m k with
  | none =>
      rw [keysOf_insertU_fresh m k v hl]
      have : k ∉ keysOf m := by
        intro hm
        rw [← lookup_isSome_iff_mem_keys] at hm
        rw [hl] at hm
        simp at hm
      simp [List.nodup_append, h, this]
  | some v0 =>
      have : keysOf (insertU m k v) = keysOf m := by
        induction m with
        | nil => simp [lookup] at hl
        | cons hd tl ih =>
            obtain ⟨k2, v2⟩ := hd
            by_cases h2 : k2 = k
            · subst h2
              simp [insertU, keysOf]
            · rw [lookup_cons] at hl
              simp only [if_neg h2] at hl
              have hk : keysOf ((k2, v2) :: tl) = k2 :: keysOf tl := rfl
              rw [hk, List.nodup_cons] at h
              simp only [insertU, if_neg h2]
              have hk2 : keysOf ((k2, v2) :: insertU tl k v) =
                  k2 :: keysOf (insertU tl k v) := rfl
              rw [hk2, hk, ih h.2 hl]
      rw [this]
      exact h

end StateDbVerify.Assoc

namespace StateDbVerify.Assoc

variable {K V : Type} [DecidableEq K]

theorem lookup_foldl_insert_not_mem (adds : List (K × V)) (m : Assoc K V) (k : K)
    (h : ∀ kv ∈ adds, kv.1 ≠ k) :
    lookup (adds.foldl (fun a kv => insertU a kv.1 kv.2) m) k = lookup m k := by
  induction adds generalizing m with
  | nil => rfl
  | cons kv rest ih =>
      simp only [List.foldl_cons]
      rw [ih (insertU m kv.1 kv.2) (fun kv2 hm => h kv2 (List.mem_cons_of_mem kv hm)),
        lookup_insertU_ne m kv.1 k kv.2 (h kv (List.mem_cons_self kv rest))]

theorem nodupKeys_foldl_insert (adds : List (K × V)) (m : Assoc K V)
    (h : (keysOf m).Nodup) :
    (keysOf (adds.foldl (fun a kv => insertU a kv.1 kv.2) m)).Nodup := by
  induction adds generalizing m with
  | nil => exact h
  | cons kv rest ih =>
      simp only [List.foldl_cons]
      exact ih (insertU m kv.1 kv.2) (nodupKeys_insertU m kv.1 kv.2 h)

end StateDbVerify.Assoc

namespace StateDbVerify

/-- `trailing_ones` of a low-bits mask. -/
theorem u64TrailingOnes_pow : ∀ len, len < 64 → u64TrailingOnes (2 ^ len - 1) = len := by
  decide

/-- Setting the next free bit of a low-bits mask widens the mask. -/
theorem lor_pow : ∀ len, len < 64 → (2 ^ len - 1) ||| (1 <<< len) = 2 ^ (len + 1) - 1 := by
  decide

theorem frontBlockNumber_some (s : Overlay) (ch : BlockHash) (cn : Nat)
    (hlc : s.lastCanonicalized = some (ch, cn)) : s.frontBlockNumber = cn + 1 := by
  unfold Overlay.frontBlockNumber
  rw [hlc]

/-- `insertOp` is the error checks followed by `insertTail`. -/
theorem insertOp_eq_match (s : Overlay) (h : BlockHash) (n : Nat) (p : BlockHash)
    (cs : ChangeSet) :
    s.insertOp h n p cs =
      (match
        (if s.levels = [] ∧ s.lastCanonicalized = none ∧ 0 < n then
          Except.ok
            ({ s with lastCanonicalized := some (p, n - 1) },
              [(MetaKey.lastCanonical, MetaValue.lastCanon p (n - 1))])
        else if s.lastCanonicalized.isSome then
          if n < s.frontBlockNumber ∨ s.frontBlockNumber + s.levels.length < n then
            Except.error StateDbError.invalidBlockNumber
          else if n = s.frontBlockNumber then
            if (match s.lastCanonicalized with
                | some (h2, n2) => (h2 == p) && (n2 == n - 1)
                | none => false) then
              Except.ok (s, [])
            else
              Except.error StateDbError.invalidParent
          else if (Assoc.lookup s.parents p).isSome then
            Except.ok (s, [])
          else
            Except.error StateDbError.invalidParent
        else
          Except.ok (s, []) :
          Except StateDbError (Overlay × List (MetaKey × MetaValue))) with
      | Except.error e => InsertResult.err e
      | Except.ok (s1, meta1) => insertTail s1 meta1 h n p cs s.frontBlockNumber) := rfl

theorem set_append_length {α : Type} (l : List α) (y : α) (r : List α) (x : α) :
    (l ++ y :: r).set l.length x = l ++ x :: r := by
  induction l with
  | nil => rfl
  | cons a as ih => simp [ih]

theorem levelHashes_nil : levelHashes [] = [] := rfl

theorem levelHashes_cons (lvl : OverlayLevel) (ls : List OverlayLevel) :
    levelHashes (lvl :: ls) = lvl.blocks.map (fun b => b.hash) ++ levelHashes ls := by
  simp [levelHashes]

theorem levelHashes_append (a b : List OverlayLevel) :
    levelHashes (a ++ b) = levelHashes a ++ levelHashes b := by
  simp [levelHashes]

theorem mem_levelHashes_iff (ls : List OverlayLevel) (h : BlockHash) :
    h ∈ levelHashes ls ↔ ∃ lvl ∈ ls, ∃ b ∈ lvl.blocks, b.hash = h := by
  simp [levelHashes, List.mem_flatten, List.mem_map]

theorem mem_levelHashes_of_get (ls : List OverlayLevel) (j : Nat) (lvl : OverlayLevel)
    (b : BlockOverlay) (hget : ls.get? j = some lvl) (hb : b ∈ lvl.blocks) :
    b.hash ∈ levelHashes ls :=
  (mem_levelHashes_iff ls b.hash).2 ⟨lvl, List.get?_mem hget, b, hb, rfl⟩

/-- Decompose a list at a known index. -/
theorem eq_take_cons_drop {α : Type} (ls : List α) (j : Nat) (x : α)
    (hget : ls.get? j = some x) :
    ls = ls.take j ++ x :: ls.drop (j + 1) ∧ (ls.take j).length = j := by
  have hj : j < ls.length := by
    by_contra hle
    rw [List.get?_eq_none.2 (Nat.le_of_not_lt hle)] at hget
    exact Option.noConfusion hget
  have hx : ls.get ⟨j, hj⟩ = x := by
    have := List.get?_eq_get hj
    rw [this] at hget
    exact Option.some.inj hget
  constructor
  · conv_lhs => rw [← List.take_append_drop j ls]
    rw [List.drop_eq_get_cons hj, hx]
  · simp [List.length_take, Nat.min_eq_left (Nat.le_of_lt hj)]

end StateDbVerify

namespace StateDbVerify

theorem u64TrailingOnes_zero : u64TrailingOnes 0 = 0 := by decide

theorem insertOp_first (s : Overlay) (h p : BlockHash) (n : Nat) (cs : ChangeSet)
    (hlev : s.levels = []) (hlc : s.lastCanonicalized = none) (hn : 0 < n) :
    s.insertOp h n p cs =
      insertTail { s with lastCanonicalized := some (p, n - 1) }
        [(MetaKey.lastCanonical, MetaValue.lastCanon p (n - 1))] h n p cs
        s.frontBlockNumber := by
  rw [insertOp_eq_match]
  rw [if_pos ⟨hlev, hlc, hn⟩]

theorem insertOp_case_some (s : Overlay) (h p : BlockHash) (n : Nat) (cs : ChangeSet)
    (ch : BlockHash) (cn : Nat) (hlc : s.lastCanonicalized = some (ch, cn)) :
    s.insertOp h n p cs =
      if n < cn + 1 ∨ cn + 1 + s.levels.length < n then
        InsertResult.err StateDbError.invalidBlockNumber
      else if n = cn + 1 then
        if (ch == p) && (cn == n - 1) then insertTail s [] h n p cs (cn + 1)
        else InsertResult.err StateDbError.invalidParent
      else if (Assoc.lookup s.parents p).isSome then insertTail s [] h n p cs (cn + 1)
      else InsertResult.err StateDbError.invalidParent := by
  rw [insertOp_eq_match, frontBlockNumber_some s ch cn hlc]
  rw [if_neg (by simp [hlc])]
  rw [hlc]
  simp only [Option.isSome_some, if_true]
  by_cases h1 : n < cn + 1 ∨ cn + 1 + s.levels.length < n
  · rw [if_pos h1, if_pos h1]
  · rw [if_neg h1, if_neg h1]
    by_cases h2 : n = cn + 1
    · rw [if_pos h2, if_pos h2]
      by_cases h3 : ((ch == p) && (cn == n - 1)) = true
      · rw [if_pos h3, if_pos h3]
      · rw [if_neg h3, if_neg h3]
    · rw [if_neg h2, if_neg h2]
      by_cases h4 : (Assoc.lookup s.parents p).isSome = true
      · rw [if_pos h4, if_pos h4]
      · rw [if_neg h4, if_neg h4]

theorem insertTail_append (s1 : Overlay) (meta1 : List (MetaKey × MetaValue))
    (h p : BlockHash) (n : Nat) (cs : ChangeSet) (front : Nat)
    (hcond : s1.levels = [] ∨ n = front + s1.levels.length) :
    insertTail s1 meta1 h n p cs front = InsertResult.ok
      { data := { inserted := [], deleted := [] }
        meta :=
          { inserted := meta1 ++
              [(MetaKey.journal n 0, MetaValue.record ⟨h, p, cs.inserted, cs.deleted⟩)]
            deleted := [] } }
      { s1 with
        levels := s1.levels ++
          [⟨[⟨h, 0, MetaKey.journal n 0, cs.inserted.map (fun kv => kv.1), cs.deleted⟩], 1, 1⟩]
        parents := Assoc.insertU s1.parents h p
        values := insertValues s1.values cs.inserted } := by
  simp only [insertTail]
  rw [if_pos hcond]
  simp only [List.get?_concat_length]
  simp only [OverlayLevel.new, OverlayLevel.newWithSpan, OverlayLevel.availableIndex,
    OverlayLevel.push, List.any_nil, Bool.false_eq_true, if_false, u64TrailingOnes_zero,
    OVERLAY_LEVEL_STORE_SPANS_LONGER_THAN]
  norm_num

theorem insertTail_into (s1 : Overlay) (meta1 : List (MetaKey × MetaValue))
    (h p : BlockHash) (n : Nat) (cs : ChangeSet) (front : Nat) (j : Nat) (lvl : OverlayLevel)
    (hne : ¬(s1.levels = [] ∨ n = front + s1.levels.length))
    (hj : n - front = j)
    (hget : s1.levels.get? j = some lvl)
    (hdup : lvl.blocks.any (fun b => b.hash == h) = false)
    (hui : lvl.usedIndicies = 2 ^ lvl.blocks.length - 1)
    (hspan : lvl.span = lvl.blocks.length)
    (hlen : lvl.blocks.length < 64) :
    insertTail s1 meta1 h n p cs front = InsertResult.ok
      { data := { inserted := [], deleted := [] }
        meta :=
          { inserted := meta1 ++
              (if OVERLAY_LEVEL_STORE_SPANS_LONGER_THAN ≤ lvl.blocks.length then
                [(MetaKey.levelSpan n, MetaValue.span (lvl.blocks.length + 1))]
              else []) ++
              [(MetaKey.journal n lvl.blocks.length,
                MetaValue.record ⟨h, p, cs.inserted, cs.deleted⟩)]
            deleted := [] } }
      { s1 with
        levels := s1.levels.set j
          ⟨lvl.blocks ++
              [⟨h, lvl.blocks.length, MetaKey.journal n lvl.blocks.length,
                cs.inserted.map (fun kv => kv.1), cs.deleted⟩],
            2 ^ (lvl.blocks.length + 1) - 1, lvl.blocks.length + 1⟩
        parents := Assoc.insertU s1.parents h p
        values := insertValues s1.values cs.inserted } := by
  have hidx : lvl.availableIndex = lvl.blocks.length := by
    rw [OverlayLevel.availableIndex, hui]
    exact u64TrailingOnes_pow _ hlen
  have hpush : lvl.push ⟨h, lvl.blocks.length, MetaKey.journal n lvl.blocks.length,
      cs.inserted.map (fun kv => kv.1), cs.deleted⟩ =
      ⟨lvl.blocks ++
          [⟨h, lvl.blocks.length, MetaKey.journal n lvl.blocks.length,
            cs.inserted.map (fun kv => kv.1), cs.deleted⟩],
        2 ^ (lvl.blocks.length + 1) - 1, lvl.blocks.length + 1⟩ := by
    simp only [OverlayLevel.push]
    rw [hui, hspan]
    have h1 : (2 ^ lvl.blocks.length - 1) ||| (1 <<< lvl.blocks.length) =
        2 ^ (lvl.blocks.length + 1) - 1 := lor_pow _ hlen
    have h2 : max lvl.blocks.length (lvl.blocks.length + 1) = lvl.blocks.length + 1 := by
      omega
    rw [h1, h2]
  simp only [insertTail]
  rw [if_neg hne, hj]
  simp only [hget]
  rw [hdup]
  simp only [Bool.false_eq_true, if_false, hidx, hspan, and_true, hpush]

end StateDbVerify

namespace StateDbVerify

theorem not_mem_levelHashes_fresh (s : Overlay) (h : BlockHash)
    (hiff : ∀ h2, Assoc.containsKey s.parents h2 = true ↔ h2 ∈ levelHashes s.levels)
    (hfresh : Assoc.lookup s.parents h = none) : h ∉ levelHashes s.levels := by
  intro hmem
  have hc := (hiff h).2 hmem
  simp [Assoc.containsKey, hfresh] at hc

theorem LevelRep_lift (db : DB) (pr : Assoc BlockHash BlockHash) (bn : Nat)
    (lvl : OverlayLevel) (adds : List (MetaKey × MetaValue)) (h p : BlockHash)
    (hrep : LevelRep db pr bn lvl)
    (hks : ∀ kv ∈ adds, (∀ i, kv.1 ≠ MetaKey.journal bn i) ∧ kv.1 ≠ MetaKey.levelSpan bn)
    (hh : ∀ b ∈ lvl.blocks, b.hash ≠ h) :
    LevelRep (adds.foldl (fun a kv => Assoc.insertU a kv.1 kv.2) db)
      (Assoc.insertU pr h p) bn lvl := by
  obtain ⟨hne, hlen, hblocks, habs, hui, hspan, hsp⟩ := hrep
  refine ⟨hne, hlen, ?_, ?_, hui, hspan, ?_⟩
  · intro i b hb
    obtain ⟨hbi, hbk, pb, pairs, hpb, hpairs, hdb⟩ := hblocks i b hb
    refine ⟨hbi, hbk, pb, pairs, ?_, hpairs, ?_⟩
    · rw [Assoc.lookup_insertU_ne pr h b.hash p (fun he => hh b (List.get?_mem hb) he.symm)]
      exact hpb
    · rw [Assoc.lookup_foldl_insert_not_mem adds db _ (fun kv hm => (hks kv hm).1 i)]
      exact hdb
  · intro i hi
    rw [Assoc.lookup_foldl_insert_not_mem adds db _ (fun kv hm => (hks kv hm).1 i)]
    exact habs i hi
  · rw [Assoc.lookup_foldl_insert_not_mem adds db _ (fun kv hm => (hks kv hm).2)]
    exact hsp

theorem LevelRep_erase_lift (db : DB) (pr : Assoc BlockHash BlockHash) (bn : Nat)
    (lvl : OverlayLevel) (dels : List MetaKey) (ehs : List BlockHash)
    (hrep : LevelRep db pr bn lvl)
    (hks : ∀ k ∈ dels, (∀ i, k ≠ MetaKey.journal bn i) ∧ k ≠ MetaKey.levelSpan bn)
    (hh : ∀ b ∈ lvl.blocks, b.hash ∉ ehs) :
    LevelRep (dels.foldl Assoc.eraseKey db) (ehs.foldl Assoc.eraseKey pr) bn lvl := by
  obtain ⟨hne, hlen, hblocks, habs, hui, hspan, hsp⟩ := hrep
  refine ⟨hne, hlen, ?_, ?_, hui, hspan, ?_⟩
  · intro i b hb
    obtain ⟨hbi, hbk, pb, pairs, hpb, hpairs, hdb⟩ := hblocks i b hb
    refine ⟨hbi, hbk, pb, pairs, ?_, hpairs, ?_⟩
    · rw [Assoc.lookup_foldl_erase_not_mem ehs pr b.hash (hh b (List.get?_mem hb))]
      exact hpb
    · rw [Assoc.lookup_foldl_erase_not_mem dels db _ (fun hm => ((hks _ hm).1 i) rfl)]
      exact hdb
  · intro i hi
    rw [Assoc.lookup_foldl_erase_not_mem dels db _ (fun hm => ((hks _ hm).1 i) rfl)]
    exact habs i hi
  · rw [Assoc.lookup_foldl_erase_not_mem dels db _ (fun hm => ((hks _ hm).2) rfl)]
    exact hsp

end StateDbVerify

namespace StateDbVerify

theorem jointInv_insert_append (s : Overlay) (db : DB) (h p : BlockHash) (n : Nat)
    (cs : ChangeSet) (ch : BlockHash) (cn : Nat)
    (hinv : JointInv s db) (hlc : s.lastCanonicalized = some (ch, cn))
    (hn : n = cn + 1 + s.levels.length)
    (hfresh : Assoc.lookup s.parents h = none) :
    JointInv
      { s with
        levels := s.levels ++
          [⟨[⟨h, 0, MetaKey.journal n 0, cs.inserted.map (fun kv => kv.1), cs.deleted⟩], 1, 1⟩]
        parents := Assoc.insertU s.parents h p
        values := insertValues s.values cs.inserted }
      (Assoc.insertU db (MetaKey.journal n 0)
        (MetaValue.record ⟨h, p, cs.inserted, cs.deleted⟩)) := by
  obtain ⟨i1, i2, i3, i4, i5, i6, i7, i8, i9, i10⟩ := hinv
  have hfront : s.frontBlockNumber = cn + 1 := frontBlockNumber_some s ch cn hlc
  have hnotmem : h ∉ levelHashes s.levels := not_mem_levelHashes_fresh s h i6 hfresh
  have hfb : Overlay.frontBlockNumber
      { s with
        levels := s.levels ++
          [⟨[⟨h, 0, MetaKey.journal n 0, cs.inserted.map (fun kv => kv.1), cs.deleted⟩], 1, 1⟩]
        parents := Assoc.insertU s.parents h p
        values := insertValues s.values cs.inserted } = s.frontBlockNumber := rfl
  rw [hlc] at i1
  refine ⟨?_, ?_, ?_, ?_, ?_, ?_, ?_, ?_, ?_, ?_⟩
  · show Assoc.lookup _ MetaKey.lastCanonical =
      (match s.lastCanonicalized with
       | some (h2, n2) => some (MetaValue.lastCanon h2 n2)
       | none => none)
    rw [Assoc.lookup_insertU_ne db (MetaKey.journal n 0) MetaKey.lastCanonical _
      (fun he => MetaKey.noConfusion he), hlc]
    exact i1
  · intro habs
    simp [hlc] at habs
  · intro j2 lvl2 hget2
    show LevelRep _ _ (s.frontBlockNumber + j2) lvl2
    rcases Nat.lt_trichotomy j2 s.levels.length with hlt | hj2 | hgt
    · rw [List.get?_append hlt] at hget2
      have hold := i3 j2 lvl2 hget2
      have := LevelRep_lift db s.parents (s.frontBlockNumber + j2) lvl2
        [(MetaKey.journal n 0, MetaValue.record ⟨h, p, cs.inserted, cs.deleted⟩)] h p hold
        ?_ ?_
      · exact this
      · intro kv hkv
        simp only [List.mem_singleton] at hkv
        subst hkv
        constructor
        · intro i he
          have : n = s.frontBlockNumber + j2 := by
            cases he
            rfl
          omega
        · intro he
          exact MetaKey.noConfusion he
      · intro b hb he
        exact hnotmem (he ▸ mem_levelHashes_of_get s.levels j2 lvl2 b hget2 hb)
    · subst hj2
      rw [List.get?_concat_length] at hget2
      have hlvl2 := Option.some.inj hget2
      subst hlvl2
      have hbn : s.frontBlockNumber + s.levels.length = n := by omega
      rw [hbn]
      refine ⟨by simp, by norm_num, ?_, ?_, rfl, rfl, ?_⟩
      · intro i b hb
        match i, hb with
        | 0, hb =>
          have hbb := Option.some.inj hb
          subst hbb
          refine ⟨rfl, rfl, p, cs.inserted, Assoc.lookup_insertU_self s.parents h p, rfl,
            Assoc.lookup_insertU_self db _ _⟩
      · intro i hi
        simp only [List.length_singleton] at hi
        rw [Assoc.lookup_insertU_ne db (MetaKey.journal n 0) (MetaKey.journal n i) _
          (by intro he; cases he; omega)]
        exact i4 n i (Or.inr (by omega))
      · rw [Assoc.lookup_insertU_ne db (MetaKey.journal n 0) (MetaKey.levelSpan n) _
          (fun he => MetaKey.noConfusion he)]
        rw [i5 n (Or.inr (by omega))]
        norm_num [OVERLAY_LEVEL_STORE_SPANS_LONGER_THAN]
    · rw [List.get?_eq_none.2 (by simp; omega)] at hget2
      exact Option.noConfusion hget2
  · intro bn i hcond
    simp only [List.length_append, List.length_singleton] at hcond
    rw [hfb] at hcond
    rw [Assoc.lookup_insertU_ne db (MetaKey.journal n 0) (MetaKey.journal bn i) _
      (by intro he; cases he; omega)]
    exact i4 bn i (by omega)
  · intro bn hcond
    simp only [List.length_append, List.length_singleton] at hcond
    rw [hfb] at hcond
    rw [Assoc.lookup_insertU_ne db (MetaKey.journal n 0) (MetaKey.levelSpan bn) _
      (fun he => MetaKey.noConfusion he)]
    exact i5 bn (by omega)
  · intro h2
    show Assoc.containsKey (Assoc.insertU s.parents h p) h2 = true ↔
      h2 ∈ levelHashes (s.levels ++
        [⟨[⟨h, 0, MetaKey.journal n 0, cs.inserted.map (fun kv => kv.1), cs.deleted⟩], 1, 1⟩])
    rw [levelHashes_append]
    by_cases hh2 : h2 = h
    · subst hh2
      simp [Assoc.containsKey, Assoc.lookup_insertU_self, levelHashes]
    · unfold Assoc.containsKey
      rw [Assoc.lookup_insertU_ne s.parents h h2 p (fun he => hh2 he.symm)]
      have := i6 h2
      unfold Assoc.containsKey at this
      rw [this]
      simp [levelHashes, hh2]
  · show (levelHashes (s.levels ++ _)).Nodup
    rw [levelHashes_append]
    have h2 : levelHashes
        [(⟨[⟨h, 0, MetaKey.journal n 0, cs.inserted.map (fun kv => kv.1), cs.deleted⟩], 1, 1⟩ :
          OverlayLevel)] = [h] := by
      simp [levelHashes]
    rw [h2]
    rw [List.nodup_append]
    refine ⟨i7, by simp, ?_⟩
    intro a ha hb
    simp only [List.mem_singleton] at hb
    subst hb
    exact hnotmem ha
  · exact i8
  · exact Assoc.nodupKeys_insertU db _ _ i9
  · exact Assoc.nodupKeys_insertU s.parents h p i10

end StateDbVerify

namespace StateDbVerify

theorem set_of_get? {α : Type} : ∀ (ls : List α) (j : Nat) (x y : α), ls.get? j = some x →
    ls.set j y = ls.take j ++ y :: ls.drop (j + 1)
  | [], j, x, y, h => by simp [List.get?] at h
  | a :: as, 0, x, y, h => by simp
  | a :: as, j+1, x, y, h => by
      simp only [List.set, List.take, List.drop, List.cons_append]
      rw [set_of_get? as j x y h]

theorem decomp_of_get? {α : Type} : ∀ (ls : List α) (j : Nat) (x : α), ls.get? j = some x →
    ls = ls.take j ++ x :: ls.drop (j + 1)
  | [], j, x, h => by simp [List.get?] at h
  | a :: as, 0, x, h => by
      simp only [List.get?] at h
      cases h
      simp
  | a :: as, j+1, x, h => by
      simp only [List.take, List.drop, List.cons_append]
      conv_lhs => rw [decomp_of_get? as j x h]

theorem nodup_insert_middle {α : Type} (A L D : List α) (x : α)
    (hnd : (A ++ (L ++ D)).Nodup) (hx : x ∉ A ++ (L ++ D)) :
    (A ++ (L ++ [x]) ++ D).Nodup := by
  have h1 : A ++ (L ++ [x]) ++ D = (A ++ L) ++ x :: D := by simp
  rw [h1, List.Perm.nodup_iff List.perm_middle, List.nodup_cons]
  constructor
  · simpa using hx
  · simpa using hnd

theorem mem_insert_middle_iff {α : Type} (A L D : List α) (x y : α) :
    y ∈ A ++ (L ++ [x]) ++ D ↔ y = x ∨ y ∈ A ++ (L ++ D) := by
  simp [List.mem_append]
  tauto

end StateDbVerify

namespace StateDbVerify

theorem jointInv_insert_into (s : Overlay) (db : DB) (h p : BlockHash) (n : Nat)
    (cs : ChangeSet) (ch : BlockHash) (cn : Nat) (j : Nat) (lvl : OverlayLevel)
    (hinv : JointInv s db) (hlc : s.lastCanonicalized = some (ch, cn))
    (hn : n = cn + 1 + j) (hjlt : j < s.levels.length)
    (hget : s.levels.get? j = some lvl)
    (hfresh : Assoc.lookup s.parents h = none)
    (hwide : lvl.blocks.length < 64) :
    JointInv
      { s with
        levels := s.levels.set j
          ⟨lvl.blocks ++
              [⟨h, lvl.blocks.length, MetaKey.journal n lvl.blocks.length,
                cs.inserted.map (fun kv => kv.1), cs.deleted⟩],
            2 ^ (lvl.blocks.length + 1) - 1, lvl.blocks.length + 1⟩
        parents := Assoc.insertU s.parents h p
        values := insertValues s.values cs.inserted }
      (((if OVERLAY_LEVEL_STORE_SPANS_LONGER_THAN ≤ lvl.blocks.length then
          [(MetaKey.levelSpan n, MetaValue.span (lvl.blocks.length + 1))]
        else []) ++
        [(MetaKey.journal n lvl.blocks.length,
          MetaValue.record ⟨h, p, cs.inserted, cs.deleted⟩)]).foldl
        (fun a kv => Assoc.insertU a kv.1 kv.2) db) := by
  obtain ⟨i1, i2, i3, i4, i5, i6, i7, i8, i9, i10⟩ := hinv
  have hfront : s.frontBlockNumber = cn + 1 := frontBlockNumber_some s ch cn hlc
  have hnotmem : h ∉ levelHashes s.levels := not_mem_levelHashes_fresh s h i6 hfresh
  rw [hlc] at i1
  have hfb : Overlay.frontBlockNumber
      { s with
        levels := s.levels.set j
          ⟨lvl.blocks ++
              [⟨h, lvl.blocks.length, MetaKey.journal n lvl.blocks.length,
                cs.inserted.map (fun kv => kv.1), cs.deleted⟩],
            2 ^ (lvl.blocks.length + 1) - 1, lvl.blocks.length + 1⟩
        parents := Assoc.insertU s.parents h p
        values := insertValues s.values cs.inserted } = s.frontBlockNumber := rfl
  have hd3 : ∀ k : MetaKey, k ≠ MetaKey.journal n lvl.blocks.length →
      k ≠ MetaKey.levelSpan n →
      Assoc.lookup
        (((if OVERLAY_LEVEL_STORE_SPANS_LONGER_THAN ≤ lvl.blocks.length then
            [(MetaKey.levelSpan n, MetaValue.span (lvl.blocks.length + 1))]
          else []) ++
          [(MetaKey.journal n lvl.blocks.length,
            MetaValue.record ⟨h, p, cs.inserted, cs.deleted⟩)]).foldl
          (fun a kv => Assoc.insertU a kv.1 kv.2) db) k = Assoc.lookup db k := by
    intro k hkj hks
    apply Assoc.lookup_foldl_insert_not_mem
    intro kv hkv
    rcases List.mem_append.1 hkv with hk1 | hk2
    · by_cases h32 : OVERLAY_LEVEL_STORE_SPANS_LONGER_THAN ≤ lvl.blocks.length
      · rw [if_pos h32] at hk1
        simp only [List.mem_singleton] at hk1
        subst hk1
        exact fun he => hks he.symm
      · rw [if_neg h32] at hk1
        simp at hk1
    · simp only [List.mem_singleton] at hk2
      subst hk2
      exact fun he => hkj he.symm
  have hd1 : Assoc.lookup
      (((if OVERLAY_LEVEL_STORE_SPANS_LONGER_THAN ≤ lvl.blocks.length then
          [(MetaKey.levelSpan n, MetaValue.span (lvl.blocks.length + 1))]
        else []) ++
        [(MetaKey.journal n lvl.blocks.length,
          MetaValue.record ⟨h, p, cs.inserted, cs.deleted⟩)]).foldl
        (fun a kv => Assoc.insertU a kv.1 kv.2) db)
      (MetaKey.journal n lvl.blocks.length) =
      some (MetaValue.record ⟨h, p, cs.inserted, cs.deleted⟩) := by
    rw [List.foldl_append]
    simp only [List.foldl_cons, List.foldl_nil]
    exact Assoc.lookup_insertU_self _ _ _
  have hd2 : Assoc.lookup
      (((if OVERLAY_LEVEL_STORE_SPANS_LONGER_THAN ≤ lvl.blocks.length then
          [(MetaKey.levelSpan n, MetaValue.span (lvl.blocks.length + 1))]
        else []) ++
        [(MetaKey.journal n lvl.blocks.length,
          MetaValue.record ⟨h, p, cs.inserted, cs.deleted⟩)]).foldl
        (fun a kv => Assoc.insertU a kv.1 kv.2) db)
      (MetaKey.levelSpan n) =
      (if OVERLAY_LEVEL_STORE_SPANS_LONGER_THAN ≤ lvl.blocks.length then
        some (MetaValue.span (lvl.blocks.length + 1))
      else Assoc.lookup db (MetaKey.levelSpan n)) := by
    rw [List.foldl_append]
    simp only [List.foldl_cons, List.foldl_nil]
    rw [Assoc.lookup_insertU_ne _ (MetaKey.journal n lvl.blocks.length) (MetaKey.levelSpan n) _
      (fun he => MetaKey.noConfusion he)]
    by_cases h32 : OVERLAY_LEVEL_STORE_SPANS_LONGER_THAN ≤ lvl.blocks.length
    · rw [if_pos h32, if_pos h32]
      simp only [List.foldl_cons, List.foldl_nil]
      exact Assoc.lookup_insertU_self _ _ _
    · rw [if_neg h32, if_neg h32]
      rfl
  have hrepj := i3 j lvl hget
  rw [hfront] at hrepj
  have hbn : cn + 1 + j = n := by omega
  rw [hbn] at hrepj
  obtain ⟨hne0, hlen0, hblocks0, habs0, hui0, hspan0, hsp0⟩ := hrepj
  have hsetd := set_of_get? s.levels j lvl
    ⟨lvl.blocks ++
        [⟨h, lvl.blocks.length, MetaKey.journal n lvl.blocks.length,
          cs.inserted.map (fun kv => kv.1), cs.deleted⟩],
      2 ^ (lvl.blocks.length + 1) - 1, lvl.blocks.length + 1⟩ hget
  have hdecd := decomp_of_get? s.levels j lvl hget
  have hLH2 : levelHashes (s.levels.set j
      ⟨lvl.blocks ++
          [⟨h, lvl.blocks.length, MetaKey.journal n lvl.blocks.length,
            cs.inserted.map (fun kv => kv.1), cs.deleted⟩],
        2 ^ (lvl.blocks.length + 1) - 1, lvl.blocks.length + 1⟩) =
      levelHashes (s.levels.take j) ++
        (lvl.blocks.map (fun b => b.hash) ++ [h]) ++
        levelHashes (s.levels.drop (j + 1)) := by
    rw [hsetd, levelHashes_append, levelHashes_cons]
    simp [List.append_assoc]
  have hLH1 : levelHashes s.levels =
      levelHashes (s.levels.take j) ++
        (lvl.blocks.map (fun b => b.hash) ++ levelHashes (s.levels.drop (j + 1))) := by
    conv_lhs => rw [hdecd]
    rw [levelHashes_append, levelHashes_cons]
  refine ⟨?_, ?_, ?_, ?_, ?_, ?_, ?_, ?_, ?_, ?_⟩
  · show Assoc.lookup _ MetaKey.lastCanonical =
      (match s.lastCanonicalized with
       | some (h2, n2) => some (MetaValue.lastCanon h2 n2)
       | none => none)
    rw [hd3 MetaKey.lastCanonical (fun he => MetaKey.noConfusion he)
      (fun he => MetaKey.noConfusion he), hlc]
    exact i1
  · intro habs
    simp [hlc] at habs
  · intro j2 lvl2 hget2
    show LevelRep _ _ (s.frontBlockNumber + j2) lvl2
    by_cases hj2 : j2 = j
    · subst hj2
      rw [List.get?_set_eq_of_lt _ hjlt] at hget2
      cases Option.some.inj hget2
      have hbn2 : s.frontBlockNumber + j2 = n := by omega
      rw [hbn2]
      refine ⟨by simp, ?_, ?_, ?_, ?_, ?_, ?_⟩
      · simp only [List.length_append, List.length_singleton]
        omega
      · intro i b hb
        rcases Nat.lt_trichotomy i lvl.blocks.length with hlt | heqi | hgt
        · rw [List.get?_append hlt] at hb
          obtain ⟨hbi, hbk, pb, pairs, hpb, hpairs, hdb⟩ := hblocks0 i b hb
          refine ⟨hbi, hbk, pb, pairs, ?_, hpairs, ?_⟩
          · rw [Assoc.lookup_insertU_ne s.parents h b.hash p (fun he => hnotmem
              (he ▸ mem_levelHashes_of_get s.levels j2 lvl b hget (List.get?_mem hb)))]
            exact hpb
          · rw [hd3 (MetaKey.journal n i) (by intro he; cases he; omega)
              (fun he => MetaKey.noConfusion he)]
            exact hdb
        · subst heqi
          rw [List.get?_concat_length] at hb
          cases Option.some.inj hb
          exact ⟨rfl, rfl, p, cs.inserted, Assoc.lookup_insertU_self s.parents h p, rfl, hd1⟩
        · rw [List.get?_eq_none.2 (by simp only [List.length_append, List.length_singleton]; omega)] at hb
          exact Option.noConfusion hb
      · intro i hi
        simp only [List.length_append, List.length_singleton] at hi
        rw [hd3 (MetaKey.journal n i) (by intro he; cases he; omega)
          (fun he => MetaKey.noConfusion he)]
        exact habs0 i (by omega)
      · simp only [List.length_append, List.length_singleton]
      · simp only [List.length_append, List.length_singleton]
      · simp only [List.length_append, List.length_singleton]
        rw [hd2]
        by_cases h32 : OVERLAY_LEVEL_STORE_SPANS_LONGER_THAN ≤ lvl.blocks.length
        · rw [if_pos h32, if_pos (by
            simp only [OVERLAY_LEVEL_STORE_SPANS_LONGER_THAN] at h32 ⊢
            omega)]
        · rw [if_neg h32, hsp0, if_neg (by
            simp only [OVERLAY_LEVEL_STORE_SPANS_LONGER_THAN] at h32 ⊢
            omega), if_neg (by
            simp only [OVERLAY_LEVEL_STORE_SPANS_LONGER_THAN] at h32 ⊢
            omega)]
    · rw [List.get?_set_ne _ _ (fun he => hj2 he.symm)] at hget2
      have hold := i3 j2 lvl2 hget2
      refine LevelRep_lift db s.parents (s.frontBlockNumber + j2) lvl2 _ h p hold ?_ ?_
      · intro kv hkv
        rcases List.mem_append.1 hkv with hk1 | hk2
        · by_cases h32 : OVERLAY_LEVEL_STORE_SPANS_LONGER_THAN ≤ lvl.blocks.length
          · rw [if_pos h32] at hk1
            simp only [List.mem_singleton] at hk1
            subst hk1
            refine ⟨fun i he => ?_, fun he => ?_⟩
            · exact MetaKey.noConfusion he
            · cases he
              omega
          · rw [if_neg h32] at hk1
            simp at hk1
        · simp only [List.mem_singleton] at hk2
          subst hk2
          refine ⟨fun i he => ?_, fun he => ?_⟩
          · cases he
            omega
          · exact MetaKey.noConfusion he
      · intro b hb he
        exact hnotmem (he ▸ mem_levelHashes_of_get s.levels j2 lvl2 b hget2 hb)
  · intro bn i hcond
    simp only [List.length_set] at hcond
    rw [hfb] at hcond
    rw [hd3 (MetaKey.journal bn i) (by intro he; cases he; omega)
      (fun he => MetaKey.noConfusion he)]
    exact i4 bn i hcond
  · intro bn hcond
    simp only [List.length_set] at hcond
    rw [hfb] at hcond
    rw [hd3 (MetaKey.levelSpan bn) (fun he => MetaKey.noConfusion he)
      (by intro he; cases he; omega)]
    exact i5 bn hcond
  · intro h2
    show Assoc.containsKey (Assoc.insertU s.parents h p) h2 = true ↔ _
    by_cases hh2 : h2 = h
    · subst hh2
      rw [hLH2]
      simp [Assoc.containsKey, Assoc.lookup_insertU_self]
    · unfold Assoc.containsKey
      rw [Assoc.lookup_insertU_ne s.parents h h2 p (fun he => hh2 he.symm)]
      have hiff := i6 h2
      unfold Assoc.containsKey at hiff
      refine hiff.trans ?_
      rw [hLH1, hLH2, mem_insert_middle_iff]
      simp [hh2]
  · show (levelHashes _).Nodup
    rw [hLH2]
    apply nodup_insert_middle
    · rw [hLH1] at i7
      exact i7
    · rw [hLH1] at hnotmem
      exact hnotmem
  · exact i8
  · exact Assoc.nodupKeys_foldl_insert _ db i9
  · exact Assoc.nodupKeys_insertU s.parents h p i10

end StateDbVerify

namespace StateDbVerify

theorem blocks_dup_false (s : Overlay) (h : BlockHash) (j : Nat) (lvl : OverlayLevel)
    (hget : s.levels.get? j = some lvl)
    (hiff : ∀ h2, Assoc.containsKey s.parents h2 = true ↔ h2 ∈ levelHashes s.levels)
    (hfresh : Assoc.lookup s.parents h = none) :
    lvl.blocks.any (fun b => b.hash == h) = false := by
  rw [List.any_eq_false]
  intro b hb hbe
  exact not_mem_levelHashes_fresh s h hiff hfresh
    (eq_of_beq hbe ▸ mem_levelHashes_of_get s.levels j lvl b hget hb)

theorem jointInv_insert_first (s : Overlay) (db : DB) (h p : BlockHash) (n : Nat)
    (cs : ChangeSet)
    (hinv : JointInv s db) (hlc : s.lastCanonicalized = none) (hn : 0 < n)
    (hfresh : Assoc.lookup s.parents h = none) :
    JointInv
      { s with
        lastCanonicalized := some (p, n - 1)
        levels := s.levels ++
          [⟨[⟨h, 0, MetaKey.journal n 0, cs.inserted.map (fun kv => kv.1), cs.deleted⟩], 1, 1⟩]
        parents := Assoc.insertU s.parents h p
        values := insertValues s.values cs.inserted }
      (Assoc.insertU
        (Assoc.insertU db MetaKey.lastCanonical (MetaValue.lastCanon p (n - 1)))
        (MetaKey.journal n 0) (MetaValue.record ⟨h, p, cs.inserted, cs.deleted⟩)) := by
  obtain ⟨i1, i2, i3, i4, i5, i6, i7, i8, i9, i10⟩ := hinv
  obtain ⟨hlev, hdbnil⟩ := i2 hlc
  subst hdbnil
  have hdb2 : Assoc.insertU
      (Assoc.insertU ([] : DB) MetaKey.lastCanonical (MetaValue.lastCanon p (n - 1)))
      (MetaKey.journal n 0) (MetaValue.record ⟨h, p, cs.inserted, cs.deleted⟩) =
      [(MetaKey.lastCanonical, MetaValue.lastCanon p (n - 1)),
        (MetaKey.journal n 0, MetaValue.record ⟨h, p, cs.inserted, cs.deleted⟩)] := by
    simp [Assoc.insertU]
  rw [hdb2]
  have hfb : Overlay.frontBlockNumber
      { s with
        lastCanonicalized := some (p, n - 1)
        levels := s.levels ++
          [⟨[⟨h, 0, MetaKey.journal n 0, cs.inserted.map (fun kv => kv.1), cs.deleted⟩], 1, 1⟩]
        parents := Assoc.insertU s.parents h p
        values := insertValues s.values cs.inserted } = n := by
    show n - 1 + 1 = n
    omega
  refine ⟨?_, ?_, ?_, ?_, ?_, ?_, ?_, ?_, ?_, ?_⟩
  · show Assoc.lookup _ MetaKey.lastCanonical = some (MetaValue.lastCanon p (n - 1))
    rw [Assoc.lookup_cons, if_pos rfl]
  · intro habs
    exact Option.noConfusion habs
  · intro j2 lvl2 hget2
    rw [hlev, List.nil_append] at hget2
    show LevelRep _ _ (Overlay.frontBlockNumber _ + j2) lvl2
    rw [hfb]
    match j2, hget2 with
    | 0, hget2 =>
      cases Option.some.inj hget2
      refine ⟨by simp, by norm_num, ?_, ?_, rfl, rfl, ?_⟩
      · intro i b hb
        match i, hb with
        | 0, hb =>
          cases Option.some.inj hb
          refine ⟨rfl, rfl, p, cs.inserted, Assoc.lookup_insertU_self s.parents h p, rfl, ?_⟩
          simp [Assoc.lookup]
      · intro i hi
        simp only [List.length_singleton] at hi
        simp only [Assoc.lookup, Assoc.lookup_cons, Assoc.lookup_nil]
        rw [if_neg (fun he => MetaKey.noConfusion he), if_neg (by intro he; cases he; omega)]
      · simp only [Assoc.lookup, Assoc.lookup_cons, Assoc.lookup_nil]
        rw [if_neg (fun he => MetaKey.noConfusion he), if_neg (fun he => MetaKey.noConfusion he)]
        norm_num [OVERLAY_LEVEL_STORE_SPANS_LONGER_THAN]
  · intro bn i hcond
    rw [hfb] at hcond
    simp only [hlev, List.nil_append, List.length_singleton] at hcond
    simp only [Assoc.lookup_cons, Assoc.lookup_nil]
    rw [if_neg (fun he => MetaKey.noConfusion he), if_neg (by intro he; cases he; omega)]
  · intro bn hcond
    simp only [Assoc.lookup_cons, Assoc.lookup_nil]
    rw [if_neg (fun he => MetaKey.noConfusion he), if_neg (fun he => MetaKey.noConfusion he)]
  · intro h2
    show Assoc.containsKey (Assoc.insertU s.parents h p) h2 = true ↔ _
    rw [hlev]
    by_cases hh2 : h2 = h
    · subst hh2
      simp [Assoc.containsKey, Assoc.lookup_insertU_self, levelHashes]
    · unfold Assoc.containsKey
      rw [Assoc.lookup_insertU_ne s.parents h h2 p (fun he => hh2 he.symm)]
      have hiff := i6 h2
      unfold Assoc.containsKey at hiff
      rw [hlev] at hiff
      refine hiff.trans ?_
      simp [levelHashes, hh2]
  · show (levelHashes _).Nodup
    rw [hlev]
    simp [levelHashes]
  · exact i8
  · simp [Assoc.keysOf]
  · exact Assoc.nodupKeys_insertU s.parents h p i10

end StateDbVerify

namespace StateDbVerify

theorem jointInv_insert (s : Overlay) (db : DB) (h p : BlockHash) (n : Nat) (cs : ChangeSet)
    (c : CommitSet) (s2 : Overlay) (hinv : JointInv s db)
    (heq : s.insertOp h n p cs = InsertResult.ok c s2)
    (hfresh : Assoc.lookup s.parents h = none)
    (hn0 : s.lastCanonicalized = none → 0 < n)
    (hwide : ∀ lvl ∈ s.levels, lvl.blocks.length < 64) :
    JointInv s2 (applyCommitMeta db c) := by
  cases hlc : s.lastCanonicalized with
  | none =>
    obtain ⟨hlev, hdbnil⟩ := hinv.2.1 hlc
    have hn := hn0 hlc
    rw [insertOp_first s h p n cs hlev hlc hn] at heq
    rw [insertTail_append { s with lastCanonicalized := some (p, n - 1) }
      [(MetaKey.lastCanonical, MetaValue.lastCanon p (n - 1))] h p n cs s.frontBlockNumber
      (Or.inl hlev)] at heq
    injection heq with hc hs2
    subst hc
    subst hs2
    exact jointInv_insert_first s db h p n cs hinv hlc hn hfresh
  | some pr0 =>
    obtain ⟨ch, cn⟩ := pr0
    rw [insertOp_case_some s h p n cs ch cn hlc] at heq
    by_cases h1 : n < cn + 1 ∨ cn + 1 + s.levels.length < n
    · rw [if_pos h1] at heq
      exact absurd heq (by simp)
    rw [if_neg h1] at heq
    push_neg at h1
    obtain ⟨hge, hle⟩ := h1
    by_cases h2 : n = cn + 1
    · rw [if_pos h2] at heq
      by_cases h3 : ((ch == p) && (cn == n - 1)) = true
      · rw [if_pos h3] at heq
        by_cases hlev0 : s.levels = []
        · rw [insertTail_append s [] h p n cs (cn + 1) (Or.inl hlev0)] at heq
          injection heq with hc hs2
          subst hc
          subst hs2
          exact jointInv_insert_append s db h p n cs ch cn hinv hlc
            (by rw [hlev0]; simpa using h2) hfresh
        · have hlen1 : 0 < s.levels.length := List.length_pos.2 hlev0
          have hnotapp : ¬(s.levels = [] ∨ n = cn + 1 + s.levels.length) := by
            intro hd
            rcases hd with hl | hnn
            · exact hlev0 hl
            · omega
          obtain ⟨lvl, hget0⟩ : ∃ lvl, s.levels.get? 0 = some lvl := by
            cases hq : s.levels.get? 0 with
            | none =>
              rw [List.get?_eq_none] at hq
              omega
            | some lvl => exact ⟨lvl, rfl⟩
          have hdup := blocks_dup_false s h 0 lvl hget0 hinv.2.2.2.2.2.1 hfresh
          have hrep0 := hinv.2.2.1 0 lvl hget0
          have hwidel := hwide lvl (List.get?_mem hget0)
          rw [insertTail_into s [] h p n cs (cn + 1) 0 lvl hnotapp (by omega) hget0 hdup
            hrep0.2.2.2.2.1 hrep0.2.2.2.2.2.1 hwidel] at heq
          injection heq with hc hs2
          subst hc
          subst hs2
          exact jointInv_insert_into s db h p n cs ch cn 0 lvl hinv hlc (by omega) hlen1
            hget0 hfresh hwidel
      · rw [if_neg h3] at heq
        exact absurd heq (by simp)
    · rw [if_neg h2] at heq
      by_cases h4 : (Assoc.lookup s.parents p).isSome = true
      · rw [if_pos h4] at heq
        by_cases happ : n = cn + 1 + s.levels.length
        · rw [insertTail_append s [] h p n cs (cn + 1) (Or.inr happ)] at heq
          injection heq with hc hs2
          subst hc
          subst hs2
          exact jointInv_insert_append s db h p n cs ch cn hinv hlc happ hfresh
        · have hj : n - (cn + 1) < s.levels.length := by omega
          obtain ⟨lvl, hget0⟩ : ∃ lvl, s.levels.get? (n - (cn + 1)) = some lvl := by
            cases hq : s.levels.get? (n - (cn + 1)) with
            | none =>
              rw [List.get?_eq_none] at hq
              omega
            | some lvl => exact ⟨lvl, rfl⟩
          have hdup := blocks_dup_false s h (n - (cn + 1)) lvl hget0 hinv.2.2.2.2.2.1 hfresh
          have hrep0 := hinv.2.2.1 (n - (cn + 1)) lvl hget0
          have hwidel := hwide lvl (List.get?_mem hget0)
          have hnotapp2 : ¬(s.levels = [] ∨ n = cn + 1 + s.levels.length) := by
            intro hd
            rcases hd with hl | hnn
            · rw [hl] at hj
              simp at hj
            · exact happ hnn
          rw [insertTail_into s [] h p n cs (cn + 1) (n - (cn + 1)) lvl hnotapp2 rfl hget0 hdup
            hrep0.2.2.2.2.1 hrep0.2.2.2.2.2.1 hwidel] at heq
          injection heq with hc hs2
          subst hc
          subst hs2
          exact jointInv_insert_into s db h p n cs ch cn (n - (cn + 1)) lvl hinv hlc
            (by omega) hj hget0 hfresh hwidel
      · rw [if_neg h4] at heq
        exact absurd heq (by simp)

end StateDbVerify

namespace StateDbVerify

theorem applyCommitMeta_del (db : DB) (del : List MetaKey) :
    applyCommitMeta db ⟨⟨[], []⟩, ⟨[], del⟩⟩ = del.foldl Assoc.eraseKey db := rfl

theorem jointInv_revert (s : Overlay) (db : DB) (c : CommitSet) (s2 : Overlay)
    (hinv : JointInv s db) (heq : s.revertOne = some (c, s2)) :
    JointInv s2 (applyCommitMeta db c) := by
  obtain ⟨i1, i2, i3, i4, i5, i6, i7, i8, i9, i10⟩ := hinv
  rcases List.eq_nil_or_concat s.levels with hnil | ⟨rest, lvl, hl⟩
  · rw [(revertOne_none_iff s).2 hnil] at heq
    exact Option.noConfusion heq
  rw [List.concat_eq_append] at hl
  rw [revertOne_some_spec s lvl rest hl] at heq
  injection heq with hpair
  injection hpair with hc hs2
  subst hc
  subst hs2
  have hlens : s.levels.length = rest.length + 1 := by
    rw [hl]
    simp
  rw [applyCommitMeta_del,
    show s.frontBlockNumber + s.levels.length - 1 = s.frontBlockNumber + rest.length from by
      omega]
  have hgetb : s.levels.get? rest.length = some lvl := by
    rw [hl]
    exact List.get?_concat_length rest lvl
  obtain ⟨hne0, hlen0, hblocks0, habs0, hui0, hspan0, hsp0⟩ := i3 rest.length lvl hgetb
  have hprm : lvl.blocks.foldl (fun acc b => Assoc.eraseKey acc b.hash) s.parents =
      (lvl.blocks.map (fun b => b.hash)).foldl Assoc.eraseKey s.parents :=
    (List.foldl_map _ _ _ _).symm
  have hBH : levelHashes s.levels =
      levelHashes rest ++ lvl.blocks.map (fun b => b.hash) := by
    rw [hl, levelHashes_append]
    simp [levelHashes]
  rw [hBH] at i7
  have hdisj := (List.nodup_append.1 i7).2.2
  have hdel_other : ∀ k : MetaKey,
      (∀ i, k ≠ MetaKey.journal (s.frontBlockNumber + rest.length) i) →
      k ≠ MetaKey.levelSpan (s.frontBlockNumber + rest.length) →
      Assoc.lookup
        ((lvl.blocks.map (fun b => b.journalKey) ++
          (if OVERLAY_LEVEL_STORE_SPANS_LONGER_THAN < lvl.span then
            [MetaKey.levelSpan (s.frontBlockNumber + rest.length)]
          else [])).foldl Assoc.eraseKey db) k = Assoc.lookup db k := by
    intro k hkj hks
    apply Assoc.lookup_foldl_erase_not_mem
    intro hkmem
    rcases List.mem_append.1 hkmem with hk1 | hk2
    · obtain ⟨b, hb, hbk⟩ := List.mem_map.1 hk1
      obtain ⟨m, hm⟩ := List.get?_of_mem hb
      rw [(hblocks0 m b hm).2.1] at hbk
      exact hkj m hbk.symm
    · by_cases h32 : OVERLAY_LEVEL_STORE_SPANS_LONGER_THAN < lvl.span
      · rw [if_pos h32] at hk2
        simp only [List.mem_singleton] at hk2
        exact hks hk2
      · rw [if_neg h32] at hk2
        simp at hk2
  refine ⟨?_, ?_, ?_, ?_, ?_, ?_, ?_, ?_, ?_, ?_⟩
  · show Assoc.lookup _ MetaKey.lastCanonical =
      (match s.lastCanonicalized with
       | some (h2, n2) => some (MetaValue.lastCanon h2 n2)
       | none => none)
    rw [hdel_other MetaKey.lastCanonical (fun i he => MetaKey.noConfusion he)
      (fun he => MetaKey.noConfusion he)]
    exact i1
  · intro habs
    obtain ⟨hlevnil, _⟩ := i2 habs
    rw [hlevnil] at hl
    simp at hl
  · intro j2 lvl2 hget2
    have hj2 : j2 < rest.length := by
      by_contra hh
      rw [List.get?_eq_none.2 (Nat.le_of_not_lt hh)] at hget2
      exact Option.noConfusion hget2
    have hgetold : s.levels.get? j2 = some lvl2 := by
      rw [hl, List.get?_append hj2]
      exact hget2
    have hold := i3 j2 lvl2 hgetold
    show LevelRep _ _ (s.frontBlockNumber + j2) lvl2
    rw [hprm]
    refine LevelRep_erase_lift db s.parents (s.frontBlockNumber + j2) lvl2 _ _ hold ?_ ?_
    · intro k hk
      rcases List.mem_append.1 hk with hk1 | hk2
      · obtain ⟨b, hb, hbk⟩ := List.mem_map.1 hk1
        obtain ⟨m, hm⟩ := List.get?_of_mem hb
        rw [(hblocks0 m b hm).2.1] at hbk
        subst hbk
        refine ⟨fun i he => ?_, fun he => ?_⟩
        · injection he with he1 he2
          omega
        · exact MetaKey.noConfusion he
      · by_cases h32 : OVERLAY_LEVEL_STORE_SPANS_LONGER_THAN < lvl.span
        · rw [if_pos h32] at hk2
          simp only [List.mem_singleton] at hk2
          subst hk2
          refine ⟨fun i he => ?_, fun he => ?_⟩
          · exact MetaKey.noConfusion he
          · injection he with he1
            omega
        · rw [if_neg h32] at hk2
          simp at hk2
    · intro b hb
      exact fun hmem =>
        hdisj (mem_levelHashes_of_get rest j2 lvl2 b hget2 hb) hmem
  · show ∀ bn i, (bn < s.frontBlockNumber ∨ s.frontBlockNumber + rest.length ≤ bn) →
      Assoc.lookup _ (MetaKey.journal bn i) = none
    intro bn i hcond
    by_cases hbn : bn = s.frontBlockNumber + rest.length
    · subst hbn
      by_cases hi : i < lvl.blocks.length
      · have hbget : lvl.blocks.get? i = some (lvl.blocks.get ⟨i, hi⟩) := List.get?_eq_get hi
        have hbk := (hblocks0 i (lvl.blocks.get ⟨i, hi⟩) hbget).2.1
        apply Assoc.lookup_foldl_erase_mem _ _ _ i9
        apply List.mem_append_left
        rw [← hbk]
        exact List.mem_map_of_mem (fun b => b.journalKey) (List.get?_mem hbget)
      · exact Assoc.lookup_foldl_erase_none _ _ _ (habs0 i (Nat.le_of_not_lt hi))
    · exact Assoc.lookup_foldl_erase_none _ _ _ (i4 bn i (by omega))
  · show ∀ bn, (bn < s.frontBlockNumber ∨ s.frontBlockNumber + rest.length ≤ bn) →
      Assoc.lookup _ (MetaKey.levelSpan bn) = none
    intro bn hcond
    by_cases hbn : bn = s.frontBlockNumber + rest.length
    · subst hbn
      by_cases h32 : OVERLAY_LEVEL_STORE_SPANS_LONGER_THAN < lvl.span
      · apply Assoc.lookup_foldl_erase_mem _ _ _ i9
        apply List.mem_append_right
        rw [if_pos h32]
        exact List.mem_singleton.2 rfl
      · apply Assoc.lookup_foldl_erase_none
        rw [hsp0, if_neg (by rw [← hspan0]; exact h32)]
    · exact Assoc.lookup_foldl_erase_none _ _ _ (i5 bn (by omega))
  · intro h2
    show Assoc.containsKey
      (lvl.blocks.foldl (fun acc b => Assoc.eraseKey acc b.hash) s.parents) h2 = true ↔
      h2 ∈ levelHashes rest
    unfold Assoc.containsKey
    rw [hprm]
    by_cases hmem : h2 ∈ lvl.blocks.map (fun b => b.hash)
    · rw [Assoc.lookup_foldl_erase_mem _ _ _ i10 hmem]
      constructor
      · intro hx
        exact Bool.noConfusion hx
      · intro hA
        exact (hdisj hA hmem).elim
    · rw [Assoc.lookup_foldl_erase_not_mem _ _ _ hmem]
      have hiff := i6 h2
      unfold Assoc.containsKey at hiff
      rw [hBH] at hiff
      refine hiff.trans ?_
      simp only [List.mem_append]
      constructor
      · intro hx
        rcases hx with hx | hx
        · exact hx
        · exact (hmem hx).elim
      · intro hx
        exact Or.inl hx
  · exact (List.nodup_append.1 i7).1
  · exact i8
  · exact Assoc.nodupKeys_foldl_erase _ db i9
  · show (Assoc.keysOf
      (lvl.blocks.foldl (fun acc b => Assoc.eraseKey acc b.hash) s.parents)).Nodup
    rw [hprm]
    exact Assoc.nodupKeys_foldl_erase _ s.parents i10

end StateDbVerify

namespace StateDbVerify

theorem jointInv_pin (s : Overlay) (db : DB) (h : BlockHash) (hinv : JointInv s db) :
    JointInv (s.pinOp h) db := by
  unfold Overlay.pinOp
  cases hq : Assoc.lookup s.pinned h with
  | none => exact hinv
  | some ct => exact hinv

theorem jointInv_unpin (s : Overlay) (db : DB) (h : BlockHash) (s2 : Overlay)
    (hinv : JointInv s db) (heq : s.unpin h = some s2) : JointInv s2 db := by
  unfold Overlay.unpin Overlay.unpinOp at heq
  cases hq : Assoc.lookup s.pinned h with
  | none =>
    simp only [hq] at heq
    cases Option.some.inj heq
    exact hinv
  | some ct =>
    simp only [hq] at heq
    by_cases hz : ct - 1 = 0
    · rw [if_pos hz] at heq
      unfold unpinWalk at heq
      simp only [hinv.2.2.2.2.2.2.2.1, Assoc.lookup_nil] at heq
      cases Option.some.inj heq
      exact ⟨hinv.1, hinv.2.1, hinv.2.2.1, hinv.2.2.2.1, hinv.2.2.2.2.1, hinv.2.2.2.2.2.1,
        hinv.2.2.2.2.2.2.1, rfl, hinv.2.2.2.2.2.2.2.2.1, hinv.2.2.2.2.2.2.2.2.2⟩
    · rw [if_neg hz] at heq
      cases Option.some.inj heq
      exact hinv

theorem jointInv_base : JointInv Overlay.empty [] := by
  refine ⟨rfl, fun _ => ⟨rfl, rfl⟩, ?_, ?_, ?_, ?_, ?_, rfl, ?_, ?_⟩
  · intro j lvl hget
    simp [Overlay.empty] at hget
  · intro bn i hcond
    rfl
  · intro bn hcond
    rfl
  · intro h2
    constructor
    · intro hx
      exact Bool.noConfusion hx
    · intro hx
      simp [Overlay.empty, levelHashes] at hx
  · simp [Overlay.empty, levelHashes]
  · simp [Assoc.keysOf]
  · simp [Overlay.empty, Assoc.keysOf]

theorem jointInv_reachable {s : Overlay} {db : DB} (hr : ReachableJ s db) :
    JointInv s db := by
  induction hr with
  | base => exact jointInv_base
  | insertJ h p n cs c s2 hr heq hfresh hn0 hwide ih =>
      exact jointInv_insert _ _ h p n cs c s2 ih heq hfresh hn0 hwide
  | revertSomeJ c s2 hr heq ih => exact jointInv_revert _ _ c s2 ih heq
  | revertNoneJ hr hnone ih => exact ih
  | pinJ h hr ih => exact jointInv_pin _ _ h ih
  | unpinJ h s2 hr heq ih => exact jointInv_unpin _ _ h s2 ih heq

end StateDbVerify

namespace StateDbVerify

theorem readIndices_cons (db : DB) (block idx : Nat) (rest : List Nat)
    (level : OverlayLevel) (parents : Assoc BlockHash BlockHash)
    (values : Assoc Key (Nat × DBValue)) :
    readIndices db block (idx :: rest) level parents values =
      (match Assoc.lookup db (MetaKey.journal block idx) with
      | none => readIndices db block rest level parents values
      | some (MetaValue.record r) =>
          readIndices db block rest
            (level.push ⟨r.hash, idx, MetaKey.journal block idx,
              r.inserted.map (fun kv => kv.1), r.deleted⟩)
            (Assoc.insertU parents r.hash r.parentHash) (insertValues values r.inserted)
      | some _ => none) := rfl

theorem readIndices_none (db : DB) (block : Nat) : ∀ (indices : List Nat)
    (level : OverlayLevel) (parents : Assoc BlockHash BlockHash)
    (values : Assoc Key (Nat × DBValue)),
    (∀ i ∈ indices, Assoc.lookup db (MetaKey.journal block i) = none) →
    readIndices db block indices level parents values = some (level, parents, values)
  | [], _, _, _ => fun _ => rfl
  | i :: rest, level, parents, values => fun habs => by
      rw [readIndices_cons, habs i (List.mem_cons_self i rest)]
      exact readIndices_none db block rest level parents values
        (fun i2 hm => habs i2 (List.mem_cons_of_mem i hm))

theorem foldl_span_compact : ∀ (bs : List BlockOverlay) (j sp : Nat),
    (∀ m b, bs.get? m = some b → b.journalIndex = j + m) →
    bs.foldl (fun sp2 b => max sp2 (b.journalIndex + 1)) sp =
      (if bs.length = 0 then sp else max sp (j + bs.length))
  | [], j, sp, _ => by simp
  | b :: rest, j, sp, hidx => by
      simp only [List.foldl_cons]
      have hb0 : b.journalIndex = j := by
        have := hidx 0 b rfl
        omega
      rw [hb0, foldl_span_compact rest (j + 1) (max sp (j + 1))
        (fun m b2 hm => by
          have := hidx (m + 1) b2 hm
          omega)]
      by_cases hrest : rest.length = 0
      · rw [if_pos hrest, if_neg (by simp)]
        simp only [List.length_cons, hrest]
      · rw [if_neg hrest, if_neg (by simp)]
        simp only [List.length_cons]
        omega

theorem foldl_push_compact : ∀ (bs : List BlockOverlay) (j : Nat) (acc : OverlayLevel),
    (∀ m b, bs.get? m = some b → b.journalIndex = j + m) →
    j + bs.length ≤ 64 →
    acc.usedIndicies = 2 ^ j - 1 →
    bs.foldl OverlayLevel.push acc =
      ⟨acc.blocks ++ bs, 2 ^ (j + bs.length) - 1,
        bs.foldl (fun sp b => max sp (b.journalIndex + 1)) acc.span⟩
  | [], j, acc, _, _, hui => by
      simp only [List.foldl_nil, List.append_nil, List.length_nil, Nat.add_zero]
      rw [← hui]
  | b :: rest, j, acc, hidx, hle, hui => by
      simp only [List.foldl_cons]
      have hle2 : j + rest.length + 1 ≤ 64 := by
        simp only [List.length_cons] at hle
        omega
      have hb0 : b.journalIndex = j := by
        have := hidx 0 b rfl
        omega
      have hpush : acc.push b =
          ⟨acc.blocks ++ [b], 2 ^ (j + 1) - 1, max acc.span (j + 1)⟩ := by
        simp only [OverlayLevel.push, hb0, hui]
        rw [lor_pow j (by omega)]
      rw [hpush, foldl_push_compact rest (j + 1)
        ⟨acc.blocks ++ [b], 2 ^ (j + 1) - 1, max acc.span (j + 1)⟩
        (fun m b2 hm => by
          have := hidx (m + 1) b2 hm
          omega)
        (by omega) rfl]
      have hexp : j + 1 + rest.length = j + (b :: rest).length := by
        simp only [List.length_cons]
        omega
      rw [hexp]
      simp [hb0]
end StateDbVerify

namespace StateDbVerify

theorem readIndices_build (db : DB) (sp : Assoc BlockHash BlockHash) (bn : Nat)
    (lvl : OverlayLevel)
    (hblocks : ∀ i b, lvl.blocks.get? i = some b → BlockRep db sp bn i b)
    (habs : ∀ i, lvl.blocks.length ≤ i → Assoc.lookup db (MetaKey.journal bn i) = none) :
    ∀ (k i : Nat) (acc : OverlayLevel) (p : Assoc BlockHash BlockHash)
      (v : Assoc Key (Nat × DBValue)),
      lvl.blocks.length ≤ i + k →
      ∃ p2 v2,
        readIndices db bn (List.range' i k) acc p v =
          some ((lvl.blocks.drop i).foldl OverlayLevel.push acc, p2, v2) ∧
        (∀ h2, Assoc.lookup p2 h2 =
          (if h2 ∈ (lvl.blocks.drop i).map (fun b => b.hash) then Assoc.lookup sp h2
          else Assoc.lookup p h2)) := by
  intro k
  induction k with
  | zero =>
    intro i acc p v hik
    have hdrop : lvl.blocks.drop i = [] := List.drop_eq_nil_of_le (by omega)
    refine ⟨p, v, ?_, ?_⟩
    · rw [hdrop]
      rfl
    · intro h2
      rw [hdrop]
      simp
  | succ k ih =>
    intro i acc p v hik
    rw [show List.range' i (k + 1) = i :: List.range' (i + 1) k from rfl]
    by_cases hi : i < lvl.blocks.length
    · rcases hbq : lvl.blocks.get? i with _ | b
      · rw [List.get?_eq_none] at hbq
        omega
      obtain ⟨hbi, hbk, pb, pairs, hpb, hpairs, hdb⟩ := hblocks i b hbq
      obtain ⟨bh, bji, bjk, bins, bdel⟩ := b
      simp only at hbi hbk hpairs hpb hdb
      have hbi2 : i = bji := hbi.symm
      subst hbi2
      subst hbk
      subst hpairs
      have hdropc : lvl.blocks.drop i =
          ⟨bh, i, MetaKey.journal bn i, List.map Prod.fst pairs, bdel⟩ ::
            lvl.blocks.drop (i + 1) := by
        rw [List.drop_eq_get_cons hi]
        congr
        have := List.get?_eq_get hi
        rw [this] at hbq
        exact Option.some.inj hbq
      obtain ⟨p2, v2, heq, hchar⟩ := ih (i + 1)
        (acc.push ⟨bh, i, MetaKey.journal bn i, List.map (fun kv => kv.1) pairs, bdel⟩)
        (Assoc.insertU p bh pb) (insertValues v pairs) (by omega)
      refine ⟨p2, v2, ?_, ?_⟩
      · simp only [readIndices_cons, hdb]
        rw [heq, hdropc]
        simp only [List.foldl_cons]
      · intro h2
        rw [hchar h2, hdropc]
        simp only [List.map_cons, List.mem_cons]
        by_cases hm1 : h2 ∈ (lvl.blocks.drop (i + 1)).map (fun b => b.hash)
        · rw [if_pos hm1, if_pos (Or.inr hm1)]
        · rw [if_neg hm1]
          by_cases hm2 : h2 = bh
          · subst hm2
            rw [if_pos (Or.inl rfl), Assoc.lookup_insertU_self, hpb]
          · rw [if_neg (by
              intro hd
              rcases hd with hd | hd
              · exact hm2 hd
              · exact hm1 hd),
              Assoc.lookup_insertU_ne p bh h2 pb (fun he => hm2 he.symm)]
    · have hnone := habs i (Nat.le_of_not_lt hi)
      rw [readIndices_cons, hnone]
      have hd1 : lvl.blocks.drop i = [] := List.drop_eq_nil_of_le (by omega)
      have hd2 : lvl.blocks.drop (i + 1) = [] := List.drop_eq_nil_of_le (by omega)
      obtain ⟨p2, v2, heq, hchar⟩ := ih (i + 1) acc p v (by omega)
      refine ⟨p2, v2, ?_, ?_⟩
      · rw [heq, hd1, hd2]
      · intro h2
        rw [hchar h2, hd1, hd2]

end StateDbVerify

namespace StateDbVerify

theorem readLevels_succ (fuel : Nat) (db : DB) (block : Nat) (levels : List OverlayLevel)
    (parents : Assoc BlockHash BlockHash) (values : Assoc Key (Nat × DBValue)) :
    readLevels (fuel + 1) db block levels parents values =
      (match
        (match Assoc.lookup db (MetaKey.levelSpan block) with
        | none => some none
        | some (MetaValue.span n) => some (some n)
        | some _ => none : Option (Option Nat)) with
      | none => none
      | some levelSpan =>
        match readIndices db block
            (List.range (levelSpan.getD OVERLAY_LEVEL_STORE_SPANS_LONGER_THAN))
            (OverlayLevel.newWithSpan (levelSpan.getD 0)) parents values with
        | none => none
        | some (level, parents2, values2) =>
          if level.blocks = [] then
            some (levels, parents2, values2)
          else
            readLevels fuel db (block + 1) (levels ++ [level]) parents2 values2) := rfl

theorem readLevels_spec (s : Overlay) (db : DB) (hinv : JointInv s db) :
    ∀ (fuel : Nat), ∀ (j : Nat) (p0 : Assoc BlockHash BlockHash)
      (v0 : Assoc Key (Nat × DBValue)),
      j ≤ s.levels.length →
      s.levels.length - j < fuel →
      (∀ h2, Assoc.lookup p0 h2 =
        (if h2 ∈ levelHashes (s.levels.take j) then Assoc.lookup s.parents h2 else none)) →
      ∃ p2 v2,
        readLevels fuel db (s.frontBlockNumber + j) (s.levels.take j) p0 v0 =
          some (s.levels, p2, v2) ∧
        (∀ h2, Assoc.lookup p2 h2 =
          (if h2 ∈ levelHashes s.levels then Assoc.lookup s.parents h2 else none)) := by
  obtain ⟨i1, i2, i3, i4, i5, i6, i7, i8, i9, i10⟩ := hinv
  intro fuel
  induction fuel with
  | zero =>
    intro j p0 v0 hj hfuel hchar0
    omega
  | succ fuel ih =>
    intro j p0 v0 hj hfuel hchar0
    by_cases hjlen : j < s.levels.length
    · rcases hq : s.levels.get? j with _ | lvl
      · rw [List.get?_eq_none] at hq
        omega
      obtain ⟨hne0, hlen0, hblocks0, habs0, hui0, hspan0, hsp0⟩ := i3 j lvl hq
      have hlen_ne : lvl.blocks.length ≠ 0 := fun hzero => hne0 (List.length_eq_zero.1 hzero)
      have htake : s.levels.take (j + 1) = s.levels.take j ++ [lvl] := by
        rw [List.take_succ, ← List.get?_eq_getElem?, hq]
        rfl
      have hLHt : levelHashes (s.levels.take (j + 1)) =
          levelHashes (s.levels.take j) ++ lvl.blocks.map (fun b => b.hash) := by
        rw [htake, levelHashes_append]
        simp [levelHashes]
      have hfr : s.frontBlockNumber + j + 1 = s.frontBlockNumber + (j + 1) := by omega
      rw [readLevels_succ, hsp0]
      by_cases h32 : OVERLAY_LEVEL_STORE_SPANS_LONGER_THAN < lvl.blocks.length
      · rw [if_pos h32]
        obtain ⟨p1, v1, heqRI, hchar1⟩ := readIndices_build db s.parents
          (s.frontBlockNumber + j) lvl hblocks0 habs0 lvl.blocks.length 0
          (OverlayLevel.newWithSpan lvl.blocks.length) p0 v0 (by omega)
        have hlvleq : lvl.blocks.foldl OverlayLevel.push
            (OverlayLevel.newWithSpan lvl.blocks.length) = lvl := by
          rw [foldl_push_compact lvl.blocks 0 (OverlayLevel.newWithSpan lvl.blocks.length)
            (fun m b hm => by have := (hblocks0 m b hm).1; omega) (by omega) rfl,
            foldl_span_compact lvl.blocks 0 (OverlayLevel.newWithSpan lvl.blocks.length).span
            (fun m b hm => by have := (hblocks0 m b hm).1; omega)]
          rw [if_neg hlen_ne]
          conv_rhs => rw [show lvl = ⟨lvl.blocks, lvl.usedIndicies, lvl.span⟩ from rfl]
          rw [hui0, hspan0]
          simp only [OverlayLevel.newWithSpan, List.nil_append, Nat.zero_add,
            OverlayLevel.mk.injEq]
          refine ⟨trivial, trivial, by omega⟩
        simp only [Option.getD]
        rw [List.range_eq_range', heqRI, List.drop_zero, hlvleq]
        simp only [hne0, if_false]
        rw [hfr, ← htake]
        have hchar1' : ∀ h2, Assoc.lookup p1 h2 =
            (if h2 ∈ levelHashes (s.levels.take (j + 1)) then Assoc.lookup s.parents h2
            else none) := by
          intro h2
          have hc := hchar1 h2
          rw [List.drop_zero] at hc
          rw [hc]
          by_cases hm1 : h2 ∈ lvl.blocks.map (fun b => b.hash)
          · rw [if_pos hm1, if_pos (by rw [hLHt]; exact List.mem_append_right _ hm1)]
          · rw [if_neg hm1, hchar0 h2]
            by_cases hm0 : h2 ∈ levelHashes (s.levels.take j)
            · rw [if_pos hm0, if_pos (by rw [hLHt]; exact List.mem_append_left _ hm0)]
            · rw [if_neg hm0, if_neg (by
                rw [hLHt]
                intro hmm
                rcases List.mem_append.1 hmm with hmm | hmm
                · exact hm0 hmm
                · exact hm1 hmm)]
        exact ih (j + 1) p1 v1 (by omega) (by omega) hchar1'
      · rw [if_neg h32]
        obtain ⟨p1, v1, heqRI, hchar1⟩ := readIndices_build db s.parents
          (s.frontBlockNumber + j) lvl hblocks0 habs0 OVERLAY_LEVEL_STORE_SPANS_LONGER_THAN 0
          (OverlayLevel.newWithSpan 0) p0 v0 (by omega)
        have hlvleq : lvl.blocks.foldl OverlayLevel.push (OverlayLevel.newWithSpan 0) =
            lvl := by
          rw [foldl_push_compact lvl.blocks 0 (OverlayLevel.newWithSpan 0)
            (fun m b hm => by have := (hblocks0 m b hm).1; omega) (by omega) rfl,
            foldl_span_compact lvl.blocks 0 (OverlayLevel.newWithSpan 0).span
            (fun m b hm => by have := (hblocks0 m b hm).1; omega)]
          rw [if_neg hlen_ne]
          conv_rhs => rw [show lvl = ⟨lvl.blocks, lvl.usedIndicies, lvl.span⟩ from rfl]
          rw [hui0, hspan0]
          simp only [OverlayLevel.newWithSpan, List.nil_append, Nat.zero_add,
            OverlayLevel.mk.injEq]
          refine ⟨trivial, trivial, by omega⟩
        simp only [Option.getD]
        rw [List.range_eq_range', heqRI, List.drop_zero, hlvleq]
        simp only [hne0, if_false]
        rw [hfr, ← htake]
        have hchar1' : ∀ h2, Assoc.lookup p1 h2 =
            (if h2 ∈ levelHashes (s.levels.take (j + 1)) then Assoc.lookup s.parents h2
            else none) := by
          intro h2
          have hc := hchar1 h2
          rw [List.drop_zero] at hc
          rw [hc]
          by_cases hm1 : h2 ∈ lvl.blocks.map (fun b => b.hash)
          · rw [if_pos hm1, if_pos (by rw [hLHt]; exact List.mem_append_right _ hm1)]
          · rw [if_neg hm1, hchar0 h2]
            by_cases hm0 : h2 ∈ levelHashes (s.levels.take j)
            · rw [if_pos hm0, if_pos (by rw [hLHt]; exact List.mem_append_left _ hm0)]
            · rw [if_neg hm0, if_neg (by
                rw [hLHt]
                intro hmm
                rcases List.mem_append.1 hmm with hmm | hmm
                · exact hm0 hmm
                · exact hm1 hmm)]
        exact ih (j + 1) p1 v1 (by omega) (by omega) hchar1'
    · have hjeq : j = s.levels.length := by omega
      rw [readLevels_succ]
      simp only [i5 (s.frontBlockNumber + j) (Or.inr (by omega)), Option.getD]
      rw [readIndices_none db (s.frontBlockNumber + j) _ _ _ _
        (fun i2 hm => i4 (s.frontBlockNumber + j) i2 (Or.inr (by omega)))]
      refine ⟨p0, v0, ?_, ?_⟩
      · show some (s.levels.take j, p0, v0) = some (s.levels, p0, v0)
        rw [hjeq, List.take_length]
      · intro h2
        have := hchar0 h2
        rw [hjeq, List.take_length] at this
        exact this

end StateDbVerify

namespace StateDbVerify

theorem lookup_parents_none_of_empty (s : Overlay)
    (hiff : ∀ h2, Assoc.containsKey s.parents h2 = true ↔ h2 ∈ levelHashes s.levels)
    (hlev : s.levels = []) (h2 : BlockHash) : Assoc.lookup s.parents h2 = none := by
  cases hq : Assoc.lookup s.parents h2 with
  | none => rfl
  | some v =>
    have hc : Assoc.containsKey s.parents h2 = true := by
      unfold Assoc.containsKey
      rw [hq]
      rfl
    rw [hiff h2, hlev] at hc
    simp [levelHashes] at hc

theorem reconstruct_of_jointInv (s : Overlay) (db : DB) (hinv : JointInv s db)
    (fuel : Nat) (hf : s.levels.length < fuel) :
    ∃ t, newOverlay fuel db = some t ∧ t.levels = s.levels ∧
      t.lastCanonicalized = s.lastCanonicalized ∧ Assoc.MapEq t.parents s.parents := by
  have i1 := hinv.1
  cases hlc : s.lastCanonicalized with
  | none =>
    simp only [hlc] at i1
    obtain ⟨hlev, hdb⟩ := hinv.2.1 hlc
    unfold newOverlay
    simp only [i1]
    refine ⟨Overlay.empty, rfl, hlev.symm, rfl, ?_⟩
    intro k
    rw [lookup_parents_none_of_empty s hinv.2.2.2.2.2.1 hlev k]
    rfl
  | some pr0 =>
    obtain ⟨ch, cn⟩ := pr0
    simp only [hlc] at i1
    have hfront : s.frontBlockNumber = cn + 1 := frontBlockNumber_some s ch cn hlc
    obtain ⟨p2, v2, heqRL, hchar2⟩ := readLevels_spec s db hinv fuel 0 [] []
      (by omega) (by omega)
      (by
        intro h2
        rw [Assoc.lookup_nil, List.take_zero]
        rw [if_neg (by simp [levelHashes])])
    rw [show s.frontBlockNumber + 0 = cn + 1 from by omega, List.take_zero] at heqRL
    unfold newOverlay
    simp only [i1, heqRL]
    refine ⟨_, rfl, rfl, rfl, ?_⟩
    intro k
    show Assoc.lookup p2 k = Assoc.lookup s.parents k
    rw [hchar2 k]
    by_cases hm : k ∈ levelHashes s.levels
    · rw [if_pos hm]
    · rw [if_neg hm]
      cases hq : Assoc.lookup s.parents k with
      | none => rfl
      | some v =>
        have hc : Assoc.containsKey s.parents k = true := by
          unfold Assoc.containsKey
          rw [hq]
          rfl
        rw [hinv.2.2.2.2.2.1 k] at hc
        exact absurd hc hm

end StateDbVerify

namespace StateDbVerify

/-- C3 (amended): along any sequence of `insert`, `revert_one`, `pin` and
`unpin` calls that respects the stated preconditions — pairwise-fresh
inserted hashes, a positive first block number and fewer than 64 blocks
per level — applying each returned `CommitSet` to the model metadata DB
and rebuilding a fresh overlay with `new(db)` (with enough fuel to read
every level) reproduces the in-memory overlay: the same `levels`, the
same `last_canonicalized`, and an extensionally equal `parents` map. -/
theorem c3_amended_reconstruction (s : Overlay) (db : DB) (hr : ReachableJ s db)
    (fuel : Nat) (hf : s.levels.length < fuel) :
    ∃ t, newOverlay fuel db = some t ∧ t.levels = s.levels ∧
      t.lastCanonicalized = s.lastCanonicalized ∧ Assoc.MapEq t.parents s.parents :=
  reconstruct_of_jointInv s db (jointInv_reachable hr) fuel hf

/-- C3 amended witness: the overlay obtained by inserting block 101 at
number 1 on a fresh instance is reconstructed exactly by `new` from the
model DB holding that insert's commit. -/
theorem c3_amended_witness :
    ∃ t, newOverlay 2 exDb1 = some t ∧ t.levels = exOverlay1.levels ∧
      t.lastCanonicalized = exOverlay1.lastCanonicalized ∧
      Assoc.MapEq t.parents exOverlay1.parents :=
  c3_amended_reconstruction exOverlay1 exDb1
    (ReachableJ.insertJ 101 100 1 exChangeset exCommit1 exOverlay1 ReachableJ.base
      (by decide) (by decide) (fun _ => by decide)
      (by
        intro lvl hm
        exact absurd hm (List.not_mem_nil lvl)))
    2 (by decide)

end StateDbVerify

namespace StateDbVerify.Assoc

variable {K V : Type} [DecidableEq K]

theorem insertU_eq_append_of_fresh (m : Assoc K V) (k : K) (v : V)
    (h : lookup m k = none) : insertU m k v = m ++ [(k, v)] := by
  induction m with
  | nil => rfl
  | cons hd tl ih =>
      obtain ⟨k2, v2⟩ := hd
      rw [lookup_cons] at h
      by_cases h2 : k2 = k
      · simp [h2] at h
      · simp only [if_neg h2] at h
        simp only [insertU, if_neg h2, List.cons_append]
        rw [ih h]

theorem keysOf_insertU_of_some (m : Assoc K V) (k : K) (v v0 : V)
    (h : lookup m k = some v0) : keysOf (insertU m k v) = keysOf m := by
  induction m with
  | nil => simp [lookup] at h
  | cons hd tl ih =>
      obtain ⟨k2, v2⟩ := hd
      rw [lookup_cons] at h
      by_cases h2 : k2 = k
      · subst h2
        simp [insertU, keysOf]
      · simp only [if_neg h2] at h
        simp only [insertU, if_neg h2]
        show k2 :: keysOf (insertU tl k v) = k2 :: keysOf tl
        rw [ih h]

end StateDbVerify.Assoc

namespace StateDbVerify

theorem cntBlocks_cons (b : BlockOverlay) (bs : List BlockOverlay) (k : Key) :
    cntBlocks (b :: bs) k = b.inserted.count k + cntBlocks bs k := by
  simp [cntBlocks]

theorem cntBlocks_append (a b : List BlockOverlay) (k : Key) :
    cntBlocks (a ++ b) k = cntBlocks a k + cntBlocks b k := by
  simp [cntBlocks]

theorem cntLevels_cons (lvl : OverlayLevel) (ls : List OverlayLevel) (k : Key) :
    cntLevels (lvl :: ls) k = cntBlocks lvl.blocks k + cntLevels ls k := by
  simp [cntLevels]

theorem cntLevels_append (a b : List OverlayLevel) (k : Key) :
    cntLevels (a ++ b) k = cntLevels a k + cntLevels b k := by
  simp [cntLevels]

theorem hashCntBlocks_cons (b : BlockOverlay) (bs : List BlockOverlay) (x : BlockHash) :
    hashCntBlocks (b :: bs) x = hashCntBlocks bs x + (if b.hash = x then 1 else 0) := by
  simp [hashCntBlocks, List.count_cons]

theorem hashCntBlocks_append (a b : List BlockOverlay) (x : BlockHash) :
    hashCntBlocks (a ++ b) x = hashCntBlocks a x + hashCntBlocks b x := by
  simp [hashCntBlocks, List.count_append]

theorem hashCntLevels_cons (lvl : OverlayLevel) (ls : List OverlayLevel) (x : BlockHash) :
    hashCntLevels (lvl :: ls) x = hashCntBlocks lvl.blocks x + hashCntLevels ls x := by
  simp [hashCntLevels]

theorem hashCntLevels_append (a b : List OverlayLevel) (x : BlockHash) :
    hashCntLevels (a ++ b) x = hashCntLevels a x + hashCntLevels b x := by
  simp [hashCntLevels]

theorem cntPinnedIns_cons (k2 : BlockHash) (v2 : List Key × Nat)
    (tl : Assoc BlockHash (List Key × Nat)) (k : Key) :
    cntPinnedIns ((k2, v2) :: tl) k = v2.1.count k + cntPinnedIns tl k := by
  simp [cntPinnedIns]

theorem hashCntPI_cons (k2 : BlockHash) (v2 : List Key × Nat)
    (tl : Assoc BlockHash (List Key × Nat)) (x : BlockHash) :
    hashCntPI ((k2, v2) :: tl) x = hashCntPI tl x + (if k2 = x then 1 else 0) := by
  simp [hashCntPI, Assoc.keysOf, List.count_cons]

theorem cntPinnedIns_append_single (m : Assoc BlockHash (List Key × Nat)) (h : BlockHash)
    (ins : List Key) (c : Nat) (k : Key) :
    cntPinnedIns (m ++ [(h, (ins, c))]) k = cntPinnedIns m k + ins.count k := by
  simp [cntPinnedIns]

theorem hashCntPI_append_single (m : Assoc BlockHash (List Key × Nat)) (h : BlockHash)
    (ins : List Key) (c : Nat) (x : BlockHash) :
    hashCntPI (m ++ [(h, (ins, c))]) x = hashCntPI m x + (if h = x then 1 else 0) := by
  simp [hashCntPI, Assoc.keysOf, List.count_append, List.count_cons]

theorem cntPinnedIns_insertU_overwrite (m : Assoc BlockHash (List Key × Nat))
    (h : BlockHash) (ins : List Key) (c c2 : Nat) (k : Key)
    (hl : Assoc.lookup m h = some (ins, c)) :
    cntPinnedIns (Assoc.insertU m h (ins, c2)) k = cntPinnedIns m k := by
  induction m with
  | nil => simp [Assoc.lookup] at hl
  | cons hd tl ih =>
      obtain ⟨k2, v2⟩ := hd
      rw [Assoc.lookup_cons] at hl
      by_cases h2 : k2 = h
      · subst h2
        rw [if_pos rfl] at hl
        cases Option.some.inj hl
        simp only [Assoc.insertU, eq_self_iff_true, if_true]
        rw [cntPinnedIns_cons, cntPinnedIns_cons]
      · rw [if_neg h2] at hl
        simp only [Assoc.insertU, if_neg h2]
        rw [cntPinnedIns_cons, cntPinnedIns_cons, ih hl]

theorem cntPinnedIns_eraseKey (m : Assoc BlockHash (List Key × Nat)) (h : BlockHash)
    (ins : List Key) (c : Nat) (k : Key) (hl : Assoc.lookup m h = some (ins, c)) :
    cntPinnedIns m k = cntPinnedIns (Assoc.eraseKey m h) k + ins.count k := by
  induction m with
  | nil => simp [Assoc.lookup] at hl
  | cons hd tl ih =>
      obtain ⟨k2, v2⟩ := hd
      rw [Assoc.lookup_cons] at hl
      by_cases h2 : k2 = h
      · subst h2
        rw [if_pos rfl] at hl
        cases Option.some.inj hl
        simp only [Assoc.eraseKey, eq_self_iff_true, if_true]
        rw [cntPinnedIns_cons]
        simp
        omega
      · rw [if_neg h2] at hl
        simp only [Assoc.eraseKey, if_neg h2]
        rw [cntPinnedIns_cons, cntPinnedIns_cons, ih hl]
        omega

theorem hashCntPI_insertU_of_some (m : Assoc BlockHash (List Key × Nat)) (h : BlockHash)
    (v v0 : List Key × Nat) (x : BlockHash) (hl : Assoc.lookup m h = some v0) :
    hashCntPI (Assoc.insertU m h v) x = hashCntPI m x := by
  unfold hashCntPI
  rw [Assoc.keysOf_insertU_of_some m h v v0 hl]

theorem hashCntPI_eraseKey (m : Assoc BlockHash (List Key × Nat)) (h : BlockHash)
    (v0 : List Key × Nat) (x : BlockHash) (hl : Assoc.lookup m h = some v0) :
    hashCntPI m x = hashCntPI (Assoc.eraseKey m h) x + (if h = x then 1 else 0) := by
  induction m with
  | nil => simp [Assoc.lookup] at hl
  | cons hd tl ih =>
      obtain ⟨k2, v2⟩ := hd
      rw [Assoc.lookup_cons] at hl
      by_cases h2 : k2 = h
      · subst h2
        rw [if_pos rfl] at hl
        simp only [Assoc.eraseKey, eq_self_iff_true, if_true]
        rw [hashCntPI_cons]
      · rw [if_neg h2] at hl
        simp only [Assoc.eraseKey, if_neg h2]
        rw [hashCntPI_cons, hashCntPI_cons, ih hl]
        generalize (if h = x then 1 else 0) = a
        generalize (if k2 = x then 1 else 0) = b
        omega

end StateDbVerify

namespace StateDbVerify

theorem refOf_insertU (v : Assoc Key (Nat × DBValue)) (k : Key) (c : Nat) (dv : DBValue)
    (k2 : Key) :
    refOf (Assoc.insertU v k (c, dv)) k2 = if k2 = k then c else refOf v k2 := by
  unfold refOf
  by_cases h : k2 = k
  · subst h
    rw [Assoc.lookup_insertU_self, if_pos rfl]
  · rw [Assoc.lookup_insertU_ne v k k2 (c, dv) (fun he => h he.symm), if_neg h]

theorem refOf_eraseKey (v : Assoc Key (Nat × DBValue)) (k : Key) (k2 : Key)
    (hnd : (Assoc.keysOf v).Nodup) :
    refOf (Assoc.eraseKey v k) k2 = if k2 = k then 0 else refOf v k2 := by
  unfold refOf
  by_cases h : k2 = k
  · subst h
    rw [Assoc.lookup_eraseKey_self v k2 hnd, if_pos rfl]
  · rw [Assoc.lookup_eraseKey_ne v k k2 (fun he => h he.symm), if_neg h]

theorem refOf_lookup_some (v : Assoc Key (Nat × DBValue)) (k : Key) (c : Nat)
    (dv : DBValue) (h : Assoc.lookup v k = some (c, dv)) : refOf v k = c := by
  unfold refOf
  rw [h]

theorem refOf_pos_lookup (v : Assoc Key (Nat × DBValue)) (k : Key)
    (h : 0 < refOf v k) : ∃ c dv, Assoc.lookup v k = some (c, dv) ∧ c = refOf v k := by
  cases hq : Assoc.lookup v k with
  | none =>
      unfold refOf at h
      simp only [hq] at h
      exact absurd h (Nat.lt_irrefl 0)
  | some cv =>
      obtain ⟨c, dv⟩ := cv
      exact ⟨c, dv, rfl, (refOf_lookup_some v k c dv hq).symm⟩

theorem containsKey_iff_refOf (v : Assoc Key (Nat × DBValue)) (hnz : NoZero v) (k : Key) :
    Assoc.containsKey v k = true ↔ refOf v k ≠ 0 := by
  unfold Assoc.containsKey refOf
  cases hq : Assoc.lookup v k with
  | none => simp
  | some cv =>
      obtain ⟨c, dv⟩ := cv
      have := hnz k c dv hq
      simp
      omega

theorem noZero_insertU (v : Assoc Key (Nat × DBValue)) (k : Key) (c : Nat) (dv : DBValue)
    (hc : 0 < c) (hnz : NoZero v) : NoZero (Assoc.insertU v k (c, dv)) := by
  intro k2 c2 dv2 hl
  by_cases h : k2 = k
  · subst h
    rw [Assoc.lookup_insertU_self] at hl
    cases Option.some.inj hl
    exact hc
  · rw [Assoc.lookup_insertU_ne v k k2 (c, dv) (fun he => h he.symm)] at hl
    exact hnz k2 c2 dv2 hl

theorem noZero_eraseKey (v : Assoc Key (Nat × DBValue)) (k : Key)
    (hnd : (Assoc.keysOf v).Nodup) (hnz : NoZero v) : NoZero (Assoc.eraseKey v k) := by
  intro k2 c2 dv2 hl
  by_cases h : k2 = k
  · subst h
    rw [Assoc.lookup_eraseKey_self v k2 hnd] at hl
    exact Option.noConfusion hl
  · rw [Assoc.lookup_eraseKey_ne v k k2 (fun he => h he.symm)] at hl
    exact hnz k2 c2 dv2 hl

theorem insertValues_cons (v : Assoc Key (Nat × DBValue)) (k1 : Key) (v1 : DBValue)
    (rest : List (Key × DBValue)) :
    insertValues v ((k1, v1) :: rest) =
      insertValues
        (match Assoc.lookup v k1 with
          | some (c, v0) => Assoc.insertU v k1 (c + 1, v0)
          | none => Assoc.insertU v k1 (1, v1)) rest := rfl

theorem refOf_insertValues : ∀ (ins : List (Key × DBValue))
    (v : Assoc Key (Nat × DBValue)) (k : Key),
    refOf (insertValues v ins) k = refOf v k + (ins.map (fun kv => kv.1)).count k
  | [], v, k => by simp [insertValues]
  | (k1, v1) :: rest, v, k => by
      rw [insertValues_cons]
      cases hq : Assoc.lookup v k1 with
      | none =>
          simp only [hq]
          rw [refOf_insertValues rest _ k, refOf_insertU]
          simp only [List.map_cons, List.count_cons]
          have h0 : refOf v k1 = 0 := by
            unfold refOf
            rw [hq]
          simp only [beq_iff_eq]
          by_cases hk : k = k1
          · subst hk
            simp only [if_pos rfl, h0]
            omega
          · rw [if_neg hk, if_neg (fun he : k1 = k => hk he.symm)]
            omega
      | some cv =>
          obtain ⟨c, v0⟩ := cv
          simp only [hq]
          rw [refOf_insertValues rest _ k, refOf_insertU]
          simp only [List.map_cons, List.count_cons]
          have h0 : refOf v k1 = c := refOf_lookup_some v k1 c v0 hq
          simp only [beq_iff_eq]
          by_cases hk : k = k1
          · rw [if_pos hk, if_pos hk.symm, hk, h0]
            omega
          · rw [if_neg hk, if_neg (fun he : k1 = k => hk he.symm)]
            omega

theorem noZero_nodup_insertValues : ∀ (ins : List (Key × DBValue))
    (v : Assoc Key (Nat × DBValue)), NoZero v → (Assoc.keysOf v).Nodup →
    NoZero (insertValues v ins) ∧ (Assoc.keysOf (insertValues v ins)).Nodup
  | [], v, hnz, hnd => ⟨hnz, hnd⟩
  | (k1, v1) :: rest, v, hnz, hnd => by
      rw [insertValues_cons]
      cases hq : Assoc.lookup v k1 with
      | none =>
          simp only [hq]
          exact noZero_nodup_insertValues rest _
            (noZero_insertU v k1 1 v1 (by omega) hnz)
            (Assoc.nodupKeys_insertU v k1 (1, v1) hnd)
      | some cv =>
          obtain ⟨c, v0⟩ := cv
          simp only [hq]
          exact noZero_nodup_insertValues rest _
            (noZero_insertU v k1 (c + 1) v0 (by omega) hnz)
            (Assoc.nodupKeys_insertU v k1 (c + 1, v0) hnd)

theorem discardValues_cons (v : Assoc Key (Nat × DBValue)) (k1 : Key)
    (rest : List Key) :
    discardValues v (k1 :: rest) =
      discardValues
        (match Assoc.lookup v k1 with
          | some (c, v0) =>
              if c - 1 = 0 then Assoc.eraseKey v k1 else Assoc.insertU v k1 (c - 1, v0)
          | none => v) rest := rfl

theorem discardValues_spec : ∀ (ins : List Key) (v : Assoc Key (Nat × DBValue)),
    NoZero v → (Assoc.keysOf v).Nodup →
    (∀ k, ins.count k ≤ refOf v k) →
    (∀ k, refOf (discardValues v ins) k + ins.count k = refOf v k) ∧
    NoZero (discardValues v ins) ∧ (Assoc.keysOf (discardValues v ins)).Nodup
  | [], v, hnz, hnd, _ => ⟨fun k => by simp [discardValues], hnz, hnd⟩
  | k1 :: rest, v, hnz, hnd, hle => by
      have hpos : 0 < refOf v k1 := by
        have := hle k1
        simp [List.count_cons] at this
        omega
      obtain ⟨c, dv, hq, hc⟩ := refOf_pos_lookup v k1 hpos
      rw [discardValues_cons]
      simp only [hq]
      have hstep : ∀ k,
          refOf (if c - 1 = 0 then Assoc.eraseKey v k1 else Assoc.insertU v k1 (c - 1, dv)) k =
            refOf v k - (if k = k1 then 1 else 0) := by
        intro k
        by_cases hz : c - 1 = 0
        · rw [if_pos hz, refOf_eraseKey v k1 k hnd]
          by_cases hk : k = k1
          · subst hk
            rw [if_pos rfl, if_pos rfl]
            omega
          · rw [if_neg hk, if_neg hk]
            omega
        · rw [if_neg hz, refOf_insertU]
          by_cases hk : k = k1
          · subst hk
            rw [if_pos rfl, if_pos rfl]
            omega
          · rw [if_neg hk, if_neg hk]
            omega
      have hnz2 : NoZero (if c - 1 = 0 then Assoc.eraseKey v k1
          else Assoc.insertU v k1 (c - 1, dv)) := by
        by_cases hz : c - 1 = 0
        · rw [if_pos hz]
          exact noZero_eraseKey v k1 hnd hnz
        · rw [if_neg hz]
          exact noZero_insertU v k1 (c - 1) dv (by omega) hnz
      have hnd2 : (Assoc.keysOf (if c - 1 = 0 then Assoc.eraseKey v k1
          else Assoc.insertU v k1 (c - 1, dv))).Nodup := by
        by_cases hz : c - 1 = 0
        · rw [if_pos hz]
          exact Assoc.nodupKeys_eraseKey v k1 hnd
        · rw [if_neg hz]
          exact Assoc.nodupKeys_insertU v k1 (c - 1, dv) hnd
      have hle2 : ∀ k, rest.count k ≤
          refOf (if c - 1 = 0 then Assoc.eraseKey v k1
            else Assoc.insertU v k1 (c - 1, dv)) k := by
        intro k
        rw [hstep k]
        have := hle k
        rw [List.count_cons] at this
        simp only [beq_iff_eq] at this
        by_cases hk : k = k1
        · subst hk
          simp only [if_pos rfl] at this ⊢
          omega
        · simp only [if_neg hk] at this ⊢
          omega
      obtain ⟨heq, hnz3, hnd3⟩ := discardValues_spec rest _ hnz2 hnd2 hle2
      refine ⟨?_, hnz3, hnd3⟩
      intro k
      have h1 := heq k
      have h2 := hstep k
      have h3 := hle k
      rw [List.count_cons] at h3 ⊢
      simp only [beq_iff_eq] at h3 ⊢
      by_cases hk : k = k1
      · subst hk
        simp only [if_pos rfl] at h2 h3 ⊢
        omega
      · rw [if_neg (fun he : k1 = k => hk he.symm)] at h3 ⊢
        rw [if_neg hk] at h2
        omega

theorem discardBlocks_spec : ∀ (bs : List BlockOverlay) (v : Assoc Key (Nat × DBValue)),
    NoZero v → (Assoc.keysOf v).Nodup →
    (∀ k, cntBlocks bs k ≤ refOf v k) →
    (∀ k, refOf (bs.foldl (fun acc b => discardValues acc b.inserted) v) k + cntBlocks bs k
      = refOf v k) ∧
    NoZero (bs.foldl (fun acc b => discardValues acc b.inserted) v) ∧
    (Assoc.keysOf (bs.foldl (fun acc b => discardValues acc b.inserted) v)).Nodup
  | [], v, hnz, hnd, _ => ⟨fun k => by simp [cntBlocks], hnz, hnd⟩
  | b :: rest, v, hnz, hnd, hle => by
      simp only [List.foldl_cons]
      have hle1 : ∀ k, b.inserted.count k ≤ refOf v k := by
        intro k
        have := hle k
        rw [cntBlocks_cons] at this
        omega
      obtain ⟨heq1, hnz1, hnd1⟩ := discardValues_spec b.inserted v hnz hnd hle1
      have hle2 : ∀ k, cntBlocks rest k ≤ refOf (discardValues v b.inserted) k := by
        intro k
        have h1 := heq1 k
        have h2 := hle k
        rw [cntBlocks_cons] at h2
        omega
      obtain ⟨heq2, hnz2, hnd2⟩ := discardBlocks_spec rest _ hnz1 hnd1 hle2
      refine ⟨?_, hnz2, hnd2⟩
      intro k
      have h1 := heq1 k
      have h2 := heq2 k
      rw [cntBlocks_cons]
      omega

end StateDbVerify

namespace StateDbVerify

theorem push_blocks (lvl : OverlayLevel) (b : BlockOverlay) :
    (lvl.push b).blocks = lvl.blocks ++ [b] := rfl

theorem count_single (a b : Nat) : ([a] : List Nat).count b = if a = b then 1 else 0 := by
  rw [List.count_cons]
  simp [beq_iff_eq]

theorem cntLevels_set : ∀ (ls : List OverlayLevel) (j : Nat) (lvl lvl2 : OverlayLevel),
    ls.get? j = some lvl → ∀ k,
    cntLevels (ls.set j lvl2) k + cntBlocks lvl.blocks k =
      cntLevels ls k + cntBlocks lvl2.blocks k
  | [], j, lvl, lvl2, hget, k => by cases j <;> exact Option.noConfusion hget
  | a :: as, 0, lvl, lvl2, hget, k => by
      cases Option.some.inj hget
      show cntLevels (lvl2 :: as) k + cntBlocks a.blocks k =
        cntLevels (a :: as) k + cntBlocks lvl2.blocks k
      rw [cntLevels_cons, cntLevels_cons]
      omega
  | a :: as, j + 1, lvl, lvl2, hget, k => by
      have ih := cntLevels_set as j lvl lvl2 hget k
      show cntLevels (a :: as.set j lvl2) k + cntBlocks lvl.blocks k =
        cntLevels (a :: as) k + cntBlocks lvl2.blocks k
      rw [cntLevels_cons, cntLevels_cons]
      omega

theorem hashCntLevels_set : ∀ (ls : List OverlayLevel) (j : Nat) (lvl lvl2 : OverlayLevel),
    ls.get? j = some lvl → ∀ x,
    hashCntLevels (ls.set j lvl2) x + hashCntBlocks lvl.blocks x =
      hashCntLevels ls x + hashCntBlocks lvl2.blocks x
  | [], j, lvl, lvl2, hget, x => by cases j <;> exact Option.noConfusion hget
  | a :: as, 0, lvl, lvl2, hget, x => by
      cases Option.some.inj hget
      show hashCntLevels (lvl2 :: as) x + hashCntBlocks a.blocks x =
        hashCntLevels (a :: as) x + hashCntBlocks lvl2.blocks x
      rw [hashCntLevels_cons, hashCntLevels_cons]
      omega
  | a :: as, j + 1, lvl, lvl2, hget, x => by
      have ih := hashCntLevels_set as j lvl lvl2 hget x
      show hashCntLevels (a :: as.set j lvl2) x + hashCntBlocks lvl.blocks x =
        hashCntLevels (a :: as) x + hashCntBlocks lvl2.blocks x
      rw [hashCntLevels_cons, hashCntLevels_cons]
      omega

theorem cntLevels_new (k : Key) : cntLevels [OverlayLevel.new] k = 0 := by
  simp [cntLevels, cntBlocks, OverlayLevel.new, OverlayLevel.newWithSpan]

theorem hashCntLevels_new (x : BlockHash) : hashCntLevels [OverlayLevel.new] x = 0 := by
  simp [hashCntLevels, hashCntBlocks, OverlayLevel.new, OverlayLevel.newWithSpan]

theorem hashCntLevels_eq_count (ls : List OverlayLevel) (x : BlockHash) :
    hashCntLevels ls x = (levelHashes ls).count x := by
  induction ls with
  | nil => rfl
  | cons lvl rest ih =>
      rw [hashCntLevels_cons, levelHashes_cons, List.count_append, ih]
      rfl

theorem hashCntLevels_zero_of_not_mem (ls : List OverlayLevel) (h : BlockHash)
    (hnot : h ∉ levelHashes ls) : hashCntLevels ls h = 0 := by
  rw [hashCntLevels_eq_count]
  exact List.count_eq_zero.mpr hnot

theorem hashCntPI_zero_of_lookup_none (pi : Assoc BlockHash (List Key × Nat)) (h : BlockHash)
    (hl : Assoc.lookup pi h = none) : hashCntPI pi h = 0 := by
  unfold hashCntPI
  refine List.count_eq_zero.mpr (fun hmem => ?_)
  have := (Assoc.lookup_isSome_iff_mem_keys pi h).mpr hmem
  rw [hl] at this
  exact Bool.noConfusion this

theorem lookup_none_of_hashCntPI_zero (pi : Assoc BlockHash (List Key × Nat)) (h : BlockHash)
    (hz : hashCntPI pi h = 0) : Assoc.lookup pi h = none := by
  apply Assoc.lookup_none_of_not_mem_keys
  intro hmem
  unfold hashCntPI at hz
  rw [List.count_eq_zero] at hz
  exact hz hmem

theorem insertOp_ok_step1 (s : Overlay) (h p : BlockHash) (n : Nat) (cs : ChangeSet)
    (c : CommitSet) (s2 : Overlay)
    (hok : s.insertOp h n p cs = InsertResult.ok c s2) :
    ∃ s1 meta1, insertTail s1 meta1 h n p cs s.frontBlockNumber = InsertResult.ok c s2 ∧
      s1.levels = s.levels ∧ s1.parents = s.parents ∧ s1.values = s.values ∧
      s1.pinned = s.pinned ∧ s1.pinnedInsertions = s.pinnedInsertions := by
  rw [insertOp_eq_match] at hok
  by_cases h1 : s.levels = [] ∧ s.lastCanonicalized = none ∧ 0 < n
  · rw [if_pos h1] at hok
    exact ⟨_, _, hok, rfl, rfl, rfl, rfl, rfl⟩
  · rw [if_neg h1] at hok
    by_cases h2 : s.lastCanonicalized.isSome = true
    · rw [if_pos h2] at hok
      by_cases h3 : n < s.frontBlockNumber ∨ s.frontBlockNumber + s.levels.length < n
      · rw [if_pos h3] at hok
        exact InsertResult.noConfusion hok
      · rw [if_neg h3] at hok
        by_cases h4 : n = s.frontBlockNumber
        · rw [if_pos h4] at hok
          by_cases h5 : (match s.lastCanonicalized with
              | some (h2, n2) => (h2 == p) && (n2 == n - 1)
              | none => false) = true
          · rw [if_pos h5] at hok
            exact ⟨s, [], hok, rfl, rfl, rfl, rfl, rfl⟩
          · rw [if_neg h5] at hok
            exact InsertResult.noConfusion hok
        · rw [if_neg h4] at hok
          by_cases h6 : (Assoc.lookup s.parents p).isSome = true
          · rw [if_pos h6] at hok
            exact ⟨s, [], hok, rfl, rfl, rfl, rfl, rfl⟩
          · rw [if_neg h6] at hok
            exact InsertResult.noConfusion hok
    · rw [if_neg h2] at hok
      exact ⟨s, [], hok, rfl, rfl, rfl, rfl, rfl⟩

theorem insertTail_ok_inv (s1 : Overlay) (meta1 : List (MetaKey × MetaValue))
    (h p : BlockHash) (n : Nat) (cs : ChangeSet) (front : Nat) (c : CommitSet) (s2 : Overlay)
    (hok : insertTail s1 meta1 h n p cs front = InsertResult.ok c s2) :
    ∃ levels2 idx lvl,
      (levels2 = s1.levels ∨ levels2 = s1.levels ++ [OverlayLevel.new]) ∧
      levels2.get? idx = some lvl ∧
      (lvl.blocks.any (fun b => b.hash == h)) = false ∧
      s2.levels = levels2.set idx (lvl.push
        ⟨h, lvl.availableIndex, MetaKey.journal n lvl.availableIndex,
          cs.inserted.map (fun kv => kv.1), cs.deleted⟩) ∧
      s2.parents = Assoc.insertU s1.parents h p ∧
      s2.values = insertValues s1.values cs.inserted ∧
      s2.pinned = s1.pinned ∧
      s2.pinnedInsertions = s1.pinnedInsertions ∧
      s2.pinnedCanonicalized = s1.pinnedCanonicalized := by
  simp only [insertTail] at hok
  by_cases hc : s1.levels = [] ∨ n = front + s1.levels.length
  · rw [if_pos hc] at hok
    simp only [List.get?_concat_length] at hok
    rw [show (OverlayLevel.new.blocks.any (fun b => b.hash == h)) = false from rfl] at hok
    simp only [Bool.false_eq_true, if_false] at hok
    cases hok
    exact ⟨s1.levels ++ [OverlayLevel.new], s1.levels.length, OverlayLevel.new, Or.inr rfl,
      List.get?_concat_length _ _, rfl, rfl, rfl, rfl, rfl, rfl, rfl⟩
  · rw [if_neg hc] at hok
    cases hget : s1.levels.get? (n - front) with
    | none =>
        simp only [hget] at hok
        exact InsertResult.noConfusion hok
    | some lvl =>
        simp only [hget] at hok
        by_cases hdup : (lvl.blocks.any (fun b => b.hash == h)) = true
        · rw [if_pos hdup] at hok
          exact InsertResult.noConfusion hok
        · rw [if_neg hdup] at hok
          cases hok
          exact ⟨s1.levels, n - front, lvl, Or.inl rfl, hget, Bool.eq_false_iff.mpr hdup,
            rfl, rfl, rfl, rfl, rfl, rfl⟩

theorem cntInv_insert (s : Overlay) (h p : BlockHash) (n : Nat) (cs : ChangeSet)
    (c : CommitSet) (s2 : Overlay)
    (hok : s.insertOp h n p cs = InsertResult.ok c s2)
    (hfresh : h ∉ levelHashes s.levels)
    (hpi : Assoc.lookup s.pinnedInsertions h = none)
    (hinv : CntInv s) : CntInv s2 := by
  obtain ⟨s1, meta1, htail, hlev, hpar, hval, hpd, hpins⟩ :=
    insertOp_ok_step1 s h p n cs c s2 hok
  obtain ⟨levels2, idx, lvl, hl2, hget, hdup, hsl, hsp, hsv, hsd, hspi, hspc⟩ :=
    insertTail_ok_inv s1 meta1 h p n cs s.frontBlockNumber c s2 htail
  have hlvl2cnt : ∀ k, cntLevels levels2 k = cntLevels s.levels k := by
    intro k
    rcases hl2 with he | he
    · rw [he, hlev]
    · rw [he, hlev, cntLevels_append]
      have := cntLevels_new k
      omega
  have hlvl2hash : ∀ x, hashCntLevels levels2 x = hashCntLevels s.levels x := by
    intro x
    rcases hl2 with he | he
    · rw [he, hlev]
    · rw [he, hlev, hashCntLevels_append]
      have := hashCntLevels_new x
      omega
  have hcntset := cntLevels_set levels2 idx lvl (lvl.push
    ⟨h, lvl.availableIndex, MetaKey.journal n lvl.availableIndex,
      cs.inserted.map (fun kv => kv.1), cs.deleted⟩) hget
  have hhashset := hashCntLevels_set levels2 idx lvl (lvl.push
    ⟨h, lvl.availableIndex, MetaKey.journal n lvl.availableIndex,
      cs.inserted.map (fun kv => kv.1), cs.deleted⟩) hget
  have hpushcnt : ∀ k, cntBlocks (lvl.push
      ⟨h, lvl.availableIndex, MetaKey.journal n lvl.availableIndex,
        cs.inserted.map (fun kv => kv.1), cs.deleted⟩).blocks k =
      cntBlocks lvl.blocks k + (cs.inserted.map (fun kv => kv.1)).count k := by
    intro k
    rw [push_blocks, cntBlocks_append]
    simp [cntBlocks]
  have hpushhash : ∀ x, hashCntBlocks (lvl.push
      ⟨h, lvl.availableIndex, MetaKey.journal n lvl.availableIndex,
        cs.inserted.map (fun kv => kv.1), cs.deleted⟩).blocks x =
      hashCntBlocks lvl.blocks x + (if h = x then 1 else 0) := by
    intro x
    rw [push_blocks, hashCntBlocks_append]
    have : hashCntBlocks [(⟨h, lvl.availableIndex, MetaKey.journal n lvl.availableIndex,
        cs.inserted.map (fun kv => kv.1), cs.deleted⟩ : BlockOverlay)] x =
        ([h] : List Nat).count x := rfl
    rw [this, count_single]
  refine ⟨?_, ?_, ?_, ?_⟩
  · intro k
    have h1 := hinv.1 k
    unfold insCount at h1 ⊢
    rw [hsv, hval, refOf_insertValues, hsl, hspi, hpins]
    have h2 := hcntset k
    have h3 := hpushcnt k
    have h4 := hlvl2cnt k
    omega
  · rw [hsv, hval]
    exact (noZero_nodup_insertValues cs.inserted s.values hinv.2.1 hinv.2.2.1).1
  · rw [hsv, hval]
    exact (noZero_nodup_insertValues cs.inserted s.values hinv.2.1 hinv.2.2.1).2
  · intro x
    have h1 := hinv.2.2.2 x
    rw [hsl, hspi, hpins]
    have h2 := hhashset x
    have h3 := hpushhash x
    have h4 := hlvl2hash x
    by_cases hx : h = x
    · subst hx
      have hz1 : hashCntLevels s.levels h = 0 := hashCntLevels_zero_of_not_mem _ _ hfresh
      have hz2 : hashCntPI s.pinnedInsertions h = 0 := hashCntPI_zero_of_lookup_none _ _ hpi
      rw [if_pos rfl] at h3
      omega
    · rw [if_neg hx] at h3
      omega

end StateDbVerify

namespace StateDbVerify

theorem removeAt_inv (lvl : OverlayLevel) (i : Nat) (b : BlockOverlay) (lvl2 : OverlayLevel)
    (hrm : lvl.removeAt i = some (b, lvl2)) :
    lvl.blocks.get? i = some b ∧ lvl2.blocks = lvl.blocks.eraseIdx i := by
  unfold OverlayLevel.removeAt at hrm
  cases hget : lvl.blocks.get? i with
  | none =>
      rw [hget] at hrm
      exact Option.noConfusion hrm
  | some b0 =>
      rw [hget] at hrm
      cases hrm
      exact ⟨rfl, rfl⟩

theorem cntBlocks_eraseIdx : ∀ (bs : List BlockOverlay) (i : Nat) (b : BlockOverlay),
    bs.get? i = some b → ∀ k,
    cntBlocks (bs.eraseIdx i) k + b.inserted.count k = cntBlocks bs k
  | [], i, b, hget, k => by cases i <;> exact Option.noConfusion hget
  | a :: as, 0, b, hget, k => by
      cases Option.some.inj hget
      show cntBlocks as k + a.inserted.count k = cntBlocks (a :: as) k
      rw [cntBlocks_cons]
      omega
  | a :: as, i + 1, b, hget, k => by
      have ih := cntBlocks_eraseIdx as i b hget k
      show cntBlocks (a :: as.eraseIdx i) k + b.inserted.count k = cntBlocks (a :: as) k
      rw [cntBlocks_cons, cntBlocks_cons]
      omega

theorem hashCntBlocks_eraseIdx : ∀ (bs : List BlockOverlay) (i : Nat) (b : BlockOverlay),
    bs.get? i = some b → ∀ x,
    hashCntBlocks (bs.eraseIdx i) x + (if b.hash = x then 1 else 0) = hashCntBlocks bs x
  | [], i, b, hget, x => by cases i <;> exact Option.noConfusion hget
  | a :: as, 0, b, hget, x => by
      cases Option.some.inj hget
      show hashCntBlocks as x + (if a.hash = x then 1 else 0) = hashCntBlocks (a :: as) x
      rw [hashCntBlocks_cons]
  | a :: as, i + 1, b, hget, x => by
      have ih := hashCntBlocks_eraseIdx as i b hget x
      show hashCntBlocks (a :: as.eraseIdx i) x + (if b.hash = x then 1 else 0) =
        hashCntBlocks (a :: as) x
      rw [hashCntBlocks_cons, hashCntBlocks_cons]
      omega

theorem discardDescendants_zero (levels : List OverlayLevel) (st : DiscardSt)
    (pinned : Assoc BlockHash Nat) (h : BlockHash) :
    discardDescendants 0 levels st pinned h = none := rfl

theorem discardLoop_zero (lvl : OverlayLevel) (rest : List OverlayLevel) (st : DiscardSt)
    (pinned : Assoc BlockHash Nat) (h : BlockHash) :
    discardDescendants.discardLoop 0 lvl rest st pinned h = none := rfl

theorem discardDescendants_succ_nil (fuel : Nat) (st : DiscardSt)
    (pinned : Assoc BlockHash Nat) (h : BlockHash) :
    discardDescendants (fuel + 1) [] st pinned h = some ([], st, 0) := rfl

theorem discardDescendants_succ_cons (fuel : Nat) (lvl : OverlayLevel)
    (rest : List OverlayLevel) (st : DiscardSt) (pinned : Assoc BlockHash Nat)
    (h : BlockHash) :
    discardDescendants (fuel + 1) (lvl :: rest) st pinned h =
      discardDescendants.discardLoop fuel lvl rest st pinned h := rfl

theorem discardLoop_succ (fuel : Nat) (lvl : OverlayLevel) (rest : List OverlayLevel)
    (st : DiscardSt) (pinned : Assoc BlockHash Nat) (h : BlockHash) :
    discardDescendants.discardLoop (fuel + 1) lvl rest st pinned h =
      (match findChildIdx lvl.blocks st.parents h 0 with
      | none => none
      | some none => some (lvl :: rest, st, 0)
      | some (some i) =>
        match lvl.removeAt i with
        | none => none
        | some (overlay, lvl2) =>
          match discardDescendants fuel rest st pinned overlay.hash with
          | none => none
          | some (rest2, st2, numPinnedRec) =>
            let numPinned :=
              numPinnedRec + (if Assoc.containsKey pinned overlay.hash then 1 else 0)
            let st3 :=
              if numPinned ≠ 0 then
                { st2 with
                  pinnedInsertions :=
                    Assoc.insertU st2.pinnedInsertions overlay.hash (overlay.inserted, numPinned) }
              else
                { st2 with
                  parents := Assoc.eraseKey st2.parents overlay.hash
                  values := discardValues st2.values overlay.inserted }
            match discardDescendants.discardLoop fuel lvl2 rest2 st3 pinned h with
            | none => none
            | some (levels3, st4, acc) => some (levels3, st4, acc + numPinned)) := rfl

theorem dd_dl_spec : ∀ (fuel : Nat),
    (∀ (levels : List OverlayLevel) (st : DiscardSt) (pinned : Assoc BlockHash Nat)
        (h : BlockHash) (levels2 : List OverlayLevel) (st2 : DiscardSt) (np : Nat),
      discardDescendants fuel levels st pinned h = some (levels2, st2, np) →
      ∀ (C HC : Nat → Nat),
      (∀ k, refOf st.values k = C k + cntLevels levels k + cntPinnedIns st.pinnedInsertions k) →
      NoZero st.values → (Assoc.keysOf st.values).Nodup →
      (∀ x, HC x + hashCntLevels levels x + hashCntPI st.pinnedInsertions x ≤ 1) →
      (∀ k, refOf st2.values k =
        C k + cntLevels levels2 k + cntPinnedIns st2.pinnedInsertions k) ∧
      NoZero st2.values ∧ (Assoc.keysOf st2.values).Nodup ∧
      (∀ x, HC x + hashCntLevels levels2 x + hashCntPI st2.pinnedInsertions x ≤ 1)) ∧
    (∀ (lvl : OverlayLevel) (rest : List OverlayLevel) (st : DiscardSt)
        (pinned : Assoc BlockHash Nat) (h : BlockHash) (levels3 : List OverlayLevel)
        (st4 : DiscardSt) (acc : Nat),
      discardDescendants.discardLoop fuel lvl rest st pinned h = some (levels3, st4, acc) →
      ∀ (C HC : Nat → Nat),
      (∀ k, refOf st.values k =
        C k + cntLevels (lvl :: rest) k + cntPinnedIns st.pinnedInsertions k) →
      NoZero st.values → (Assoc.keysOf st.values).Nodup →
      (∀ x, HC x + hashCntLevels (lvl :: rest) x + hashCntPI st.pinnedInsertions x ≤ 1) →
      (∀ k, refOf st4.values k =
        C k + cntLevels levels3 k + cntPinnedIns st4.pinnedInsertions k) ∧
      NoZero st4.values ∧ (Assoc.keysOf st4.values).Nodup ∧
      (∀ x, HC x + hashCntLevels levels3 x + hashCntPI st4.pinnedInsertions x ≤ 1)) := by
  intro fuel
  induction fuel with
  | zero =>
      constructor
      · intro levels st pinned h levels2 st2 np heq
        rw [discardDescendants_zero] at heq
        exact Option.noConfusion heq
      · intro lvl rest st pinned h levels3 st4 acc heq
        rw [discardLoop_zero] at heq
        exact Option.noConfusion heq
  | succ fuel ih =>
      constructor
      · intro levels st pinned h levels2 st2 np heq C HC hpreA hnz hnd hpreC
        cases levels with
        | nil =>
            rw [discardDescendants_succ_nil] at heq
            cases heq
            exact ⟨hpreA, hnz, hnd, hpreC⟩
        | cons lvl rest =>
            rw [discardDescendants_succ_cons] at heq
            exact ih.2 lvl rest st pinned h levels2 st2 np heq C HC hpreA hnz hnd hpreC
      · intro lvl rest st pinned h levels3 st4 acc heq C HC hpreA hnz hnd hpreC
        rw [discardLoop_succ] at heq
        cases hf : findChildIdx lvl.blocks st.parents h 0 with
        | none =>
            simp only [hf] at heq
            exact Option.noConfusion heq
        | some oi =>
            cases oi with
            | none =>
                simp only [hf] at heq
                cases heq
                exact ⟨hpreA, hnz, hnd, hpreC⟩
            | some i =>
                simp only [hf] at heq
                cases hrm : lvl.removeAt i with
                | none =>
                    simp only [hrm] at heq
                    exact Option.noConfusion heq
                | some pr =>
                    obtain ⟨overlay, lvl2⟩ := pr
                    simp only [hrm] at heq
                    cases hdd : discardDescendants fuel rest st pinned overlay.hash with
                    | none =>
                        simp only [hdd] at heq
                        exact Option.noConfusion heq
                    | some trip =>
                        obtain ⟨rest2, st2, npr⟩ := trip
                        simp only [hdd] at heq
                        obtain ⟨hgi, hbe⟩ := removeAt_inv lvl i overlay lvl2 hrm
                        have hce : ∀ k,
                            cntBlocks lvl2.blocks k + overlay.inserted.count k =
                              cntBlocks lvl.blocks k := by
                          intro k
                          rw [hbe]
                          exact cntBlocks_eraseIdx lvl.blocks i overlay hgi k
                        have hhe : ∀ x,
                            hashCntBlocks lvl2.blocks x + (if overlay.hash = x then 1 else 0) =
                              hashCntBlocks lvl.blocks x := by
                          intro x
                          rw [hbe]
                          exact hashCntBlocks_eraseIdx lvl.blocks i overlay hgi x
                        have preA2 : ∀ k, refOf st.values k =
                            (C k + cntBlocks lvl2.blocks k + overlay.inserted.count k) +
                              cntLevels rest k + cntPinnedIns st.pinnedInsertions k := by
                          intro k
                          have h1 := hpreA k
                          rw [cntLevels_cons] at h1
                          have h2 := hce k
                          omega
                        have preC2 : ∀ x,
                            (HC x + hashCntBlocks lvl2.blocks x +
                              (if overlay.hash = x then 1 else 0)) +
                              hashCntLevels rest x + hashCntPI st.pinnedInsertions x ≤ 1 := by
                          intro x
                          have h1 := hpreC x
                          rw [hashCntLevels_cons] at h1
                          have h2 := hhe x
                          omega
                        obtain ⟨postA, postNZ, postND, postC⟩ :=
                          ih.1 rest st pinned overlay.hash rest2 st2 npr hdd
                            (fun k => C k + cntBlocks lvl2.blocks k + overlay.inserted.count k)
                            (fun x => HC x + hashCntBlocks lvl2.blocks x +
                              (if overlay.hash = x then 1 else 0))
                            preA2 hnz hnd preC2
                        have postA' : ∀ k, refOf st2.values k =
                            (C k + cntBlocks lvl2.blocks k + overlay.inserted.count k) +
                              cntLevels rest2 k + cntPinnedIns st2.pinnedInsertions k := postA
                        have postC' : ∀ x,
                            (HC x + hashCntBlocks lvl2.blocks x +
                              (if overlay.hash = x then 1 else 0)) +
                              hashCntLevels rest2 x + hashCntPI st2.pinnedInsertions x ≤ 1 :=
                          postC
                        by_cases hnp :
                            npr + (if Assoc.containsKey pinned overlay.hash then 1 else 0) ≠ 0
                        · rw [if_pos hnp] at heq
                          cases hdl : discardDescendants.discardLoop fuel lvl2 rest2
                              { st2 with
                                pinnedInsertions :=
                                  Assoc.insertU st2.pinnedInsertions overlay.hash
                                    (overlay.inserted,
                                      npr + (if Assoc.containsKey pinned overlay.hash then 1
                                        else 0)) }
                              pinned h with
                          | none =>
                              simp only [hdl] at heq
                              exact Option.noConfusion heq
                          | some trip2 =>
                              obtain ⟨l3, s4, a⟩ := trip2
                              simp only [hdl] at heq
                              cases heq
                              have hco := postC' overlay.hash
                              rw [if_pos rfl] at hco
                              have hzpi : hashCntPI st2.pinnedInsertions overlay.hash = 0 := by
                                omega
                              have hfr : Assoc.lookup st2.pinnedInsertions overlay.hash =
                                  none := lookup_none_of_hashCntPI_zero _ _ hzpi
                              have happ : Assoc.insertU st2.pinnedInsertions overlay.hash
                                  (overlay.inserted,
                                    npr + (if Assoc.containsKey pinned overlay.hash then 1
                                      else 0)) =
                                  st2.pinnedInsertions ++ [(overlay.hash,
                                    (overlay.inserted,
                                      npr + (if Assoc.containsKey pinned overlay.hash then 1
                                        else 0)))] :=
                                Assoc.insertU_eq_append_of_fresh _ _ _ hfr
                              have preA3 : ∀ k, refOf st2.values k =
                                  C k + cntLevels (lvl2 :: rest2) k +
                                    cntPinnedIns (Assoc.insertU st2.pinnedInsertions
                                      overlay.hash
                                      (overlay.inserted,
                                        npr + (if Assoc.containsKey pinned overlay.hash then 1
                                          else 0))) k := by
                                intro k
                                rw [happ, cntPinnedIns_append_single, cntLevels_cons]
                                have h1 := postA' k
                                omega
                              have preC3 : ∀ x,
                                  HC x + hashCntLevels (lvl2 :: rest2) x +
                                    hashCntPI (Assoc.insertU st2.pinnedInsertions overlay.hash
                                      (overlay.inserted,
                                        npr + (if Assoc.containsKey pinned overlay.hash then 1
                                          else 0))) x ≤ 1 := by
                                intro x
                                rw [happ, hashCntPI_append_single, hashCntLevels_cons]
                                have h1 := postC' x
                                omega
                              exact ih.2 lvl2 rest2 _ pinned h levels3 st4 a hdl C HC preA3
                                postNZ postND preC3
                        · rw [if_neg hnp] at heq
                          cases hdl : discardDescendants.discardLoop fuel lvl2 rest2
                              { st2 with
                                parents := Assoc.eraseKey st2.parents overlay.hash
                                values := discardValues st2.values overlay.inserted }
                              pinned h with
                          | none =>
                              simp only [hdl] at heq
                              exact Option.noConfusion heq
                          | some trip2 =>
                              obtain ⟨l3, s4, a⟩ := trip2
                              simp only [hdl] at heq
                              cases heq
                              have hle : ∀ k,
                                  overlay.inserted.count k ≤ refOf st2.values k := by
                                intro k
                                have h1 := postA' k
                                omega
                              obtain ⟨hveq, hvnz, hvnd⟩ :=
                                discardValues_spec overlay.inserted st2.values postNZ postND hle
                              have preA3 : ∀ k,
                                  refOf (discardValues st2.values overlay.inserted) k =
                                  C k + cntLevels (lvl2 :: rest2) k +
                                    cntPinnedIns st2.pinnedInsertions k := by
                                intro k
                                rw [cntLevels_cons]
                                have h1 := hveq k
                                have h2 := postA' k
                                omega
                              have preC3 : ∀ x,
                                  HC x + hashCntLevels (lvl2 :: rest2) x +
                                    hashCntPI st2.pinnedInsertions x ≤ 1 := by
                                intro x
                                rw [hashCntLevels_cons]
                                have h1 := postC' x
                                omega
                              exact ih.2 lvl2 rest2 _ pinned h levels3 st4 a hdl C HC preA3
                                hvnz hvnd preC3

end StateDbVerify

namespace StateDbVerify

theorem canonBlocks_spec : ∀ (blocks : List BlockOverlay) (fuel i index : Nat) (s : Overlay)
    (dataIns : List (Key × DBValue)) (dataDel : List Key) (dj : List MetaKey) (s3 : Overlay)
    (dI : List (Key × DBValue)) (dD : List Key) (dj2 : List MetaKey),
    canonBlocks fuel blocks i index s dataIns dataDel dj = some (s3, dI, dD, dj2) →
    ∀ (C HC : Nat → Nat),
    (∀ k, refOf s.values k = C k + cntBlocks blocks k + cntLevels s.levels k +
      cntPinnedIns s.pinnedInsertions k) →
    NoZero s.values → (Assoc.keysOf s.values).Nodup →
    (∀ x, HC x + hashCntBlocks blocks x + hashCntLevels s.levels x +
      hashCntPI s.pinnedInsertions x ≤ 1) →
    (∀ k, refOf s3.values k = C k + cntLevels s3.levels k +
      cntPinnedIns s3.pinnedInsertions k) ∧
    NoZero s3.values ∧ (Assoc.keysOf s3.values).Nodup ∧
    (∀ x, HC x + hashCntLevels s3.levels x + hashCntPI s3.pinnedInsertions x ≤ 1)
  | [], fuel, i, index, s, dataIns, dataDel, dj, s3, dI, dD, dj2, heq, C, HC, pA, nz, nd, pC =>
    by
      simp only [canonBlocks] at heq
      cases heq
      refine ⟨?_, nz, nd, ?_⟩
      · intro k
        have h1 := pA k
        have h0 : cntBlocks ([] : List BlockOverlay) k = 0 := rfl
        omega
      · intro x
        have h1 := pC x
        have h0 : hashCntBlocks ([] : List BlockOverlay) x = 0 := rfl
        omega
  | overlay :: rest, fuel, i, index, s, dataIns, dataDel, dj, s3, dI, dD, dj2, heq, C, HC,
      pA, nz, nd, pC => by
      simp only [canonBlocks] at heq
      by_cases hidx : i = index
      · rw [if_pos hidx] at heq
        cases hlv : lookupValuesFor s.values overlay.inserted with
        | none =>
            simp only [hlv] at heq
            exact Option.noConfusion heq
        | some pairs =>
            simp only [hlv] at heq
            have hfr : Assoc.lookup s.pinnedInsertions overlay.hash = none := by
              apply lookup_none_of_hashCntPI_zero
              have h1 := pC overlay.hash
              rw [hashCntBlocks_cons, if_pos rfl] at h1
              omega
            have happ : ∀ np : Nat, Assoc.insertU s.pinnedInsertions overlay.hash
                (overlay.inserted, np) =
                s.pinnedInsertions ++ [(overlay.hash, (overlay.inserted, np))] :=
              fun np => Assoc.insertU_eq_append_of_fresh _ _ _ hfr
            have preA' : ∀ np : Nat, ∀ k, refOf s.values k =
                C k + cntBlocks rest k + cntLevels s.levels k +
                  cntPinnedIns (Assoc.insertU s.pinnedInsertions overlay.hash
                    (overlay.inserted, np)) k := by
              intro np k
              rw [happ, cntPinnedIns_append_single]
              have h1 := pA k
              rw [cntBlocks_cons] at h1
              omega
            have preC' : ∀ np : Nat, ∀ x, HC x + hashCntBlocks rest x +
                hashCntLevels s.levels x +
                hashCntPI (Assoc.insertU s.pinnedInsertions overlay.hash
                  (overlay.inserted, np)) x ≤ 1 := by
              intro np x
              rw [happ, hashCntPI_append_single]
              have h1 := pC x
              rw [hashCntBlocks_cons] at h1
              omega
            by_cases hpc : 0 + (if Assoc.containsKey s.pinned overlay.hash then 1 else 0) ≠ 0
            · rw [if_pos hpc] at heq
              exact canonBlocks_spec rest fuel (i + 1) index _ _ _ _ s3 dI dD dj2 heq C HC
                (preA' _) nz nd (preC' _)
            · rw [if_neg hpc] at heq
              have hle : ∀ k, overlay.inserted.count k ≤ refOf s.values k := by
                intro k
                have h1 := pA k
                rw [cntBlocks_cons] at h1
                omega
              obtain ⟨hveq, hvnz, hvnd⟩ := discardValues_spec overlay.inserted s.values nz nd hle
              have preA2 : ∀ k, refOf (discardValues s.values overlay.inserted) k =
                  C k + cntBlocks rest k + cntLevels s.levels k +
                    cntPinnedIns s.pinnedInsertions k := by
                intro k
                have h1 := pA k
                rw [cntBlocks_cons] at h1
                have h2 := hveq k
                omega
              have preC2 : ∀ x, HC x + hashCntBlocks rest x + hashCntLevels s.levels x +
                  hashCntPI s.pinnedInsertions x ≤ 1 := by
                intro x
                have h1 := pC x
                rw [hashCntBlocks_cons] at h1
                omega
              exact canonBlocks_spec rest fuel (i + 1) index _ _ _ _ s3 dI dD dj2 heq C HC
                preA2 hvnz hvnd preC2
      · rw [if_neg hidx] at heq
        cases hdj : discardJournals fuel s.levels s.parents overlay.hash with
        | none =>
            simp only [hdj] at heq
            exact Option.noConfusion heq
        | some djSub =>
            simp only [hdj] at heq
            cases hdd : discardDescendants fuel s.levels
                ⟨s.values, s.parents, s.pinnedInsertions⟩ s.pinned overlay.hash with
            | none =>
                simp only [hdd] at heq
                exact Option.noConfusion heq
            | some trip =>
                obtain ⟨levels2, st2, pc⟩ := trip
                simp only [hdd] at heq
                have preA1 : ∀ k,
                    refOf (DiscardSt.mk s.values s.parents s.pinnedInsertions).values k =
                    (C k + overlay.inserted.count k + cntBlocks rest k) +
                      cntLevels s.levels k +
                      cntPinnedIns
                        (DiscardSt.mk s.values s.parents s.pinnedInsertions).pinnedInsertions
                        k := by
                  intro k
                  have h1 := pA k
                  rw [cntBlocks_cons] at h1
                  show refOf s.values k = C k + overlay.inserted.count k + cntBlocks rest k +
                    cntLevels s.levels k + cntPinnedIns s.pinnedInsertions k
                  omega
                have preC1 : ∀ x,
                    (HC x + (if overlay.hash = x then 1 else 0) + hashCntBlocks rest x) +
                      hashCntLevels s.levels x +
                      hashCntPI
                        (DiscardSt.mk s.values s.parents s.pinnedInsertions).pinnedInsertions
                        x ≤ 1 := by
                  intro x
                  have h1 := pC x
                  rw [hashCntBlocks_cons] at h1
                  show HC x + (if overlay.hash = x then 1 else 0) + hashCntBlocks rest x +
                    hashCntLevels s.levels x + hashCntPI s.pinnedInsertions x ≤ 1
                  omega
                obtain ⟨postA, postNZ, postND, postC⟩ :=
                  (dd_dl_spec fuel).1 s.levels ⟨s.values, s.parents, s.pinnedInsertions⟩
                    s.pinned overlay.hash levels2 st2 pc hdd
                    (fun k => C k + overlay.inserted.count k + cntBlocks rest k)
                    (fun x => HC x + (if overlay.hash = x then 1 else 0) +
                      hashCntBlocks rest x)
                    preA1 nz nd preC1
                have postA' : ∀ k, refOf st2.values k =
                    (C k + overlay.inserted.count k + cntBlocks rest k) +
                      cntLevels levels2 k + cntPinnedIns st2.pinnedInsertions k := postA
                have postC' : ∀ x,
                    (HC x + (if overlay.hash = x then 1 else 0) + hashCntBlocks rest x) +
                      hashCntLevels levels2 x + hashCntPI st2.pinnedInsertions x ≤ 1 := postC
                have hfr : Assoc.lookup st2.pinnedInsertions overlay.hash = none := by
                  apply lookup_none_of_hashCntPI_zero
                  have h1 := postC' overlay.hash
                  rw [if_pos rfl] at h1
                  omega
                have happ : ∀ np : Nat, Assoc.insertU st2.pinnedInsertions overlay.hash
                    (overlay.inserted, np) =
                    st2.pinnedInsertions ++ [(overlay.hash, (overlay.inserted, np))] :=
                  fun np => Assoc.insertU_eq_append_of_fresh _ _ _ hfr
                have preA2 : ∀ np : Nat, ∀ k, refOf st2.values k =
                    C k + cntBlocks rest k + cntLevels levels2 k +
                      cntPinnedIns (Assoc.insertU st2.pinnedInsertions overlay.hash
                        (overlay.inserted, np)) k := by
                  intro np k
                  rw [happ, cntPinnedIns_append_single]
                  have h1 := postA' k
                  omega
                have preC2 : ∀ np : Nat, ∀ x, HC x + hashCntBlocks rest x +
                    hashCntLevels levels2 x +
                    hashCntPI (Assoc.insertU st2.pinnedInsertions overlay.hash
                      (overlay.inserted, np)) x ≤ 1 := by
                  intro np x
                  rw [happ, hashCntPI_append_single]
                  have h1 := postC' x
                  omega
                by_cases hpc : pc + (if Assoc.containsKey s.pinned overlay.hash then 1
                    else 0) ≠ 0
                · rw [if_pos hpc] at heq
                  exact canonBlocks_spec rest fuel (i + 1) index _ _ _ _ s3 dI dD dj2 heq C HC
                    (preA2 _) postNZ postND (preC2 _)
                · rw [if_neg hpc] at heq
                  have hle : ∀ k, overlay.inserted.count k ≤ refOf st2.values k := by
                    intro k
                    have h1 := postA' k
                    omega
                  obtain ⟨hveq, hvnz, hvnd⟩ :=
                    discardValues_spec overlay.inserted st2.values postNZ postND hle
                  have preA3 : ∀ k, refOf (discardValues st2.values overlay.inserted) k =
                      C k + cntBlocks rest k + cntLevels levels2 k +
                        cntPinnedIns st2.pinnedInsertions k := by
                    intro k
                    have h1 := postA' k
                    have h2 := hveq k
                    omega
                  have preC3 : ∀ x, HC x + hashCntBlocks rest x + hashCntLevels levels2 x +
                      hashCntPI st2.pinnedInsertions x ≤ 1 := by
                    intro x
                    have h1 := postC' x
                    omega
                  exact canonBlocks_spec rest fuel (i + 1) index _ _ _ _ s3 dI dD dj2 heq C HC
                    preA3 hvnz hvnd preC3

end StateDbVerify

namespace StateDbVerify

theorem pinOp_eq (s : Overlay) (h : BlockHash) :
    s.pinOp h = { s with pinned :=
      (match Assoc.lookup s.pinned h with
        | some c => Assoc.insertU s.pinned h (c + 1)
        | none => Assoc.insertU s.pinned h 1) } := by
  unfold Overlay.pinOp
  cases Assoc.lookup s.pinned h <;> rfl

theorem cntInv_pin (s : Overlay) (h : BlockHash) (hinv : CntInv s) : CntInv (s.pinOp h) := by
  rw [pinOp_eq]
  exact ⟨hinv.1, hinv.2.1, hinv.2.2.1, hinv.2.2.2⟩

theorem cntInv_canon (s : Overlay) (h : BlockHash) (c : CommitSet) (n : Nat) (s2 : Overlay)
    (hok : s.canonicalizeOp h CommitSet.default = CanonResult.ok c n s2)
    (hinv : CntInv s) : CntInv s2 := by
  simp only [Overlay.canonicalizeOp] at hok
  split at hok
  · exact CanonResult.noConfusion hok
  · split at hok
    · exact CanonResult.noConfusion hok
    · split at hok
      · exact CanonResult.noConfusion hok
      · rename_i lvls level rest hlev oidx index hfi ocb s3 dataIns dataDel dj hcb
        rw [pinOp_eq] at hcb
        have preA : ∀ k, refOf s.values k =
            0 + cntBlocks level.blocks k + cntLevels rest k +
              cntPinnedIns s.pinnedInsertions k := by
          intro k
          have h1 := hinv.1 k
          unfold insCount at h1
          rw [hlev, cntLevels_cons] at h1
          omega
        have preC : ∀ x, 0 + hashCntBlocks level.blocks x + hashCntLevels rest x +
            hashCntPI s.pinnedInsertions x ≤ 1 := by
          intro x
          have h1 := hinv.2.2.2 x
          rw [hlev, hashCntLevels_cons] at h1
          omega
        obtain ⟨postA, postNZ, postND, postC⟩ :=
          canonBlocks_spec level.blocks (s.totalBlocks + s.levels.length + 2) 0 index _
            CommitSet.default.data.inserted CommitSet.default.data.deleted [] s3
            dataIns dataDel dj hcb (fun _ => 0) (fun _ => 0) preA hinv.2.1 hinv.2.2.1 preC
        cases hok
        refine ⟨?_, postNZ, postND, ?_⟩
        · intro k
          show refOf s3.values k =
            cntLevels s3.levels k + cntPinnedIns s3.pinnedInsertions k
          have h1 : refOf s3.values k =
              0 + cntLevels s3.levels k + cntPinnedIns s3.pinnedInsertions k := postA k
          omega
        · intro x
          show hashCntLevels s3.levels x + hashCntPI s3.pinnedInsertions x ≤ 1
          have h1 : 0 + hashCntLevels s3.levels x + hashCntPI s3.pinnedInsertions x ≤ 1 :=
            postC x
          omega

theorem eq_dropLast_concat {α : Type} (l : List α) (b : α) (h : l.getLast? = some b) :
    l = l.dropLast ++ [b] := by
  rcases List.eq_nil_or_concat l with hnil | ⟨l2, x, hc⟩
  · rw [hnil] at h
    exact Option.noConfusion h
  · rw [List.concat_eq_append] at hc
    subst hc
    rw [List.getLast?_concat] at h
    cases Option.some.inj h
    rw [List.dropLast_concat]

theorem cntInv_dropEmptyLast (s1 : Overlay) (backLvl : OverlayLevel)
    (hgl : s1.levels.getLast? = some backLvl) (hbe : backLvl.blocks = [])
    (hinv : CntInv s1) : CntInv { s1 with levels := s1.levels.dropLast } := by
  have hdec := eq_dropLast_concat s1.levels backLvl hgl
  have hcnt : ∀ k, cntLevels s1.levels.dropLast k = cntLevels s1.levels k := by
    intro k
    conv_rhs => rw [hdec]
    rw [cntLevels_append, cntLevels_cons, hbe]
    have h0 : cntBlocks ([] : List BlockOverlay) k = 0 := rfl
    have h1 : cntLevels ([] : List OverlayLevel) k = 0 := rfl
    omega
  have hhash : ∀ x, hashCntLevels s1.levels.dropLast x = hashCntLevels s1.levels x := by
    intro x
    conv_rhs => rw [hdec]
    rw [hashCntLevels_append, hashCntLevels_cons, hbe]
    have h0 : hashCntBlocks ([] : List BlockOverlay) x = 0 := rfl
    have h1 : hashCntLevels ([] : List OverlayLevel) x = 0 := rfl
    omega
  refine ⟨?_, hinv.2.1, hinv.2.2.1, ?_⟩
  · intro k
    show refOf s1.values k =
      cntLevels s1.levels.dropLast k + cntPinnedIns s1.pinnedInsertions k
    have h1 := hinv.1 k
    unfold insCount at h1
    rw [hcnt k]
    omega
  · intro x
    show hashCntLevels s1.levels.dropLast x + hashCntPI s1.pinnedInsertions x ≤ 1
    rw [hhash x]
    exact hinv.2.2.2 x

theorem cntInv_revert (s : Overlay) (c : CommitSet) (s2 : Overlay)
    (hrev : s.revertOne = some (c, s2)) (hinv : CntInv s) : CntInv s2 := by
  rcases List.eq_nil_or_concat s.levels with hnil | ⟨rest, lvl, hl⟩
  · rw [(revertOne_none_iff s).mpr hnil] at hrev
    exact Option.noConfusion hrev
  · rw [List.concat_eq_append] at hl
    rw [revertOne_some_spec s lvl rest hl] at hrev
    cases hrev
    have hle : ∀ k, cntBlocks lvl.blocks k ≤ refOf s.values k := by
      intro k
      have h1 := hinv.1 k
      unfold insCount at h1
      rw [hl, cntLevels_append, cntLevels_cons] at h1
      have h0 : cntLevels ([] : List OverlayLevel) k = 0 := rfl
      omega
    obtain ⟨heq2, hnz2, hnd2⟩ := discardBlocks_spec lvl.blocks s.values hinv.2.1 hinv.2.2.1 hle
    refine ⟨?_, hnz2, hnd2, ?_⟩
    · intro k
      show refOf (lvl.blocks.foldl (fun acc b => discardValues acc b.inserted) s.values) k =
        cntLevels rest k + cntPinnedIns s.pinnedInsertions k
      have h1 := heq2 k
      have h2 := hinv.1 k
      unfold insCount at h2
      rw [hl, cntLevels_append, cntLevels_cons] at h2
      have h0 : cntLevels ([] : List OverlayLevel) k = 0 := rfl
      omega
    · intro x
      show hashCntLevels rest x + hashCntPI s.pinnedInsertions x ≤ 1
      have h1 := hinv.2.2.2 x
      rw [hl, hashCntLevels_append, hashCntLevels_cons] at h1
      have h0 : hashCntLevels ([] : List OverlayLevel) x = 0 := rfl
      omega

end StateDbVerify

namespace StateDbVerify

theorem unpinWalk_cntInv : ∀ (fuel : Nat) (s : Overlay) (cur : Option BlockHash) (s2 : Overlay),
    unpinWalk fuel s cur = some s2 → CntInv s → CntInv s2
  | 0, s, cur, s2, heq, hinv => Option.noConfusion heq
  | fuel + 1, s, cur, s2, heq, hinv => by
      cases cur with
      | none =>
          simp only [unpinWalk] at heq
          cases heq
          exact hinv
      | some h =>
          cases hq : Assoc.lookup s.pinnedInsertions h with
          | none =>
              simp only [unpinWalk, hq] at heq
              cases heq
              exact hinv
          | some pr =>
              obtain ⟨inserted, c⟩ := pr
              simp only [unpinWalk, hq] at heq
              by_cases hz : c - 1 = 0
              · rw [if_pos hz] at heq
                have hle : ∀ k, inserted.count k ≤ refOf s.values k := by
                  intro k
                  have h1 := hinv.1 k
                  unfold insCount at h1
                  have h2 := cntPinnedIns_eraseKey s.pinnedInsertions h inserted c k hq
                  omega
                obtain ⟨hveq, hvnz, hvnd⟩ :=
                  discardValues_spec inserted s.values hinv.2.1 hinv.2.2.1 hle
                refine unpinWalk_cntInv fuel _ _ s2 heq ⟨?_, hvnz, hvnd, ?_⟩
                · intro k
                  show refOf (discardValues s.values inserted) k =
                    cntLevels s.levels k +
                      cntPinnedIns (Assoc.eraseKey s.pinnedInsertions h) k
                  have h1 := hveq k
                  have h2 := hinv.1 k
                  unfold insCount at h2
                  have h3 := cntPinnedIns_eraseKey s.pinnedInsertions h inserted c k hq
                  omega
                · intro x
                  show hashCntLevels s.levels x +
                    hashCntPI (Assoc.eraseKey s.pinnedInsertions h) x ≤ 1
                  have h1 := hinv.2.2.2 x
                  have h2 := hashCntPI_eraseKey s.pinnedInsertions h (inserted, c) x hq
                  omega
              · rw [if_neg hz] at heq
                refine unpinWalk_cntInv fuel _ _ s2 heq ⟨?_, hinv.2.1, hinv.2.2.1, ?_⟩
                · intro k
                  show refOf s.values k = cntLevels s.levels k +
                    cntPinnedIns (Assoc.insertU s.pinnedInsertions h (inserted, c - 1)) k
                  rw [cntPinnedIns_insertU_overwrite s.pinnedInsertions h inserted c (c - 1)
                    k hq]
                  have h1 := hinv.1 k
                  unfold insCount at h1
                  omega
                · intro x
                  show hashCntLevels s.levels x +
                    hashCntPI (Assoc.insertU s.pinnedInsertions h (inserted, c - 1)) x ≤ 1
                  rw [hashCntPI_insertU_of_some s.pinnedInsertions h (inserted, c - 1)
                    (inserted, c) x hq]
                  exact hinv.2.2.2 x

theorem cntInv_unpin (s : Overlay) (h : BlockHash) (s2 : Overlay)
    (heq : s.unpin h = some s2) (hinv : CntInv s) : CntInv s2 := by
  unfold Overlay.unpin Overlay.unpinOp at heq
  cases hq : Assoc.lookup s.pinned h with
  | none =>
      simp only [hq] at heq
      cases heq
      exact hinv
  | some c =>
      simp only [hq] at heq
      by_cases hz : c - 1 = 0
      · rw [if_pos hz] at heq
        exact unpinWalk_cntInv _ _ _ _ heq ⟨hinv.1, hinv.2.1, hinv.2.2.1, hinv.2.2.2⟩
      · rw [if_neg hz] at heq
        cases heq
        exact ⟨hinv.1, hinv.2.1, hinv.2.2.1, hinv.2.2.2⟩

theorem syncFold_cntInv : ∀ (l : List BlockHash) (acc : Option Overlay) (s2 : Overlay),
    l.foldl (fun acc h => match acc with | none => none | some st => st.unpin h) acc =
      some s2 →
    (∀ st, acc = some st → CntInv st) → CntInv s2
  | [], acc, s2, heq, hacc => by
      rw [List.foldl_nil] at heq
      exact hacc s2 heq
  | h :: tl, acc, s2, heq, hacc => by
      rw [List.foldl_cons] at heq
      refine syncFold_cntInv tl _ s2 heq ?_
      intro st hst
      cases acc with
      | none => exact Option.noConfusion hst
      | some st0 => exact cntInv_unpin st0 h st hst (hacc st0 rfl)

theorem cntInv_sync (s : Overlay) (s2 : Overlay) (heq : s.syncOp = some s2)
    (hinv : CntInv s) : CntInv s2 := by
  simp only [Overlay.syncOp] at heq
  refine syncFold_cntInv s.pinnedCanonicalized _ s2 heq ?_
  intro st hst
  cases hst
  exact ⟨hinv.1, hinv.2.1, hinv.2.2.1, hinv.2.2.2⟩

theorem cntInv_remove (s : Overlay) (h : BlockHash) (r : Option CommitSet) (s2 : Overlay)
    (hrm : s.removeOp h = (r, s2)) (hinv : CntInv s) : CntInv s2 := by
  simp only [Overlay.removeOp] at hrm
  split at hrm
  · cases hrm
    exact hinv
  · rename_i oAS metaDel1 s1 hAS
    have hinv1 : CntInv s1 := by
      cases hfb : findFromBack s.levels h with
      | none =>
          simp only [hfb] at hAS
          cases hAS
          exact hinv
      | some pr =>
          obtain ⟨levelIdx, blockIdx⟩ := pr
          simp only [hfb] at hAS
          by_cases hguard : levelIdx ≠ s.levels.length - 1 ∧
              (s.parents.any (fun kv => kv.2 == h)) = true
          · rw [if_pos hguard] at hAS
            exact Option.noConfusion hAS
          · rw [if_neg hguard] at hAS
            cases hget : s.levels.get? levelIdx with
            | none =>
                simp only [hget] at hAS
                cases hAS
                exact hinv
            | some lvl =>
                simp only [hget] at hAS
                cases hrm2 : lvl.removeAt blockIdx with
                | none =>
                    simp only [hrm2] at hAS
                    cases hAS
                    exact hinv
                | some pr2 =>
                    obtain ⟨overlay, lvl2⟩ := pr2
                    simp only [hrm2] at hAS
                    cases hAS
                    obtain ⟨hgi, hbe2⟩ := removeAt_inv lvl blockIdx overlay lvl2 hrm2
                    have hce : ∀ k, cntBlocks lvl2.blocks k + overlay.inserted.count k =
                        cntBlocks lvl.blocks k := by
                      intro k
                      rw [hbe2]
                      exact cntBlocks_eraseIdx lvl.blocks blockIdx overlay hgi k
                    have hhe : ∀ x, hashCntBlocks lvl2.blocks x +
                        (if overlay.hash = x then 1 else 0) =
                        hashCntBlocks lvl.blocks x := by
                      intro x
                      rw [hbe2]
                      exact hashCntBlocks_eraseIdx lvl.blocks blockIdx overlay hgi x
                    have hset := cntLevels_set s.levels levelIdx lvl lvl2 hget
                    have hhset := hashCntLevels_set s.levels levelIdx lvl lvl2 hget
                    have hle : ∀ k, overlay.inserted.count k ≤ refOf s.values k := by
                      intro k
                      have h1 := hinv.1 k
                      unfold insCount at h1
                      have h2 := hset k
                      have h3 := hce k
                      omega
                    obtain ⟨hveq, hvnz, hvnd⟩ :=
                      discardValues_spec overlay.inserted s.values hinv.2.1 hinv.2.2.1 hle
                    refine ⟨?_, hvnz, hvnd, ?_⟩
                    · intro k
                      show refOf (discardValues s.values overlay.inserted) k =
                        cntLevels (s.levels.set levelIdx lvl2) k +
                          cntPinnedIns s.pinnedInsertions k
                      have h1 := hinv.1 k
                      unfold insCount at h1
                      have h2 := hset k
                      have h3 := hce k
                      have h4 := hveq k
                      omega
                    · intro x
                      show hashCntLevels (s.levels.set levelIdx lvl2) x +
                        hashCntPI s.pinnedInsertions x ≤ 1
                      have h1 := hinv.2.2.2 x
                      have h2 := hhset x
                      have h3 := hhe x
                      omega
    cases hgl : s1.levels.getLast? with
    | none =>
        simp only [hgl] at hrm
        split at hrm
        all_goals cases hrm
        all_goals exact hinv1
    | some backLvl =>
        simp only [hgl] at hrm
        by_cases hbe : backLvl.blocks = []
        · rw [if_pos hbe] at hrm
          split at hrm
          all_goals try split at hrm
          all_goals cases hrm
          all_goals exact cntInv_dropEmptyLast s1 backLvl hgl hbe hinv1
        · rw [if_neg hbe] at hrm
          split at hrm
          all_goals try split at hrm
          all_goals cases hrm
          all_goals exact hinv1

end StateDbVerify

namespace StateDbVerify

theorem cntInv_base : CntInv Overlay.empty := by
  refine ⟨fun k => rfl, ?_, ?_, ?_⟩
  · intro k c dv hl
    exact Option.noConfusion hl
  · exact List.nodup_nil
  · intro x
    show (0 : Nat) + 0 ≤ 1
    decide

theorem cntInv_step (s s2 : Overlay) (hstep : OvStep s s2) (hinv : CntInv s) : CntInv s2 := by
  cases hstep with
  | insertS h p n cs c _ hok hfresh hpi =>
      exact cntInv_insert _ h p n cs c _ hok hfresh hpi hinv
  | canonS h c n _ hok => exact cntInv_canon _ h c n _ hok hinv
  | revertS c _ hok => exact cntInv_revert _ c _ hok hinv
  | removeS h rr _ hok => exact cntInv_remove _ h rr _ hok hinv
  | pinS h => exact cntInv_pin _ h hinv
  | unpinS h _ hok => exact cntInv_unpin _ h _ hok hinv
  | syncS _ hok => exact cntInv_sync _ _ hok hinv

theorem cntInv_reachable (s : Overlay) (hr : OvReachable s) : CntInv s := by
  induction hr with
  | base => exact cntInv_base
  | step hr hstep ih => exact cntInv_step _ _ hstep ih

/-- C4 (amended): on every overlay state reached from a fresh overlay by a
sequence of successful operations (insert with a hash not currently stored in
`levels` or retained in `pinned_insertions`, canonicalize, sync, revert_one,
remove, pin, unpin), every key present in the `values` table has a stored
refcount equal to the number of occurrences of the key across the `inserted`
lists of all `BlockOverlay`s currently stored in `levels` plus the key lists
stored in `pinned_insertions`, and a key is present in `values` if and only if
that count is nonzero.  The original claim quantifies over *every* overlay
operation, including a failed `canonicalize`, after which the property is
false (see the counterexample). -/
theorem c4_amended_refcounts (s : Overlay) (hr : OvReachable s) :
    (∀ k c dv, Assoc.lookup s.values k = some (c, dv) → c = insCount s k) ∧
    (∀ k, Assoc.containsKey s.values k = true ↔ insCount s k ≠ 0) := by
  have hinv := cntInv_reachable s hr
  constructor
  · intro k c dv hl
    have h1 := refOf_lookup_some s.values k c dv hl
    rw [← h1]
    exact hinv.1 k
  · intro k
    have h2 := containsKey_iff_refOf s.values hinv.2.1 k
    rw [h2, hinv.1 k]

/-- C4 witness: the overlay reached by a single fresh insert satisfies the
amended refcount property, instantiated at key 3. -/
theorem c4_amended_witness :
    (Assoc.containsKey exOverlay1.values 3 = true ↔ insCount exOverlay1 3 ≠ 0) ∧
    (Assoc.lookup exOverlay1.values 3 = some (1, [3]) → (1 : Nat) = insCount exOverlay1 3) :=
  ⟨(c4_amended_refcounts exOverlay1
      (OvReachable.step OvReachable.base
        (OvStep.insertS Overlay.empty 101 100 1 exChangeset exCommit1 exOverlay1
          (by decide) (by decide) (by decide)))).2 3,
    fun hl =>
      (c4_amended_refcounts exOverlay1
        (OvReachable.step OvReachable.base
          (OvStep.insertS Overlay.empty 101 100 1 exChangeset exCommit1 exOverlay1
            (by decide) (by decide) (by decide)))).1 3 1 [3] hl⟩

/-- C4 counterexample: `canonicalize(999)` on the one-block overlay pops the
front level before returning `Err(InvalidBlock)`; in the state left behind,
key 3 is still present in `values` with refcount 1 although it occurs in no
stored block and in no pinned insertion, so both halves of the claimed
invariant fail after this overlay operation. -/
theorem c4_counterexample :
    Overlay.canonicalizeOp exOverlay1 999 CommitSet.default =
      CanonResult.err StateDbError.invalidBlock { exOverlay1 with levels := [] } ∧
    Assoc.containsKey ({ exOverlay1 with levels := [] } : Overlay).values 3 = true ∧
    refOf ({ exOverlay1 with levels := [] } : Overlay).values 3 = 1 ∧
    insCount { exOverlay1 with levels := [] } 3 = 0 := by decide

end StateDbVerify
